import Mathlib

/-!
Shallow embedding of the dependency-graph analysis engine of cppdep
(`src/cppdep/graph.py`, class `Graph`, together with the legacy pipeline in
`src/graph.py`).  The networkx `DiGraph` is modelled as a duplicate-free node
list plus a duplicate-free edge list (insertion order preserved, as in
networkx/Python dictionaries); a cycle subgraph object is modelled by the
sorted list of its member identities.  Assertions of the Python code are
modelled with `Except`: each `assert` that can fire becomes a distinct error
value.
-/

namespace Cppdep

/-- A node of the working digraph: either an original (base) node carrying its
numeric identity, or the representative object of a condensed cycle, carrying
the sorted list of member identities (it stands for the networkx subgraph
object used as a dictionary key and graph node by `Graph.__condensation`). -/
inductive GNode where
  | base : Nat → GNode
  | cyc : List Nat → GNode
deriving DecidableEq, Repr

/-- A directed graph in the style of `networkx.DiGraph`: node list and edge
list, both without duplicates, in insertion order. -/
structure DG where
  nodes : List GNode
  edges : List (GNode × GNode)
deriving DecidableEq, Repr

/-- `DiGraph.add_node`: adding an existing node does nothing. -/
def DG.addNode (g : DG) (v : GNode) : DG :=
  if v ∈ g.nodes then g else { g with nodes := g.nodes ++ [v] }

/-- `DiGraph.add_edge`: missing endpoints are added; duplicate edges collapse. -/
def DG.addEdge (g : DG) (u v : GNode) : DG :=
  let g2 := (g.addNode u).addNode v
  if (u, v) ∈ g2.edges then g2 else { g2 with edges := g2.edges ++ [(u, v)] }

/-- `DiGraph.remove_node`: drops the node and every incident edge. -/
def DG.removeNode (g : DG) (v : GNode) : DG :=
  { nodes := g.nodes.filter (fun x => decide (x ≠ v)),
    edges := g.edges.filter (fun e => decide (e.1 ≠ v) && decide (e.2 ≠ v)) }

/-- Successor list of a node (`digraph[u]` / `digraph.successors(u)`). -/
def DG.succs (g : DG) (u : GNode) : List GNode :=
  (g.edges.filter (fun e => decide (e.1 = u))).map Prod.snd

/-- Predecessor list of a node (`digraph.predecessors(v)`). -/
def DG.preds (g : DG) (v : GNode) : List GNode :=
  (g.edges.filter (fun e => decide (e.2 = v))).map Prod.fst

def DG.hasEdge (g : DG) (u v : GNode) : Bool := decide ((u, v) ∈ g.edges)

/-- One breadth-first expansion step of a reachable set. -/
def DG.reachStep (g : DG) (s : List GNode) : List GNode :=
  s ++ (g.edges.filter (fun e => decide (e.1 ∈ s) && decide (e.2 ∉ s))).map Prod.snd

def DG.reachIter (g : DG) : Nat → List GNode → List GNode
  | 0, s => s
  | k + 1, s => g.reachIter k (g.reachStep s)

/-- All nodes reachable from `u` (including `u`), computed by expanding to a
fixed point; this is the reachability used by `nx.dfs_edges` traversals. -/
def DG.reachList (g : DG) (u : GNode) : List GNode :=
  g.reachIter (g.edges.length + 1) [u]

def DG.reachB (g : DG) (u v : GNode) : Bool := decide (v ∈ g.reachList u)

/-- The edge relation of a digraph, as a proposition. -/
def EdgeRel (g : DG) (a b : GNode) : Prop := (a, b) ∈ g.edges

/-- Reachability (reflexive-transitive closure of the edge relation). -/
def Reach (g : DG) : GNode → GNode → Prop := Relation.ReflTransGen (EdgeRel g)

/-- Reachability by at least one edge. -/
def ReachP (g : DG) : GNode → GNode → Prop := Relation.TransGen (EdgeRel g)

/-- `nx.is_directed_acyclic_graph`: no edge closes a directed cycle. -/
def DG.isDagB (g : DG) : Bool := g.edges.all (fun e => !(g.reachB e.2 e.1))

/-- Strongly connected component of a node, as the list of mutually reachable
nodes in node-list order. -/
def DG.sccOf (g : DG) (n : GNode) : List GNode :=
  g.nodes.filter (fun m => g.reachB n m && g.reachB m n)

def DG.sccListAux (g : DG) : List GNode → List (List GNode) → List (List GNode)
  | [], acc => acc
  | n :: rest, acc =>
    if acc.any (fun c => decide (n ∈ c)) then g.sccListAux rest acc
    else g.sccListAux rest (acc ++ [g.sccOf n])

/-- All strongly connected components, each appearing once, in the order in
which a member is first met in the node list
(`nx.strongly_connected_component_subgraphs`, materialized up front). -/
def DG.sccList (g : DG) : List (List GNode) := g.sccListAux g.nodes []

/-- Decimal digits of a natural number, most significant first, with explicit
fuel (`str(node)` for the integer-identified nodes of the test fixture). -/
def decDigitsAux : Nat → Nat → List Nat
  | 0, _ => []
  | _, 0 => []
  | fuel + 1, n => decDigitsAux fuel (n / 10) ++ [n % 10]

def decStr (n : Nat) : List Nat :=
  if n = 0 then [0] else decDigitsAux (n + 1) n

/-- String comparison on decimal representations: lexicographic on digits,
with a proper prefix comparing smaller (Python `str` ordering on digits). -/
def lexLt : List Nat → List Nat → Bool
  | [], [] => false
  | [], _ :: _ => true
  | _ :: _, [] => false
  | a :: as, b :: bs => if a < b then true else if b < a then false else lexLt as bs

def natStrLt (m n : Nat) : Bool := lexLt (decStr m) (decStr n)

/-- The payload of a base node (cycle representatives never occur where this
is used). -/
def baseId : GNode → Nat
  | .base n => n
  | .cyc _ => 0

/-- The representative node of a condensed cycle: the subgraph object, keyed
by its sorted member identities. -/
def repOf (members : List GNode) : GNode :=
  .cyc (List.insertionSort (· ≤ ·) (members.map baseId))

/-- The snapshot of one strongly connected subgraph: member nodes and the
edges strictly between members, taken before condensation mutates the graph. -/
structure Cycle where
  members : List GNode
  intra : List (GNode × GNode)
deriving DecidableEq, Repr

/-- One recorded cycle of `Graph.cycles`: the subgraph snapshot with the
incoming (`pre_edge`) and outgoing (`suc_edge`) boundary edges. -/
abbrev CycleEntry := Cycle × List (GNode × GNode) × List (GNode × GNode)

/-- `min(str(u) for u in cycle)`: the minimal decimal string over members. -/
def cycleKey (c : Cycle) : List Nat :=
  match c.members.map baseId with
  | [] => []
  | n :: rest => rest.foldl (fun acc m => if lexLt (decStr m) acc then decStr m else acc)
      (decStr n)

/-- The attributes of a `Graph` instance. -/
structure St where
  digraph : DG
  cycles : List CycleEntry
  cycle2index : List (GNode × Nat)
  node2cycle : List (GNode × GNode)
  node2cd : List (GNode × Nat)
  node2level : List (GNode × Nat)
deriving DecidableEq, Repr

/-- Association-list lookup, modelling Python dictionary indexing. -/
def assocFind {α : Type} (k : GNode) : List (GNode × α) → Option α
  | [] => none
  | (a, b) :: t => if a = k then some b else assocFind k t

/-- Association-list update, modelling Python dictionary assignment (existing
keys keep their position, new keys are appended). -/
def assocUpd {α : Type} (k : GNode) (v : α) : List (GNode × α) → List (GNode × α)
  | [] => [(k, v)]
  | (a, b) :: t => if a = k then (a, v) :: t else (a, b) :: assocUpd k v t

/-- The Python `assert` failures that the engine can raise, plus the runtime
errors of the reporting helpers. -/
inductive Err where
  /-- `assert not self.__is_external(node)` in `Graph.__init__`. -/
  | externalNode
  /-- `assert node != dependency` in `Graph.__init__`. -/
  | selfDep
  /-- `assert self.digraph.number_of_selfloops() == 0` in `analyze`. -/
  | selfLoop
  /-- `assert node not in self.node2cycle` in `Graph.__condensation`. -/
  | nodeInCycleMap
  /-- `assert node in self.digraph` in `Graph.__condensation`. -/
  | nodeGone
  /-- `assert subgraph not in self.cycles` in `Graph.__condensation`. -/
  | cycleSeen
  /-- `assert nx.is_directed_acyclic_graph(...)` in transitive reduction. -/
  | notDag
  /-- `assert self.digraph.has_node(subgraph)` in `Graph.__decondensation`. -/
  | repMissing
  /-- `max()` over an empty collection in `print_levels` (ValueError). -/
  | emptyLevels
  /-- Division by a zero node count in `print_summary` (ZeroDivisionError). -/
  | zeroNodes
deriving DecidableEq, Repr

/-- Processing of the member nodes of one cycle subgraph
(`Graph.__condensation`, the `for node in subgraph` loop): assert the node is
new and present, record it in `node2cycle`, record and reattach boundary
edges, and drop the member from the digraph. -/
def condenseMembers (rep : GNode) (members : List GNode) :
    St → List (GNode × GNode) → List (GNode × GNode) → List GNode →
    Except Err (St × List (GNode × GNode) × List (GNode × GNode))
  | st, pre, suc, [] => .ok (st, pre, suc)
  | st, pre, suc, n :: rest =>
    if (assocFind n st.node2cycle).isSome then .error .nodeInCycleMap
    else if n ∉ st.digraph.nodes then .error .nodeGone
    else
      let st1 := { st with node2cycle := assocUpd n rep st.node2cycle }
      let ps := (st1.digraph.preds n).filter (fun p => decide (p ∉ members))
      let dg2 := ps.foldl (fun g p => g.addEdge p rep) st1.digraph
      let ss := (dg2.succs n).filter (fun s => decide (s ∉ members))
      let dg3 := ss.foldl (fun g s => g.addEdge rep s) dg2
      condenseMembers rep members { st1 with digraph := dg3.removeNode n }
        (pre ++ ps.map (fun p => (p, n))) (suc ++ ss.map (fun s => (n, s))) rest

/-- Condensation of one strongly connected subgraph. -/
def condenseOne (st : St) (c : Cycle) : Except Err St :=
  match condenseMembers (repOf c.members) c.members st [] [] c.members with
  | .error e => .error e
  | .ok (st1, pre, suc) =>
    if st1.cycles.any (fun e => decide (e.1.members = c.members)) then .error .cycleSeen
    else .ok { st1 with cycles := st1.cycles ++ [(c, pre, suc)] }

/-- Stable index assignment: cycles sorted by their minimal member string. -/
def indexCycles (cycles : List CycleEntry) : List (GNode × Nat) :=
  ((List.insertionSort (fun a b => lexLt (cycleKey b.1) (cycleKey a.1) = false) cycles).enum).map
    (fun p => (repOf p.2.1.members, p.1))

/-- `Graph.__condensation`: snapshot all strongly connected subgraphs of size
at least two, condense each in turn, then assign stable cycle indices. -/
def sccSnapshots (st : St) : List Cycle :=
  (st.digraph.sccList.filter (fun c => decide (2 ≤ c.length))).map
    (fun mems =>
      ({ members := mems,
         intra := st.digraph.edges.filter
           (fun e => decide (e.1 ∈ mems) && decide (e.2 ∈ mems)) } : Cycle))

def condense (st : St) : Except Err St :=
  match (sccSnapshots st).foldlM condenseOne st with
  | .error e => .error e
  | .ok st1 => .ok { st1 with cycle2index := indexCycles st1.cycles }

/-- The targets of `nx.dfs_edges(g, v)`: every node reachable from `v` other
than `v` itself. -/
def DG.strictReach (g : DG) (v : GNode) : List GNode :=
  (g.reachList v).filter (fun x => decide (x ≠ v))

/-- The `transitive_vertex` list of `Graph.__transitive_reduction` for one
node: the descendants of each direct successor, concatenated. -/
def tvList (g : DG) (u : GNode) : List GNode :=
  (g.succs u).flatMap (fun v => g.strictReach v)

/-- One iteration of `Graph.__transitive_reduction`: for node `u`, collect the
descendants of its direct successors and remove every edge from `u` into that
collection. -/
def reduceStep (g : DG) (u : GNode) : DG :=
  { g with edges := g.edges.filter (fun e => !(decide (e.1 = u) && decide (e.2 ∈ tvList g u))) }

/-- `Graph.__transitive_reduction`, the loop over all digraph nodes. -/
def transRed (g : DG) : DG := g.nodes.foldl reduceStep g

/-- `is_external` lifted to digraph nodes; cycle subgraph objects are never
external. -/
def isExtG (isExt : Nat → Bool) : GNode → Bool
  | .base n => isExt n
  | .cyc _ => false

/-- `_get_cd` of `Graph.__calculate_ccd`: CD contribution of one node. -/
def getCd (isExt : Nat → Bool) (st : St) (n : GNode) : Nat :=
  if isExtG isExt n then 0
  else match st.cycles.find? (fun e => decide (repOf e.1.members = n)) with
    | some e => e.1.members.length
    | none => 1

/-- `_get_descendants` of `Graph.__calculate_ccd`: recursive descendant
collection, with fuel standing in for the recursion depth. -/
def descAux (g : DG) : Nat → GNode → List GNode
  | 0, _ => []
  | fuel + 1, n => (g.succs n).flatMap (fun v => v :: descAux g fuel v)

/-- The descendant set of a node, duplicate-free. -/
def DG.descendants (g : DG) (n : GNode) : List GNode :=
  (descAux g (g.edges.length + 1) n).dedup

/-- The CD value `__calculate_ccd` stores for a node of a fixed digraph. -/
def cdVal (isExt : Nat → Bool) (st : St) (n : GNode) : Nat :=
  getCd isExt st n + ((st.digraph.descendants n).map (getCd isExt st)).sum

/-- `Graph.__calculate_ccd`: stores CD for every digraph node. -/
def calcCcd (isExt : Nat → Bool) (st : St) : St :=
  let m2 := st.digraph.nodes.foldl (fun m n => assocUpd n (cdVal isExt st n) m) st.node2cd
  { st with node2cd := m2 }

/-- The base level of a node in `_get_level`: member count for a cycle
subgraph node, `not is_external(node)` (1 or 0) otherwise. -/
def levelBase (isExt : Nat → Bool) (st : St) (n : GNode) : Nat :=
  match st.cycles.find? (fun e => decide (repOf e.1.members = n)) with
  | some e => e.1.members.length
  | none => if isExtG isExt n then 0 else 1

/-- `_get_level` of `Graph.__calculate_levels` as a pure function of the
digraph (the Python memoization caches exactly these values on a fixed
graph); fuel stands in for the recursion depth. -/
def levelAux (isExt : Nat → Bool) (st : St) (g : DG) : Nat → GNode → Nat
  | 0, _ => 0
  | fuel + 1, n =>
    match g.succs n with
    | [] => levelBase isExt st n
    | ss => levelBase isExt st n + (ss.map (levelAux isExt st g fuel)).foldl Nat.max 0

/-- The level value `_get_level` computes for a node of a fixed digraph. -/
def levelVal (isExt : Nat → Bool) (st : St) (n : GNode) : Nat :=
  levelAux isExt st st.digraph (st.digraph.edges.length + 1) n

/-- `Graph.__calculate_levels`: stores the level of every digraph node that
does not already have one (the memo dictionary persists across calls). -/
def calcLevels (isExt : Nat → Bool) (st : St) : St :=
  let m2 := st.digraph.nodes.foldl
    (fun m n =>
      if (assocFind n m).isSome then m
      else assocUpd n (levelVal isExt st n) m)
    st.node2level
  { st with node2level := m2 }

/-- `Graph.__decondensation` for one recorded cycle: reattach the surviving
boundary edges, restore members and intra-cycle edges, drop the
representative. -/
def decondenseOne (st : St) (e : CycleEntry) : Except Err St :=
  let rep := repOf e.1.members
  if rep ∉ st.digraph.nodes then .error .repMissing
  else
    let dg := e.2.1.foldl (fun (g : DG) pv =>
      if (g.hasEdge pv.1 rep ||
          (match assocFind pv.1 st.node2cycle with
           | some c => g.hasEdge c rep
           | none => false))
      then g.addEdge pv.1 pv.2 else g) st.digraph
    let dg := e.2.2.foldl (fun (g : DG) uv =>
      if (g.hasEdge rep uv.2 ||
          (match assocFind uv.2 st.node2cycle with
           | some c => g.hasEdge rep c
           | none => false))
      then g.addEdge uv.1 uv.2 else g) dg
    let dg := e.1.members.foldl DG.addNode dg
    let dg := e.1.intra.foldl (fun (g : DG) uv => g.addEdge uv.1 uv.2) dg
    .ok { st with digraph := dg.removeNode rep }

/-- `Graph.__decondensation`, over all recorded cycles. -/
def decondense (st : St) : Except Err St := st.cycles.foldlM decondenseOne st

/-- `Graph.analyze`: self-loop assertion, condensation, transitive reduction
(with its DAG assertion), CCD, levels, decondensation. -/
def analyze (isExt : Nat → Bool) (st : St) : Except Err St :=
  if st.digraph.edges.any (fun e => decide (e.1 = e.2)) then .error Err.selfLoop
  else
    match condense st with
    | .error e => .error e
    | .ok st1 =>
      if !st1.digraph.isDagB then .error Err.notDag
      else
        decondense (calcLevels isExt (calcCcd isExt { st1 with digraph := transRed st1.digraph }))

/-- `Graph.get_level`: the level of a component node, through its cycle when
it has one. -/
def getLevel (st : St) (n : GNode) : Option Nat :=
  match assocFind n st.node2cycle with
  | some c => assocFind c st.node2level
  | none => assocFind n st.node2level

/-- The CCD aggregation of `Graph.print_summary`: a cycle's CD is charged
once per member. -/
def ccdOf (st : St) : Nat :=
  st.node2cd.foldl (fun acc e =>
    acc + (match st.cycles.find? (fun c => decide (repOf c.1.members = e.1)) with
           | some c => c.1.members.length * e.2
           | none => e.2)) 0

/-- The node total of `Graph.print_summary`: non-external digraph nodes. -/
def numNodes (isExt : Nat → Bool) (st : St) : Nat :=
  (st.digraph.nodes.filter (fun n => !(isExtG isExt n))).length

/-- ACCD as printed by `print_summary`; `ZeroDivisionError` on a zero count. -/
def accdOf (isExt : Nat → Bool) (st : St) : Except Err ℚ :=
  if numNodes isExt st = 0 then .error .zeroNodes
  else .ok ((ccdOf st : ℚ) / (numNodes isExt st : ℚ))

/-- `(N + 1) * log2(N + 1) - N`, the balanced-binary-tree CCD. -/
noncomputable def ccdBtree (n : Nat) : ℝ :=
  ((n : ℝ) + 1) * Real.logb 2 ((n : ℝ) + 1) - (n : ℝ)

/-- NCCD as printed by `print_summary`. -/
noncomputable def nccdOf (isExt : Nat → Bool) (st : St) : ℝ :=
  (ccdOf st : ℝ) / ccdBtree (numNodes isExt st)

/-- `print_cycles` output skeleton: nothing at all when there are no cycles,
otherwise the detected-cycle count of the header line. -/
def printCyclesHeader (st : St) : Option Nat :=
  if st.cycles.isEmpty then none else some st.cycles.length

/-- The `max(self.node2level.values())` of `print_levels`: a `ValueError`
(modelled as `Err.emptyLevels`) on an empty graph. -/
def printLevelsMax (st : St) : Except Err Nat :=
  match st.node2level.map Prod.snd with
  | [] => .error .emptyLevels
  | v :: vs => .ok (vs.foldl Nat.max v)

/-- A fresh `Graph` instance around a given digraph (all bookkeeping empty). -/
def initSt (g : DG) : St := ⟨g, [], [], [], [], []⟩

/-- A digraph built from integer nodes and edges by `add_node`/`add_edges_from`
(the construction used by the test fixture). -/
def mkDG (ns : List Nat) (es : List (Nat × Nat)) : DG :=
  es.foldl (fun g e => g.addEdge (.base e.1) (.base e.2))
    (ns.foldl (fun g n => g.addNode (.base n)) ⟨[], []⟩)

/-- The body of the `for node in nodes` loop of `Graph.__init__`: check the
node is internal, add it, and add one edge per filtered dependency, asserting
`node != dependency`. -/
def initNode (deps : Nat → List Nat) (isExt : Nat → Bool) (g : DG) (n : Nat) :
    Except Err DG :=
  if isExt n then .error Err.externalNode
  else
    (deps n).foldlM (fun (g : DG) d =>
        if n = d then .error Err.selfDep
        else .ok (g.addEdge (.base n) (.base d)))
      (g.addNode (.base n))

/-- `Graph.__init__`: filtered dependencies become edges; external or
self-dependent inputs fail the constructor assertions. -/
def graphInit (nodes : List Nat) (deps : Nat → List Nat) (isExt : Nat → Bool) :
    Except Err St :=
  match nodes.foldlM (initNode deps isExt) ({ nodes := [], edges := [] } : DG) with
  | .error e => .error e
  | .ok dg => .ok (initSt dg)

/-- The canonical 12-node fixture of `test_graph.py` (`dep_graph`). -/
def fixtureEdges : List (Nat × Nat) :=
  [(1, 2), (2, 4), (2, 6), (6, 2), (6, 7), (7, 6),
   (1, 3), (1, 5), (3, 4), (3, 5), (3, 8), (8, 9), (9, 3),
   (10, 11), (10, 12), (11, 12), (12, 11)]

def fixtureSt : St := initSt (mkDG [] fixtureEdges)

/-- Decidable strict (one-or-more-step) reachability. -/
def DG.reachPB (g : DG) (a x : GNode) : Bool :=
  g.edges.any (fun e => decide (e.1 = a) && g.reachB e.2 x)

/-- The number of strict ancestors of a node among edge sources; a measure
that strictly drops along reverse reachability in an acyclic graph. -/
def ancCard (g : DG) (x : GNode) : Nat :=
  (((g.edges.map Prod.fst).toFinset).filter (fun a => g.reachPB a x = true)).card

/-- The number of strict descendants of a node among edge targets; a measure
that strictly drops along edges in an acyclic graph. -/
def descCard (g : DG) (n : GNode) : Nat :=
  (((g.edges.map Prod.snd).toFinset).filter (fun y => g.reachPB n y = true)).card

/-- Absence of directed cycles, as a proposition. -/
def Acyclic (g : DG) : Prop := ∀ n, ¬ ReachP g n n

/-- Whether a digraph node is an original (base) node rather than a cycle
subgraph object. -/
def GNode.isBase : GNode → Bool
  | .base _ => true
  | .cyc _ => false

/-- A well-formed digraph: every edge endpoint is a node (networkx
`add_edge` guarantees this). -/
def Wf (g : DG) : Prop := ∀ e ∈ g.edges, e.1 ∈ g.nodes ∧ e.2 ∈ g.nodes

/-- No edge touches the given node. -/
def NoIncident (g : DG) (r : GNode) : Prop := ∀ e ∈ g.edges, e.1 ≠ r ∧ e.2 ≠ r

/-- `max` of a list of levels, as folded by `_get_level`. -/
def maxList (l : List Nat) : Nat := l.foldl Nat.max 0

/-- A small concrete DAG with a redundant edge 1→3, for witnesses. -/
def witnessDag : DG := mkDG [] [(1, 2), (2, 3), (1, 3)]

/-- The per-node weight in the words of the C5 claim: 1 for an ordinary node
(external nodes included), the member count for a cycle representative.  This
follows the spec text, for comparison against `getCd` of the source, which
gives external nodes weight 0. -/
def specWeight (st : St) (n : GNode) : Nat :=
  match st.cycles.find? (fun e => decide (repOf e.1.members = n)) with
  | some e => e.1.members.length
  | none => 1

/-- The CD formula in the words of the C5 claim: weight of the node plus the
weights of its descendants. -/
def specCdFormula (st : St) (n : GNode) : Nat :=
  specWeight st n + ((st.digraph.descendants n).map (specWeight st)).sum

/-- External predicate marking only node 2 external. -/
def extOnly2 : Nat → Bool := fun n => n == 2

/-- The error of a failed computation, if any. -/
def errOf {α : Type} : Except Err α → Option Err
  | .error e => some e
  | .ok _ => none


/-- The external predicate used by the fixture: no node is external. -/
def extFalse : Nat → Bool := fun _ => false

/-- The state produced by analyzing the fixture. -/
def fixtureOut : St := ((analyze extFalse fixtureSt).toOption).getD fixtureSt

/-- Dependency function of a two-node mutual dependency, for witnesses. -/
def depsTwo : Nat → List Nat := fun n => if n = 1 then [2] else [1]

/-- The builder output for the two-node mutual dependency. -/
def c8St : St :=
  (graphInit [1, 2] depsTwo extFalse).toOption.getD (initSt { nodes := [], edges := [] })

/-- The condensation of `c8St`. -/
def c8St2 : St := (condense c8St).toOption.getD c8St

/-- A fresh instance around the zero-node graph. -/
def emptySt : St := initSt (mkDG [] [])

/-- The result of analyzing the zero-node graph. -/
def emptyOut : St := (analyze extFalse emptySt).toOption.getD emptySt

/-- The filtered predecessor list of one `__condensation` member step. -/
def condStepPs (members : List GNode) (st : St) (n : GNode) : List GNode :=
  (st.digraph.preds n).filter (fun p => decide (p ∉ members))

/-- The digraph after reattaching the incoming boundary edges of one member. -/
def condStepDg2 (rep : GNode) (members : List GNode) (st : St) (n : GNode) : DG :=
  (condStepPs members st n).foldl (fun g p => g.addEdge p rep) st.digraph

/-- The filtered successor list of one `__condensation` member step. -/
def condStepSs (rep : GNode) (members : List GNode) (st : St) (n : GNode) : List GNode :=
  ((condStepDg2 rep members st n).succs n).filter (fun s => decide (s ∉ members))

/-- The digraph after reattaching the outgoing boundary edges of one member. -/
def condStepDg3 (rep : GNode) (members : List GNode) (st : St) (n : GNode) : DG :=
  (condStepSs rep members st n).foldl (fun g s => g.addEdge rep s) (condStepDg2 rep members st n)

/-- The state after one member step of `__condensation`: the member is recorded
in `node2cycle`, its boundary edges are rerouted through the representative,
and the member is dropped from the digraph. -/
def condStepSt (rep : GNode) (members : List GNode) (st : St) (n : GNode) : St :=
  { st with node2cycle := assocUpd n rep st.node2cycle,
            digraph := (condStepDg3 rep members st n).removeNode n }

/-- The bookkeeping invariant maintained by `Graph.__condensation` relative to
the original edge list `E0` and the snapshot list `snaps`: every digraph edge
is an original base-to-base edge or touches the representative of a recorded
cycle; `node2cycle` keys are base nodes and cover every recorded member; every
recorded cycle is one of the snapshots; a recorded entry's boundary edges are
original edges or touch representatives recorded strictly earlier. -/
def CondInv (E0 : List (GNode × GNode)) (snaps : List Cycle) (s : St) : Prop :=
  (∀ e ∈ s.digraph.edges,
      (e.1.isBase = true ∧ e.2.isBase = true ∧ e ∈ E0) ∨
      ∃ ce ∈ s.cycles, e.1 = repOf ce.1.members ∨ e.2 = repOf ce.1.members) ∧
  (∀ k v, assocFind k s.node2cycle = some v → k.isBase = true) ∧
  (∀ ce ∈ s.cycles, ∀ m ∈ ce.1.members, (assocFind m s.node2cycle).isSome = true) ∧
  (∀ ce ∈ s.cycles, ce.1 ∈ snaps) ∧
  (∀ D ce T, s.cycles = D ++ ce :: T →
    (∀ pn ∈ ce.2.1,
        (pn.1.isBase = true ∧ pn ∈ E0) ∨ ∃ ce2 ∈ D, pn.1 = repOf ce2.1.members) ∧
    (∀ uv ∈ ce.2.2,
        (uv.2.isBase = true ∧ uv ∈ E0) ∨ ∃ ce2 ∈ D, uv.2 = repOf ce2.1.members)) ∧
  s.digraph.nodes.Nodup

/-- A three-node graph with the cycle 1 ⇄ 2 and the boundary edge 1 → 3, a
minimal cyclic instance on which `analyze` succeeds. -/
def c10Edges : List (Nat × Nat) := [(1, 2), (2, 1), (1, 3)]

/-- A fresh instance around the minimal cyclic graph. -/
def c10St : St := initSt (mkDG [] c10Edges)

/-- The state left by the first successful `analyze` of the cyclic instance. -/
def c10St1 : St := (analyze extFalse c10St).toOption.getD c10St

/-- The canonical node image of condensation relative to a snapshot list:
members of a snapshot map to its representative, every other node to itself. -/
def cmap (cs : List Cycle) (x : GNode) : GNode :=
  match cs.find? (fun c => decide (x ∈ c.members)) with
  | some c => repOf c.members
  | none => x

/-- The numeric value of a most-significant-first digit list. -/
def digitsVal (l : List Nat) : Nat := l.foldl (fun a d => 10 * a + d) 0

/-- The second instance of the minimal cyclic graph, with the same node and
edge sets as `c10St` but built in a different insertion order. -/
def c4EdgesB : List (Nat × Nat) := [(1, 3), (2, 1), (1, 2)]

/-- A fresh instance around the reordered minimal cyclic graph. -/
def c4StB : St := initSt (mkDG [] c4EdgesB)

/-- The state left by a successful `analyze` of the reordered instance. -/
def c4StB1 : St := (analyze extFalse c4StB).toOption.getD c4StB

end Cppdep

section GraphLemmas

open Cppdep Relation

variable {g h : Cppdep.DG} {u v w x y a b n : Cppdep.GNode} {s t : List Cppdep.GNode}

lemma mem_succs : v ∈ g.succs u ↔ (u, v) ∈ g.edges := by
  simp only [DG.succs, List.mem_map, List.mem_filter, decide_eq_true_eq]
  constructor
  · rintro ⟨⟨p, q⟩, ⟨hm, rfl⟩, rfl⟩; exact hm
  · intro hm; exact ⟨(u, v), ⟨hm, rfl⟩, rfl⟩

lemma mem_preds : u ∈ g.preds v ↔ (u, v) ∈ g.edges := by
  simp only [DG.preds, List.mem_map, List.mem_filter, decide_eq_true_eq]
  constructor
  · rintro ⟨⟨p, q⟩, ⟨hm, rfl⟩, rfl⟩; exact hm
  · intro hm; exact ⟨(u, v), ⟨hm, rfl⟩, rfl⟩

lemma reach_mono (hs : ∀ e, e ∈ g.edges → e ∈ h.edges) (hr : Reach g a b) : Reach h a b :=
  ReflTransGen.mono (fun p q hpq => hs (p, q) hpq) hr

lemma reachP_mono (hs : ∀ e, e ∈ g.edges → e ∈ h.edges) (hr : ReachP g a b) : ReachP h a b :=
  TransGen.mono (fun p q hpq => hs (p, q) hpq) hr

lemma reach_of_edge (he : (a, b) ∈ g.edges) : Reach g a b :=
  ReflTransGen.single he

lemma mem_reachStep : x ∈ g.reachStep s ↔ x ∈ s ∨ ∃ a, a ∈ s ∧ (a, x) ∈ g.edges := by
  simp only [DG.reachStep, List.mem_append, List.mem_map, List.mem_filter,
    Bool.and_eq_true, decide_eq_true_eq]
  constructor
  · rintro (hx | ⟨⟨p, q⟩, ⟨hm, hp, _⟩, rfl⟩)
    · exact Or.inl hx
    · exact Or.inr ⟨p, hp, hm⟩
  · rintro (hx | ⟨a, ha, he⟩)
    · exact Or.inl hx
    · by_cases hxs : x ∈ s
      · exact Or.inl hxs
      · exact Or.inr ⟨(a, x), ⟨he, ha, hxs⟩, rfl⟩

lemma subset_reachStep (hx : x ∈ s) : x ∈ g.reachStep s :=
  mem_reachStep.mpr (Or.inl hx)

lemma reachIter_succ_out : ∀ k, g.reachIter (k + 1) s = g.reachStep (g.reachIter k s) := by
  intro k
  induction k generalizing s with
  | zero => rfl
  | succ k ih => exact ih (s := g.reachStep s)

lemma subset_reachIter : ∀ k, x ∈ s → x ∈ g.reachIter k s := by
  intro k
  induction k generalizing s with
  | zero => exact fun hx => hx
  | succ k ih => exact fun hx => ih (subset_reachStep hx)

lemma reachIter_sound : ∀ k (s : List Cppdep.GNode) x, x ∈ g.reachIter k s →
    ∃ a, a ∈ s ∧ Reach g a x := by
  intro k
  induction k with
  | zero => exact fun s x hx => ⟨x, hx, ReflTransGen.refl⟩
  | succ k ih =>
    intro s x hx
    obtain ⟨a, ha, hr⟩ := ih (g.reachStep s) x hx
    rcases mem_reachStep.mp ha with has | ⟨b, hb, he⟩
    · exact ⟨a, has, hr⟩
    · exact ⟨b, hb, ReflTransGen.head he hr⟩

lemma reachStep_congr (hst : ∀ y, y ∈ s ↔ y ∈ t) :
    ∀ y, y ∈ g.reachStep s ↔ y ∈ g.reachStep t := by
  intro y
  rw [mem_reachStep, mem_reachStep]
  constructor
  · rintro (hy | ⟨a, ha, he⟩)
    · exact Or.inl ((hst y).mp hy)
    · exact Or.inr ⟨a, (hst a).mp ha, he⟩
  · rintro (hy | ⟨a, ha, he⟩)
    · exact Or.inl ((hst y).mpr hy)
    · exact Or.inr ⟨a, (hst a).mpr ha, he⟩

lemma reachIter_congr : ∀ k, (∀ y, y ∈ s ↔ y ∈ t) →
    ∀ y, y ∈ g.reachIter k s ↔ y ∈ g.reachIter k t := by
  intro k
  induction k generalizing s t with
  | zero => exact fun hst => hst
  | succ k ih => exact fun hst => ih (reachStep_congr hst)

lemma reachIter_mono_fuel (hk : x ∈ g.reachIter k s) : x ∈ g.reachIter (k + 1) s := by
  rw [reachIter_succ_out]
  exact subset_reachStep hk

lemma reachIter_subset_universe :
    ∀ k, x ∈ g.reachIter k s → x ∈ s ∨ x ∈ g.edges.map Prod.snd := by
  intro k
  induction k generalizing s with
  | zero => exact fun hx => Or.inl hx
  | succ k ih =>
    intro hx
    rcases ih (s := g.reachStep s) hx with hs | ht
    · rcases mem_reachStep.mp hs with hs | ⟨a, _, he⟩
      · exact Or.inl hs
      · exact Or.inr (List.mem_map.mpr ⟨(a, x), he, rfl⟩)
    · exact Or.inr ht

/-- If some expansion step before the fuel bound adds nothing, the iteration
is already closed under edges. -/
lemma reachIter_stable_of_eq (hst : ∀ y, y ∈ g.reachIter (k + 1) s ↔ y ∈ g.reachIter k s) :
    ∀ m, ∀ y, y ∈ g.reachIter (k + m) s ↔ y ∈ g.reachIter k s := by
  intro m
  induction m with
  | zero => exact fun y => Iff.rfl
  | succ m ih =>
    intro y
    have h1 : g.reachIter (k + (m + 1)) s = g.reachStep (g.reachIter (k + m) s) := by
      rw [← reachIter_succ_out]
      rfl
    rw [h1]
    have h2 := reachStep_congr (g := g) ih y
    rw [h2, ← reachIter_succ_out]
    exact hst y

/-- Within the fuel bound, some expansion step adds nothing new. -/
lemma exists_stable_step (g : Cppdep.DG) (u : Cppdep.GNode) :
    ∃ k ≤ g.edges.length, ∀ y, y ∈ g.reachIter (k + 1) [u] ↔ y ∈ g.reachIter k [u] := by
  by_contra hcon
  push_neg at hcon
  have hgrow : ∀ k, k ≤ g.edges.length + 1 → k + 1 ≤ ((g.reachIter k [u]).toFinset).card := by
    intro k
    induction k with
    | zero => intro _; simp [Cppdep.DG.reachIter]
    | succ k ih =>
      intro hk
      obtain ⟨y, hy⟩ := hcon k (by omega)
      have hsub : (g.reachIter k [u]).toFinset ⊆ (g.reachIter (k + 1) [u]).toFinset := by
        intro z hz
        simp only [List.mem_toFinset] at hz ⊢
        exact reachIter_mono_fuel hz
      have hy1 : y ∈ g.reachIter (k + 1) [u] ∧ y ∉ g.reachIter k [u] := by
        rcases hy with h | h
        · exact h
        · exact absurd (reachIter_mono_fuel h.2) h.1
      have hss : (g.reachIter k [u]).toFinset ⊂ (g.reachIter (k + 1) [u]).toFinset := by
        refine ⟨hsub, fun hged => ?_⟩
        have := hged (List.mem_toFinset.mpr hy1.1)
        exact hy1.2 (List.mem_toFinset.mp this)
      have := Finset.card_lt_card hss
      have hky := ih (by omega)
      omega
  have hbound : ((g.reachIter (g.edges.length + 1) [u]).toFinset).card ≤
      g.edges.length + 1 := by
    have hsub : (g.reachIter (g.edges.length + 1) [u]).toFinset ⊆
        insert u (g.edges.map Prod.snd).toFinset := by
      intro z hz
      rcases reachIter_subset_universe _ (List.mem_toFinset.mp hz) with hzu | hzt
      · simp only [List.mem_singleton] at hzu
        simp [hzu]
      · simp [List.mem_toFinset.mpr hzt]
    calc ((g.reachIter (g.edges.length + 1) [u]).toFinset).card
        ≤ (insert u (g.edges.map Prod.snd).toFinset).card := Finset.card_le_card hsub
      _ ≤ (g.edges.map Prod.snd).toFinset.card + 1 := Finset.card_insert_le _ _
      _ ≤ (g.edges.map Prod.snd).length + 1 :=
          Nat.add_le_add_right (List.toFinset_card_le _) 1
      _ = g.edges.length + 1 := by rw [List.length_map]
  have := hgrow (g.edges.length + 1) le_rfl
  omega

/-- Completeness of the computed reachable set. -/
lemma reach_complete {g : Cppdep.DG} {u x : Cppdep.GNode} (hr : Cppdep.Reach g u x) :
    x ∈ g.reachList u := by
  obtain ⟨k, hk, hst⟩ := exists_stable_step g u
  have hT : ∀ y z, y ∈ g.reachIter k [u] → (y, z) ∈ g.edges → z ∈ g.reachIter k [u] := by
    intro y z hy he
    have hz : z ∈ g.reachStep (g.reachIter k [u]) :=
      mem_reachStep.mpr (Or.inr ⟨y, hy, he⟩)
    rw [← reachIter_succ_out] at hz
    exact (hst z).mp hz
  have hu : u ∈ g.reachIter k [u] := subset_reachIter k (by simp)
  have hx : x ∈ g.reachIter k [u] := by
    induction hr with
    | refl => exact hu
    | tail _ hbc ih => exact hT _ _ ih hbc
  have hm := reachIter_stable_of_eq hst (g.edges.length + 1 - k) x
  have hkeq : k + (g.edges.length + 1 - k) = g.edges.length + 1 := by omega
  rw [hkeq] at hm
  exact hm.mpr hx

/-- The computed reachability agrees with the relational one. -/
lemma reachB_iff {g : Cppdep.DG} {u v : Cppdep.GNode} :
    g.reachB u v = true ↔ Cppdep.Reach g u v := by
  rw [Cppdep.DG.reachB, decide_eq_true_eq]
  constructor
  · intro hv
    obtain ⟨a, ha, hr⟩ := reachIter_sound _ _ _ hv
    rw [List.mem_singleton] at ha
    rwa [ha] at hr
  · exact reach_complete

lemma reachPB_iff {g : Cppdep.DG} {a x : Cppdep.GNode} :
    g.reachPB a x = true ↔ Cppdep.ReachP g a x := by
  rw [Cppdep.DG.reachPB, List.any_eq_true]
  constructor
  · rintro ⟨⟨p, q⟩, he, hpq⟩
    rw [Bool.and_eq_true, decide_eq_true_eq] at hpq
    obtain ⟨rfl, hq⟩ := hpq
    exact Relation.TransGen.head'_iff.mpr ⟨q, he, reachB_iff.mp hq⟩
  · intro hax
    obtain ⟨b, hab, hbx⟩ := Relation.TransGen.head'_iff.mp hax
    refine ⟨(a, b), hab, ?_⟩
    rw [Bool.and_eq_true, decide_eq_true_eq]
    exact ⟨rfl, reachB_iff.mpr hbx⟩

/-- The DAG check of the source agrees with acyclicity. -/
lemma isDagB_iff {g : Cppdep.DG} : g.isDagB = true ↔ Cppdep.Acyclic g := by
  rw [Cppdep.DG.isDagB, List.all_eq_true]
  constructor
  · intro hall n hn
    obtain ⟨b, hnb, hbn⟩ := Relation.TransGen.head'_iff.mp hn
    have := hall (n, b) hnb
    rw [Bool.not_eq_true', ← Bool.not_eq_true] at this
    exact this (reachB_iff.mpr hbn)
  · intro hA e he
    rw [Bool.not_eq_true', ← Bool.not_eq_true]
    intro hr
    exact hA e.1 (Relation.TransGen.head'_iff.mpr ⟨e.2, he, reachB_iff.mp hr⟩)

/-- The ancestor count strictly drops backwards along strict reachability in
an acyclic graph. -/
lemma ancCard_lt_of_reachP {g : Cppdep.DG} {v b : Cppdep.GNode}
    (hA : Cppdep.Acyclic g) (hvb : Cppdep.ReachP g v b) :
    Cppdep.ancCard g v < Cppdep.ancCard g b := by
  apply Finset.card_lt_card
  constructor
  · intro a ha
    rw [Finset.mem_filter] at ha ⊢
    refine ⟨ha.1, ?_⟩
    rw [reachPB_iff] at ha ⊢
    exact ha.2.trans hvb
  · intro hged
    have hvmem : v ∈ ((g.edges.map Prod.fst).toFinset).filter (fun a => g.reachPB a b = true) := by
      rw [Finset.mem_filter]
      obtain ⟨c, hvc, _⟩ := Relation.TransGen.head'_iff.mp hvb
      refine ⟨List.mem_toFinset.mpr (List.mem_map.mpr ⟨(v, c), hvc, rfl⟩), ?_⟩
      rw [reachPB_iff]
      exact hvb
    have := hged hvmem
    rw [Finset.mem_filter, reachPB_iff] at this
    exact hA v this.2

/-- The descendant count strictly drops along an edge in an acyclic graph. -/
lemma descCard_lt_of_edge {g : Cppdep.DG} {n v : Cppdep.GNode}
    (hA : Cppdep.Acyclic g) (he : (n, v) ∈ g.edges) :
    Cppdep.descCard g v < Cppdep.descCard g n := by
  apply Finset.card_lt_card
  constructor
  · intro y hy
    rw [Finset.mem_filter] at hy ⊢
    refine ⟨hy.1, ?_⟩
    rw [reachPB_iff] at hy ⊢
    exact (Relation.TransGen.single he).trans hy.2
  · intro hged
    have hvmem : v ∈ ((g.edges.map Prod.snd).toFinset).filter (fun y => g.reachPB n y = true) := by
      rw [Finset.mem_filter]
      refine ⟨List.mem_toFinset.mpr (List.mem_map.mpr ⟨(n, v), he, rfl⟩), ?_⟩
      rw [reachPB_iff]
      exact Relation.TransGen.single he
    have := hged hvmem
    rw [Finset.mem_filter, reachPB_iff] at this
    exact hA v this.2

lemma descCard_le_edges {g : Cppdep.DG} {n : Cppdep.GNode} :
    Cppdep.descCard g n ≤ g.edges.length := by
  calc Cppdep.descCard g n
      ≤ (g.edges.map Prod.snd).toFinset.card := Finset.card_filter_le _ _
    _ ≤ (g.edges.map Prod.snd).length := List.toFinset_card_le _
    _ = g.edges.length := List.length_map _ _

lemma mem_reachList_iff {g : Cppdep.DG} {u x : Cppdep.GNode} :
    x ∈ g.reachList u ↔ Cppdep.Reach g u x := by
  rw [← reachB_iff, Cppdep.DG.reachB, decide_eq_true_eq]

lemma mem_strictReach {g : Cppdep.DG} {v x : Cppdep.GNode} :
    x ∈ g.strictReach v ↔ Cppdep.Reach g v x ∧ x ≠ v := by
  rw [Cppdep.DG.strictReach, List.mem_filter, mem_reachList_iff, decide_eq_true_eq]

lemma mem_tvList {g : Cppdep.DG} {u x : Cppdep.GNode} :
    x ∈ Cppdep.tvList g u ↔ ∃ v, (u, v) ∈ g.edges ∧ Cppdep.Reach g v x ∧ x ≠ v := by
  rw [Cppdep.tvList, List.mem_flatMap]
  constructor
  · rintro ⟨v, hv, hx⟩
    obtain ⟨hr, hne⟩ := mem_strictReach.mp hx
    exact ⟨v, mem_succs.mp hv, hr, hne⟩
  · rintro ⟨v, he, hr, hne⟩
    exact ⟨v, mem_succs.mpr he, mem_strictReach.mpr ⟨hr, hne⟩⟩

lemma reduceStep_nodes {g : Cppdep.DG} {u : Cppdep.GNode} :
    (Cppdep.reduceStep g u).nodes = g.nodes := rfl

lemma mem_reduceStep {g : Cppdep.DG} {u : Cppdep.GNode} {e : Cppdep.GNode × Cppdep.GNode} :
    e ∈ (Cppdep.reduceStep g u).edges ↔
      e ∈ g.edges ∧ ¬(e.1 = u ∧ e.2 ∈ Cppdep.tvList g u) := by
  rw [Cppdep.reduceStep]
  simp only [List.mem_filter, Bool.not_eq_eq_eq_not, Bool.not_true, Bool.and_eq_false_imp,
    decide_eq_true_eq]
  constructor
  · rintro ⟨hm, hc⟩
    refine ⟨hm, ?_⟩
    rintro ⟨h1, h2⟩
    have := hc (by rw [h1])
    rw [decide_eq_false_iff_not] at this
    exact this h2
  · rintro ⟨hm, hc⟩
    refine ⟨hm, fun h1 => ?_⟩
    rw [decide_eq_false_iff_not]
    exact fun h2 => hc ⟨h1, h2⟩

lemma reduceStep_subset {g : Cppdep.DG} {u : Cppdep.GNode} {e : Cppdep.GNode × Cppdep.GNode}
    (he : e ∈ (Cppdep.reduceStep g u).edges) : e ∈ g.edges :=
  (mem_reduceStep.mp he).1

lemma acyclic_of_subset {g h : Cppdep.DG} (hs : ∀ e, e ∈ h.edges → e ∈ g.edges)
    (hA : Cppdep.Acyclic g) : Cppdep.Acyclic h :=
  fun n hn => hA n (reachP_mono hs hn)

lemma reachP_of_reach_ne {g : Cppdep.DG} {a b : Cppdep.GNode}
    (hr : Cppdep.Reach g a b) (hne : b ≠ a) : Cppdep.ReachP g a b := by
  rcases Relation.reflTransGen_iff_eq_or_transGen.mp hr with h | h
  · exact absurd h hne
  · exact h

/-- A path out of a direct successor of `u` never goes through `u` in an
acyclic graph, so it survives the removal step at `u`. -/
lemma reach_reduceStep_of_avoid {g : Cppdep.DG} {u v x : Cppdep.GNode}
    (hA : Cppdep.Acyclic g) (huv : (u, v) ∈ g.edges) (hr : Cppdep.Reach g v x) :
    Cppdep.Reach (Cppdep.reduceStep g u) v x := by
  induction hr with
  | refl => exact Relation.ReflTransGen.refl
  | @tail b c hvb hbc ih =>
    have hbne : b ≠ u := by
      rintro rfl
      exact hA b (Relation.TransGen.head'_iff.mpr ⟨v, huv, hvb⟩)
    exact ih.tail (mem_reduceStep.mpr ⟨hbc, fun hc => hbne hc.1⟩)

/-- Every removed edge of `u` is still covered by a surviving path. -/
lemma reach_reduceStep_edge {g : Cppdep.DG} {u : Cppdep.GNode}
    (hA : Cppdep.Acyclic g) :
    ∀ N b, Cppdep.ancCard g b < N → (u, b) ∈ g.edges →
      Cppdep.Reach (Cppdep.reduceStep g u) u b := by
  intro N
  induction N with
  | zero => exact fun b hb => absurd hb (Nat.not_lt_zero _)
  | succ N ih =>
    intro b hlt hub
    by_cases hmem : b ∈ Cppdep.tvList g u
    · obtain ⟨v, huv, hvb, hne⟩ := mem_tvList.mp hmem
      have hvbP : Cppdep.ReachP g v b := reachP_of_reach_ne hvb hne
      have hv2 : Cppdep.Reach (Cppdep.reduceStep g u) v b :=
        reach_reduceStep_of_avoid hA huv hvb
      have hanc := ancCard_lt_of_reachP hA hvbP
      have hu2 : Cppdep.Reach (Cppdep.reduceStep g u) u v := ih v (by omega) huv
      exact hu2.trans hv2
    · exact Relation.ReflTransGen.single (mem_reduceStep.mpr ⟨hub, fun hc => hmem hc.2⟩)

/-- One removal step of the transitive reduction preserves reachability. -/
lemma reduceStep_reach_iff {g : Cppdep.DG} {u a b : Cppdep.GNode}
    (hA : Cppdep.Acyclic g) :
    Cppdep.Reach (Cppdep.reduceStep g u) a b ↔ Cppdep.Reach g a b := by
  constructor
  · exact reach_mono (fun e he => reduceStep_subset he)
  · intro hr
    induction hr with
    | refl => exact Relation.ReflTransGen.refl
    | @tail c d hac hcd ih =>
      by_cases hcu : c = u
      · subst hcu
        exact ih.trans (reach_reduceStep_edge hA (Cppdep.ancCard g d + 1) d (Nat.lt_succ_self _) hcd)
      · exact ih.tail (mem_reduceStep.mpr ⟨hcd, fun hc => hcu hc.1⟩)

lemma foldl_reduceStep_reach (l : List Cppdep.GNode) :
    ∀ g : Cppdep.DG, Cppdep.Acyclic g → ∀ a b,
      Cppdep.Reach (l.foldl Cppdep.reduceStep g) a b ↔ Cppdep.Reach g a b := by
  induction l with
  | nil => exact fun g _ a b => Iff.rfl
  | cons u l ih =>
    intro g hA a b
    have hA2 : Cppdep.Acyclic (Cppdep.reduceStep g u) :=
      acyclic_of_subset (fun e he => reduceStep_subset he) hA
    rw [List.foldl_cons, ih _ hA2]
    exact reduceStep_reach_iff hA

lemma foldl_reduceStep_subset (l : List Cppdep.GNode) :
    ∀ (g : Cppdep.DG) e, e ∈ (l.foldl Cppdep.reduceStep g).edges → e ∈ g.edges := by
  induction l with
  | nil => exact fun g e he => he
  | cons u l ih =>
    intro g e he
    exact reduceStep_subset (ih _ e he)

lemma foldl_reduceStep_nodes (l : List Cppdep.GNode) :
    ∀ g : Cppdep.DG, (l.foldl Cppdep.reduceStep g).nodes = g.nodes := by
  induction l with
  | nil => exact fun g => rfl
  | cons u l ih => exact fun g => ih _

lemma transRed_reach_iff {g : Cppdep.DG} (hA : Cppdep.Acyclic g) {a b : Cppdep.GNode} :
    Cppdep.Reach (Cppdep.transRed g) a b ↔ Cppdep.Reach g a b :=
  foldl_reduceStep_reach g.nodes g hA a b

lemma levelAux_fuel_inv {isExt : Nat → Bool} {st : Cppdep.St} {g : Cppdep.DG}
    (hA : Cppdep.Acyclic g) :
    ∀ f1 f2 n, Cppdep.descCard g n < f1 → Cppdep.descCard g n < f2 →
      Cppdep.levelAux isExt st g f1 n = Cppdep.levelAux isExt st g f2 n := by
  intro f1
  induction f1 with
  | zero => exact fun f2 n h1 _ => absurd h1 (Nat.not_lt_zero _)
  | succ f1 ih =>
    intro f2 n h1 h2
    cases f2 with
    | zero => exact absurd h2 (Nat.not_lt_zero _)
    | succ f2 =>
      cases hs : g.succs n with
      | nil => simp [Cppdep.levelAux, hs]
      | cons a l =>
        simp only [Cppdep.levelAux, hs]
        have hmap : (a :: l).map (Cppdep.levelAux isExt st g f1) =
            (a :: l).map (Cppdep.levelAux isExt st g f2) := by
          apply List.map_congr_left
          intro v hv
          have hedge : (n, v) ∈ g.edges := mem_succs.mp (by rw [hs]; exact hv)
          have hd := descCard_lt_of_edge hA hedge
          exact ih f2 v (by omega) (by omega)
        rw [hmap]

/-- `_get_level` satisfies its intended recurrence on an acyclic digraph:
base value for a node without successors, base plus the successor maximum
otherwise. -/
lemma levelVal_rec {isExt : Nat → Bool} {st : Cppdep.St}
    (hA : Cppdep.Acyclic st.digraph) (n : Cppdep.GNode) :
    Cppdep.levelVal isExt st n =
      (if st.digraph.succs n = [] then Cppdep.levelBase isExt st n
       else Cppdep.levelBase isExt st n +
         Cppdep.maxList ((st.digraph.succs n).map (Cppdep.levelVal isExt st))) := by
  rw [Cppdep.levelVal]
  cases hs : st.digraph.succs n with
  | nil => simp [Cppdep.levelAux, hs]
  | cons a l =>
    simp only [Cppdep.levelAux, hs, if_neg (List.cons_ne_nil a l), Cppdep.maxList]
    have hmap : (a :: l).map (Cppdep.levelAux isExt st st.digraph (st.digraph.edges.length)) =
        (a :: l).map (Cppdep.levelVal isExt st) := by
      apply List.map_congr_left
      intro v hv
      have hedge : (n, v) ∈ st.digraph.edges := mem_succs.mp (by rw [hs]; exact hv)
      have hd := descCard_lt_of_edge hA hedge
      have hb : Cppdep.descCard st.digraph n ≤ st.digraph.edges.length := descCard_le_edges
      exact levelAux_fuel_inv hA _ _ v (by omega) (by omega)
    rw [hmap]

/-- `_get_descendants` collects exactly the strictly reachable nodes, given
enough fuel, on an acyclic digraph. -/
lemma descAux_iff {g : Cppdep.DG} (hA : Cppdep.Acyclic g) :
    ∀ fuel n, Cppdep.descCard g n < fuel →
      ∀ x, (x ∈ Cppdep.descAux g fuel n ↔ Cppdep.ReachP g n x) := by
  intro fuel
  induction fuel with
  | zero => exact fun n h => absurd h (Nat.not_lt_zero _)
  | succ fuel ih =>
    intro n hn x
    simp only [Cppdep.descAux, List.mem_flatMap, List.mem_cons]
    constructor
    · rintro ⟨v, hv, hx | hx⟩
      · subst hx
        exact Relation.TransGen.single (mem_succs.mp hv)
      · have hedge := mem_succs.mp hv
        have hd := descCard_lt_of_edge hA hedge
        have := (ih v (by omega) x).mp hx
        exact (Relation.TransGen.single hedge).trans this
    · intro hx
      obtain ⟨b, hnb, hbx⟩ := Relation.TransGen.head'_iff.mp hx
      rcases Relation.reflTransGen_iff_eq_or_transGen.mp hbx with h | h
      · exact ⟨b, mem_succs.mpr hnb, Or.inl h⟩
      · have hd := descCard_lt_of_edge hA hnb
        exact ⟨b, mem_succs.mpr hnb, Or.inr ((ih b (by omega) x).mpr h)⟩

lemma mem_descendants_iff {g : Cppdep.DG} (hA : Cppdep.Acyclic g) {n x : Cppdep.GNode} :
    x ∈ g.descendants n ↔ Cppdep.ReachP g n x := by
  rw [Cppdep.DG.descendants, List.mem_dedup]
  exact descAux_iff hA _ n (by have := descCard_le_edges (g := g) (n := n); omega) x

/-- The CD stored by `__calculate_ccd` equals the node's own contribution
plus the contributions of its strictly reachable descendants, summed as a
set. -/
lemma cdVal_eq_sum {isExt : Nat → Bool} {st : Cppdep.St}
    (hA : Cppdep.Acyclic st.digraph) (n : Cppdep.GNode) :
    Cppdep.cdVal isExt st n =
      Cppdep.getCd isExt st n +
        ∑ v ∈ ((st.digraph.edges.map Prod.snd).toFinset).filter
            (fun v => st.digraph.reachPB n v = true), Cppdep.getCd isExt st v := by
  rw [Cppdep.cdVal]
  congr 1
  have hsetEq : (st.digraph.descendants n).toFinset =
      ((st.digraph.edges.map Prod.snd).toFinset).filter
        (fun v => st.digraph.reachPB n v = true) := by
    ext v
    rw [List.mem_toFinset, Finset.mem_filter, mem_descendants_iff hA, List.mem_toFinset,
      reachPB_iff]
    constructor
    · intro hr
      obtain ⟨b, hbv, hnb⟩ := Relation.TransGen.tail'_iff.mp hr
      exact ⟨List.mem_map.mpr ⟨(b, v), hnb, rfl⟩, hr⟩
    · exact fun h => h.2
  have hnd : (st.digraph.descendants n).Nodup := by
    rw [Cppdep.DG.descendants]
    exact List.nodup_dedup _
  calc (List.map (Cppdep.getCd isExt st) (st.digraph.descendants n)).sum
      = (st.digraph.descendants n).toFinset.sum (Cppdep.getCd isExt st) :=
        (List.sum_toFinset _ hnd).symm
    _ = _ := by rw [hsetEq]

lemma assocFind_upd_self {α : Type} (k : Cppdep.GNode) (v : α) :
    ∀ m : List (Cppdep.GNode × α), Cppdep.assocFind k (Cppdep.assocUpd k v m) = some v := by
  intro m
  induction m with
  | nil => simp [Cppdep.assocUpd, Cppdep.assocFind]
  | cons p t ih =>
    obtain ⟨a, b⟩ := p
    by_cases hp : a = k
    · subst hp
      simp [Cppdep.assocUpd, Cppdep.assocFind]
    · simp [Cppdep.assocUpd, Cppdep.assocFind, hp, ih]

lemma assocFind_upd_other {α : Type} {k k' : Cppdep.GNode} (v : α) (h : k' ≠ k) :
    ∀ m : List (Cppdep.GNode × α),
      Cppdep.assocFind k' (Cppdep.assocUpd k v m) = Cppdep.assocFind k' m := by
  intro m
  induction m with
  | nil => simp [Cppdep.assocUpd, Cppdep.assocFind, Ne.symm h]
  | cons p t ih =>
    obtain ⟨a, b⟩ := p
    by_cases hp : a = k
    · subst hp
      simp [Cppdep.assocUpd, Cppdep.assocFind, Ne.symm h]
    · simp [Cppdep.assocUpd, Cppdep.assocFind, hp, ih]

lemma foldl_assocUpd_not_mem (val : Cppdep.GNode → Nat) :
    ∀ (l : List Cppdep.GNode) (m : List (Cppdep.GNode × Nat)) (k : Cppdep.GNode), k ∉ l →
      Cppdep.assocFind k (l.foldl (fun m n => Cppdep.assocUpd n (val n) m) m) =
        Cppdep.assocFind k m := by
  intro l
  induction l with
  | nil => exact fun m k _ => rfl
  | cons n l ih =>
    intro m k hk
    rw [List.mem_cons, not_or] at hk
    rw [List.foldl_cons, ih _ k hk.2, assocFind_upd_other _ hk.1]

lemma foldl_assocUpd_mem (val : Cppdep.GNode → Nat) :
    ∀ (l : List Cppdep.GNode) (m : List (Cppdep.GNode × Nat)) (k : Cppdep.GNode), k ∈ l →
      Cppdep.assocFind k (l.foldl (fun m n => Cppdep.assocUpd n (val n) m) m) =
        some (val k) := by
  intro l
  induction l with
  | nil => exact fun m k hk => absurd hk (List.not_mem_nil k)
  | cons n l ih =>
    intro m k hk
    by_cases hkl : k ∈ l
    · exact ih _ k hkl
    · have hkn : k = n := by
        rcases List.mem_cons.mp hk with h | h
        · exact h
        · exact absurd h hkl
      subst hkn
      rw [List.foldl_cons, foldl_assocUpd_not_mem val l _ k hkl, assocFind_upd_self]

lemma memoFold_not_mem (val : Cppdep.GNode → Nat) :
    ∀ (l : List Cppdep.GNode) (m : List (Cppdep.GNode × Nat)) (k : Cppdep.GNode), k ∉ l →
      Cppdep.assocFind k
        (l.foldl (fun m n =>
          if (Cppdep.assocFind n m).isSome then m else Cppdep.assocUpd n (val n) m) m) =
        Cppdep.assocFind k m := by
  intro l
  induction l with
  | nil => exact fun m k _ => rfl
  | cons n l ih =>
    intro m k hk
    rw [List.mem_cons, not_or] at hk
    rw [List.foldl_cons, ih _ k hk.2]
    by_cases hp : (Cppdep.assocFind n m).isSome
    · rw [if_pos hp]
    · rw [if_neg hp, assocFind_upd_other _ hk.1]

lemma memoFold_isSome_mono (val : Cppdep.GNode → Nat) :
    ∀ (l : List Cppdep.GNode) (m : List (Cppdep.GNode × Nat)) (k : Cppdep.GNode),
      (Cppdep.assocFind k m).isSome →
      (Cppdep.assocFind k
        (l.foldl (fun m n =>
          if (Cppdep.assocFind n m).isSome then m else Cppdep.assocUpd n (val n) m) m)).isSome := by
  intro l
  induction l with
  | nil => exact fun m k hk => hk
  | cons n l ih =>
    intro m k hk
    rw [List.foldl_cons]
    apply ih
    by_cases hp : (Cppdep.assocFind n m).isSome
    · rwa [if_pos hp]
    · rw [if_neg hp]
      by_cases hkn : k = n
      · subst hkn
        rw [assocFind_upd_self]
        rfl
      · rwa [assocFind_upd_other _ hkn]

lemma memoFold_find (val : Cppdep.GNode → Nat) :
    ∀ (l : List Cppdep.GNode) (m : List (Cppdep.GNode × Nat)),
      (∀ k v, Cppdep.assocFind k m = some v → v = val k) →
      (∀ k v, Cppdep.assocFind k
          (l.foldl (fun m n =>
            if (Cppdep.assocFind n m).isSome then m else Cppdep.assocUpd n (val n) m) m) =
          some v → v = val k) ∧
      (∀ k, k ∈ l → Cppdep.assocFind k
          (l.foldl (fun m n =>
            if (Cppdep.assocFind n m).isSome then m else Cppdep.assocUpd n (val n) m) m) =
          some (val k)) := by
  intro l
  induction l with
  | nil => exact fun m hm => ⟨hm, fun k hk => absurd hk (List.not_mem_nil k)⟩
  | cons n l ih =>
    intro m hm
    have hm2 : ∀ k v, Cppdep.assocFind k
        (if (Cppdep.assocFind n m).isSome then m else Cppdep.assocUpd n (val n) m) =
        some v → v = val k := by
      intro k v hv
      by_cases hp : (Cppdep.assocFind n m).isSome
      · rw [if_pos hp] at hv
        exact hm k v hv
      · rw [if_neg hp] at hv
        by_cases hkn : k = n
        · subst hkn
          rw [assocFind_upd_self] at hv
          cases hv
          rfl
        · rw [assocFind_upd_other _ hkn] at hv
          exact hm k v hv
    obtain ⟨ha, hb⟩ := ih _ hm2
    refine ⟨fun k v hv => ha k v (by rwa [List.foldl_cons] at hv), ?_⟩
    intro k hk
    rcases List.mem_cons.mp hk with hkn | hkl
    · subst hkn
      have hsome : (Cppdep.assocFind k
          (if (Cppdep.assocFind k m).isSome then m else Cppdep.assocUpd k (val k) m)).isSome := by
        by_cases hp : (Cppdep.assocFind k m).isSome
        · rwa [if_pos hp]
        · rw [if_neg hp, assocFind_upd_self]
          rfl
      have hmono := memoFold_isSome_mono val l _ k hsome
      rw [List.foldl_cons]
      obtain ⟨v, hv⟩ := Option.isSome_iff_exists.mp hmono
      rw [hv, ha k v hv]
    · rw [List.foldl_cons]
      exact hb k hkl

/-- `__calculate_ccd` stores the computed value for every digraph node. -/
lemma calcCcd_find {isExt : Nat → Bool} {st : Cppdep.St} {n : Cppdep.GNode}
    (hn : n ∈ st.digraph.nodes) :
    Cppdep.assocFind n (Cppdep.calcCcd isExt st).node2cd =
      some (Cppdep.cdVal isExt st n) :=
  foldl_assocUpd_mem _ _ _ _ hn

/-- `__calculate_levels` stores the computed value for every digraph node,
provided the memo has no stale entries. -/
lemma calcLevels_find {isExt : Nat → Bool} {st : Cppdep.St} {n : Cppdep.GNode}
    (hn : n ∈ st.digraph.nodes)
    (hm : ∀ k v, Cppdep.assocFind k st.node2level = some v → v = Cppdep.levelVal isExt st k) :
    Cppdep.assocFind n (Cppdep.calcLevels isExt st).node2level =
      some (Cppdep.levelVal isExt st n) :=
  (memoFold_find _ _ _ hm).2 n hn

/-- Invariant preservation through a fallible fold, where the step may use
membership of the element in the folded list. -/
lemma except_foldlM_inv {σ β : Type} (P : σ → Prop) (l : List β)
    (f : σ → β → Except Cppdep.Err σ)
    (hf : ∀ s b s', b ∈ l → P s → f s b = .ok s' → P s') :
    ∀ s s', P s → l.foldlM f s = .ok s' → P s' := by
  induction l with
  | nil =>
    intro s s' hs h
    cases h
    exact hs
  | cons b l ih =>
    intro s s' hs h
    rw [List.foldlM_cons] at h
    cases hfb : f s b with
    | error e =>
      rw [hfb] at h
      cases h
    | ok s1 =>
      rw [hfb] at h
      exact ih (fun s b2 s2 hb2 => hf s b2 s2 (List.mem_cons_of_mem b hb2)) s1 s'
        (hf s b s1 (List.mem_cons_self b l) hs hfb) h

lemma addNode_edges {g : Cppdep.DG} {v : Cppdep.GNode} : (g.addNode v).edges = g.edges := by
  rw [Cppdep.DG.addNode]
  split <;> rfl

lemma mem_addEdge {g : Cppdep.DG} {u v : Cppdep.GNode} {e : Cppdep.GNode × Cppdep.GNode} :
    e ∈ (g.addEdge u v).edges ↔ e ∈ g.edges ∨ e = (u, v) := by
  simp only [Cppdep.DG.addEdge, addNode_edges]
  by_cases hmem : (u, v) ∈ g.edges
  · rw [if_pos hmem, addNode_edges, addNode_edges]
    constructor
    · exact Or.inl
    · rintro (h | rfl)
      · exact h
      · exact hmem
  · rw [if_neg hmem]
    show e ∈ g.edges ++ [(u, v)] ↔ _
    rw [List.mem_append, List.mem_singleton]

lemma mem_addNode {g : Cppdep.DG} {v x : Cppdep.GNode} :
    x ∈ (g.addNode v).nodes ↔ x ∈ g.nodes ∨ x = v := by
  rw [Cppdep.DG.addNode]
  split
  · rename_i hmem
    constructor
    · exact Or.inl
    · rintro (h | rfl)
      · exact h
      · exact hmem
  · rw [List.mem_append, List.mem_singleton]

lemma mem_addEdge_nodes {g : Cppdep.DG} {u v x : Cppdep.GNode} :
    x ∈ (g.addEdge u v).nodes ↔ x ∈ g.nodes ∨ x = u ∨ x = v := by
  rw [Cppdep.DG.addEdge]
  split <;> simp [mem_addNode, or_assoc]

/-- `condenseMembers` leaves the recorded cycle list unchanged. -/
lemma condenseMembers_cycles {rep : Cppdep.GNode} {members : List Cppdep.GNode} :
    ∀ (l : List Cppdep.GNode) (st : Cppdep.St) (pre suc : List (Cppdep.GNode × Cppdep.GNode))
      (st1 : Cppdep.St) (p1 s1 : List (Cppdep.GNode × Cppdep.GNode)),
      Cppdep.condenseMembers rep members st pre suc l = .ok (st1, p1, s1) →
      st1.cycles = st.cycles := by
  intro l
  induction l with
  | nil =>
    intro st pre suc st1 p1 s1 h
    cases h
    rfl
  | cons n l ih =>
    intro st pre suc st1 p1 s1 h
    rw [Cppdep.condenseMembers] at h
    split at h
    · cases h
    · split at h
      · cases h
      · simp only [] at h
        have h2 := ih _ _ _ _ _ _ h
        exact h2

/-- `condenseOne` appends exactly one recorded cycle. -/
lemma condenseOne_cycles {st st2 : Cppdep.St} {c : Cppdep.Cycle}
    (h : Cppdep.condenseOne st c = .ok st2) :
    ∃ pre suc, st2.cycles = st.cycles ++ [(c, pre, suc)] := by
  rw [Cppdep.condenseOne] at h
  cases hcm : Cppdep.condenseMembers (Cppdep.repOf c.members) c.members st [] [] c.members with
  | error e =>
    rw [hcm] at h
    cases h
  | ok r =>
    obtain ⟨st1, pre, suc⟩ := r
    rw [hcm] at h
    have h2 : (if (st1.cycles.any fun e => decide (e.1.members = c.members)) = true
        then (Except.error Cppdep.Err.cycleSeen : Except Cppdep.Err Cppdep.St)
        else Except.ok { st1 with cycles := st1.cycles ++ [(c, pre, suc)] }) = Except.ok st2 := h
    by_cases hany : (st1.cycles.any fun e => decide (e.1.members = c.members)) = true
    · rw [if_pos hany] at h2
      cases h2
    · rw [if_neg hany] at h2
      cases h2
      refine ⟨pre, suc, ?_⟩
      show st1.cycles ++ [(c, pre, suc)] = st.cycles ++ [(c, pre, suc)]
      rw [condenseMembers_cycles _ _ _ _ _ _ _ hcm]

/-- Every cycle recorded by `__condensation` has at least two members. -/
lemma condense_cycles_ge2 {st st2 : Cppdep.St} (hok : Cppdep.condense st = .ok st2)
    (hinit : st.cycles = []) :
    ∀ e ∈ st2.cycles, 2 ≤ e.1.members.length := by
  rw [Cppdep.condense] at hok
  cases hres : (Cppdep.sccSnapshots st).foldlM Cppdep.condenseOne st with
  | error e =>
    rw [hres] at hok
    cases hok
  | ok st1 =>
    rw [hres] at hok
    cases hok
    show ∀ e ∈ st1.cycles, 2 ≤ e.1.members.length
    have hmem : ∀ (s : Cppdep.St) (c : Cppdep.Cycle) (s' : Cppdep.St),
        c ∈ Cppdep.sccSnapshots st →
        (∀ e ∈ s.cycles, 2 ≤ e.1.members.length) → Cppdep.condenseOne s c = .ok s' →
        ∀ e ∈ s'.cycles, 2 ≤ e.1.members.length := by
      intro s c s' hc hs hone e he
      obtain ⟨pre, suc, hcy⟩ := condenseOne_cycles hone
      rw [hcy, List.mem_append, List.mem_singleton] at he
      rcases he with he | rfl
      · exact hs e he
      · obtain ⟨mems, hmems, rfl⟩ := List.mem_map.mp (by rwa [Cppdep.sccSnapshots] at hc)
        have := List.mem_filter.mp hmems
        rw [decide_eq_true_eq] at this
        exact this.2
    exact except_foldlM_inv _ _ _ hmem st st1 (by rw [hinit]; exact fun e he => absurd he (List.not_mem_nil e)) hres

/-- A successful `Graph.__init__` starts with empty bookkeeping. -/
lemma graphInit_cycles {nodes : List Nat} {deps : Nat → List Nat} {isExt : Nat → Bool}
    {st : Cppdep.St} (hok : Cppdep.graphInit nodes deps isExt = .ok st) : st.cycles = [] := by
  rw [Cppdep.graphInit] at hok
  cases hres : nodes.foldlM (Cppdep.initNode deps isExt)
      ({ nodes := [], edges := [] } : Cppdep.DG) with
  | error e =>
    rw [hres] at hok
    cases hok
  | ok dg =>
    rw [hres] at hok
    cases hok
    rfl

/-- No edge built by `Graph.__init__` is a self-loop: the constructor asserts
`node != dependency` before adding each edge. -/
lemma graphInit_no_self_edge {nodes : List Nat} {deps : Nat → List Nat} {isExt : Nat → Bool}
    {st : Cppdep.St} (hok : Cppdep.graphInit nodes deps isExt = .ok st) :
    ∀ e ∈ st.digraph.edges, e.1 ≠ e.2 := by
  rw [Cppdep.graphInit] at hok
  cases hres : nodes.foldlM (Cppdep.initNode deps isExt)
      ({ nodes := [], edges := [] } : Cppdep.DG) with
  | error e =>
    rw [hres] at hok
    cases hok
  | ok dg =>
    rw [hres] at hok
    cases hok
    show ∀ e ∈ dg.edges, e.1 ≠ e.2
    have hstep : ∀ (g : Cppdep.DG) (n : Nat) (g' : Cppdep.DG),
        n ∈ nodes → (∀ e ∈ g.edges, e.1 ≠ e.2) →
        Cppdep.initNode deps isExt g n = .ok g' → ∀ e ∈ g'.edges, e.1 ≠ e.2 := by
      intro g n g' _ hg hone
      rw [Cppdep.initNode] at hone
      split at hone
      · cases hone
      · have hinner : ∀ (g0 : Cppdep.DG) (d : Nat) (g1 : Cppdep.DG),
            d ∈ deps n → (∀ e ∈ g0.edges, e.1 ≠ e.2) →
            (if n = d then (.error Cppdep.Err.selfDep : Except Cppdep.Err Cppdep.DG)
             else .ok (g0.addEdge (.base n) (.base d))) = .ok g1 →
            ∀ e ∈ g1.edges, e.1 ≠ e.2 := by
          intro g0 d g1 _ hg0 hstep2 e he
          split at hstep2
          · cases hstep2
          · cases hstep2
            rcases mem_addEdge.mp he with he2 | rfl
            · exact hg0 e he2
            · rename_i hnd
              intro hcon
              exact hnd (Cppdep.GNode.base.inj hcon)
        have hbase : ∀ e ∈ (g.addNode (.base n)).edges, e.1 ≠ e.2 := by
          rw [addNode_edges]
          exact hg
        exact except_foldlM_inv _ (deps n) _ hinner _ _ hbase hone
    exact except_foldlM_inv _ nodes _ hstep _ _ (fun e he => absurd he (List.not_mem_nil e)) hres

lemma mem_removeNode_edges {g : Cppdep.DG} {v : Cppdep.GNode} {e : Cppdep.GNode × Cppdep.GNode} :
    e ∈ (g.removeNode v).edges ↔ e ∈ g.edges ∧ e.1 ≠ v ∧ e.2 ≠ v := by
  rw [Cppdep.DG.removeNode]
  show e ∈ g.edges.filter _ ↔ _
  rw [List.mem_filter, Bool.and_eq_true, decide_eq_true_eq, decide_eq_true_eq]

lemma mem_removeNode_nodes {g : Cppdep.DG} {v x : Cppdep.GNode} :
    x ∈ (g.removeNode v).nodes ↔ x ∈ g.nodes ∧ x ≠ v := by
  rw [Cppdep.DG.removeNode]
  show x ∈ g.nodes.filter _ ↔ _
  rw [List.mem_filter, decide_eq_true_eq]

lemma addNode_nodup {g : Cppdep.DG} {v : Cppdep.GNode} (h : g.nodes.Nodup) :
    (g.addNode v).nodes.Nodup := by
  rw [Cppdep.DG.addNode]
  split
  · exact h
  · rename_i hv
    rw [List.nodup_append]
    exact ⟨h, List.nodup_singleton v, by simpa using hv⟩

lemma addEdge_nodup {g : Cppdep.DG} {u v : Cppdep.GNode} (h : g.nodes.Nodup) :
    (g.addEdge u v).nodes.Nodup := by
  rw [Cppdep.DG.addEdge]
  have h2 : ((g.addNode u).addNode v).nodes.Nodup := addNode_nodup (addNode_nodup h)
  split
  · exact h2
  · exact h2

lemma addEdge_nodes_eq : ∀ {g : Cppdep.DG} {u v : Cppdep.GNode},
    (g.addEdge u v).nodes = ((g.addNode u).addNode v).nodes := by
  intro g u v
  rw [Cppdep.DG.addEdge]
  split <;> rfl

lemma removeNode_nodup {g : Cppdep.DG} {v : Cppdep.GNode} (h : g.nodes.Nodup) :
    (g.removeNode v).nodes.Nodup := h.filter _

lemma foldl_addEdge_snd {r : Cppdep.GNode} :
    ∀ (l : List Cppdep.GNode) (g : Cppdep.DG) (e : Cppdep.GNode × Cppdep.GNode),
      e ∈ (l.foldl (fun g p => g.addEdge p r) g).edges ↔
        e ∈ g.edges ∨ ∃ p ∈ l, e = (p, r) := by
  intro l
  induction l with
  | nil => simp
  | cons p l ih =>
    intro g e
    rw [List.foldl_cons, ih, mem_addEdge]
    constructor
    · rintro ((he | rfl) | ⟨q, hq, rfl⟩)
      · exact Or.inl he
      · exact Or.inr ⟨p, List.mem_cons_self _ _, rfl⟩
      · exact Or.inr ⟨q, List.mem_cons_of_mem _ hq, rfl⟩
    · rintro (he | ⟨q, hq, rfl⟩)
      · exact Or.inl (Or.inl he)
      · rcases List.mem_cons.mp hq with rfl | hq2
        · exact Or.inl (Or.inr rfl)
        · exact Or.inr ⟨q, hq2, rfl⟩

lemma foldl_addEdge_fst {r : Cppdep.GNode} :
    ∀ (l : List Cppdep.GNode) (g : Cppdep.DG) (e : Cppdep.GNode × Cppdep.GNode),
      e ∈ (l.foldl (fun g s => g.addEdge r s) g).edges ↔
        e ∈ g.edges ∨ ∃ s ∈ l, e = (r, s) := by
  intro l
  induction l with
  | nil => simp
  | cons p l ih =>
    intro g e
    rw [List.foldl_cons, ih, mem_addEdge]
    constructor
    · rintro ((he | rfl) | ⟨q, hq, rfl⟩)
      · exact Or.inl he
      · exact Or.inr ⟨p, List.mem_cons_self _ _, rfl⟩
      · exact Or.inr ⟨q, List.mem_cons_of_mem _ hq, rfl⟩
    · rintro (he | ⟨q, hq, rfl⟩)
      · exact Or.inl (Or.inl he)
      · rcases List.mem_cons.mp hq with rfl | hq2
        · exact Or.inl (Or.inr rfl)
        · exact Or.inr ⟨q, hq2, rfl⟩

lemma foldl_addEdge_pairs :
    ∀ (l : List (Cppdep.GNode × Cppdep.GNode)) (g : Cppdep.DG)
      (e : Cppdep.GNode × Cppdep.GNode),
      e ∈ (l.foldl (fun (g : Cppdep.DG) uv => g.addEdge uv.1 uv.2) g).edges ↔
        e ∈ g.edges ∨ e ∈ l := by
  intro l
  induction l with
  | nil => simp
  | cons p l ih =>
    intro g e
    rw [List.foldl_cons, ih, mem_addEdge]
    constructor
    · rintro ((he | rfl) | hq)
      · exact Or.inl he
      · exact Or.inr (List.mem_cons_self _ _)
      · exact Or.inr (List.mem_cons_of_mem _ hq)
    · rintro (he | hq)
      · exact Or.inl (Or.inl he)
      · rcases List.mem_cons.mp hq with rfl | hq2
        · exact Or.inl (Or.inr rfl)
        · exact Or.inr hq2

lemma foldl_addNode_edges :
    ∀ (l : List Cppdep.GNode) (g : Cppdep.DG),
      (l.foldl Cppdep.DG.addNode g).edges = g.edges := by
  intro l
  induction l with
  | nil => exact fun g => rfl
  | cons p l ih =>
    intro g
    rw [List.foldl_cons, ih, addNode_edges]

lemma foldl_addNode_nodes :
    ∀ (l : List Cppdep.GNode) (g : Cppdep.DG) (x : Cppdep.GNode),
      x ∈ (l.foldl Cppdep.DG.addNode g).nodes ↔ x ∈ g.nodes ∨ x ∈ l := by
  intro l
  induction l with
  | nil => simp
  | cons p l ih =>
    intro g x
    rw [List.foldl_cons, ih, mem_addNode]
    constructor
    · rintro ((hx | rfl) | hx)
      · exact Or.inl hx
      · exact Or.inr (List.mem_cons_self _ _)
      · exact Or.inr (List.mem_cons_of_mem _ hx)
    · rintro (hx | hx)
      · exact Or.inl (Or.inl hx)
      · rcases List.mem_cons.mp hx with rfl | hx2
        · exact Or.inl (Or.inr rfl)
        · exact Or.inr hx2

lemma foldl_addEdge_pairs_nodes_sub :
    ∀ (l : List (Cppdep.GNode × Cppdep.GNode)) (g : Cppdep.DG)
      (x : Cppdep.GNode), x ∈ g.nodes →
      x ∈ (l.foldl (fun (g : Cppdep.DG) uv => g.addEdge uv.1 uv.2) g).nodes := by
  intro l
  induction l with
  | nil => exact fun g x hx => hx
  | cons p l ih =>
    intro g x hx
    rw [List.foldl_cons]
    exact ih _ x (mem_addEdge_nodes.mpr (Or.inl hx))

lemma mem_sccOf {g : Cppdep.DG} {n m : Cppdep.GNode} :
    m ∈ g.sccOf n ↔ m ∈ g.nodes ∧ Cppdep.Reach g n m ∧ Cppdep.Reach g m n := by
  rw [Cppdep.DG.sccOf, List.mem_filter, Bool.and_eq_true, reachB_iff, reachB_iff]

lemma self_mem_sccOf {g : Cppdep.DG} {n : Cppdep.GNode} (hn : n ∈ g.nodes) :
    n ∈ g.sccOf n :=
  mem_sccOf.mpr ⟨hn, Relation.ReflTransGen.refl, Relation.ReflTransGen.refl⟩

lemma sccListAux_mem {g : Cppdep.DG} :
    ∀ (l : List Cppdep.GNode) (acc : List (List Cppdep.GNode)) (c : List Cppdep.GNode),
      c ∈ g.sccListAux l acc →
      c ∈ acc ∨ ∃ n, n ∈ l ∧ c = g.sccOf n := by
  intro l
  induction l with
  | nil => exact fun acc c hc => Or.inl hc
  | cons n l ih =>
    intro acc c hc
    rw [Cppdep.DG.sccListAux] at hc
    split at hc
    · rcases ih _ _ hc with h | ⟨m, hm, rfl⟩
      · exact Or.inl h
      · exact Or.inr ⟨m, List.mem_cons_of_mem _ hm, rfl⟩
    · rcases ih _ _ hc with h | ⟨m, hm, rfl⟩
      · rcases List.mem_append.mp h with h2 | h2
        · exact Or.inl h2
        · rw [List.mem_singleton] at h2
          exact Or.inr ⟨n, List.mem_cons_self _ _, h2⟩
      · exact Or.inr ⟨m, List.mem_cons_of_mem _ hm, rfl⟩

lemma sccList_mem {g : Cppdep.DG} {c : List Cppdep.GNode} (hc : c ∈ g.sccList) :
    ∃ n, n ∈ g.nodes ∧ c = g.sccOf n := by
  rcases sccListAux_mem g.nodes [] c hc with h | h
  · exact absurd h (List.not_mem_nil c)
  · exact h

lemma sccListAux_acc_sub {g : Cppdep.DG} :
    ∀ (l : List Cppdep.GNode) (acc : List (List Cppdep.GNode)) (c : List Cppdep.GNode),
      c ∈ acc → c ∈ g.sccListAux l acc := by
  intro l
  induction l with
  | nil => exact fun acc c hc => hc
  | cons n l ih =>
    intro acc c hc
    rw [Cppdep.DG.sccListAux]
    split
    · exact ih _ _ hc
    · exact ih _ _ (List.mem_append.mpr (Or.inl hc))

lemma sccListAux_covers {g : Cppdep.DG} :
    ∀ (l : List Cppdep.GNode) (acc : List (List Cppdep.GNode)) (n : Cppdep.GNode),
      n ∈ l → n ∈ g.nodes → ∃ c ∈ g.sccListAux l acc, n ∈ c := by
  intro l
  induction l with
  | nil => exact fun acc n hn _ => absurd hn (List.not_mem_nil n)
  | cons m l ih =>
    intro acc n hn hgn
    rw [Cppdep.DG.sccListAux]
    by_cases hacc : acc.any (fun c => decide (n ∈ c)) = true
    · obtain ⟨c, hc, hncp⟩ := List.any_eq_true.mp hacc
      rw [decide_eq_true_eq] at hncp
      split
      · exact ⟨c, sccListAux_acc_sub _ _ _ hc, hncp⟩
      · exact ⟨c, sccListAux_acc_sub _ _ _ (List.mem_append.mpr (Or.inl hc)), hncp⟩
    · rcases List.mem_cons.mp hn with rfl | hnl
      · split
        · rename_i hA
          obtain ⟨c, hc, hcp⟩ := List.any_eq_true.mp hA
          rw [decide_eq_true_eq] at hcp
          exact ⟨c, sccListAux_acc_sub _ _ _ hc, hcp⟩
        · refine ⟨g.sccOf n, sccListAux_acc_sub _ _ _
            (List.mem_append.mpr (Or.inr (List.mem_singleton.mpr rfl))), self_mem_sccOf hgn⟩
      · split
        · exact ih _ _ hnl hgn
        · exact ih _ _ hnl hgn

lemma sccList_covers {g : Cppdep.DG} {n : Cppdep.GNode} (hn : n ∈ g.nodes) :
    ∃ c ∈ g.sccList, n ∈ c :=
  sccListAux_covers g.nodes [] n hn hn

lemma two_mem_length {α : Type} {l : List α} {a b : α}
    (ha : a ∈ l) (hb : b ∈ l) (hab : a ≠ b) : 2 ≤ l.length := by
  cases l with
  | nil => exact absurd ha (List.not_mem_nil a)
  | cons x t =>
    cases t with
    | nil =>
      rw [List.mem_singleton] at ha hb
      exact absurd (ha.trans hb.symm) hab
    | cons y t2 => simp [Nat.le_add_left]

/-- A path between members of a strongly connected component stays inside
the component, so it uses only intra-component edges. -/
lemma scc_path_intra {g : Cppdep.DG} {n m1 m2 : Cppdep.GNode} (hwf : Cppdep.Wf g)
    (h1 : m1 ∈ g.sccOf n) (h2 : m2 ∈ g.sccOf n) (hr : Cppdep.Reach g m1 m2) :
    Cppdep.Reach
      { nodes := [],
        edges := g.edges.filter
          (fun e => decide (e.1 ∈ g.sccOf n) && decide (e.2 ∈ g.sccOf n)) } m1 m2 := by
  obtain ⟨hm1n, hn1, h1n⟩ := mem_sccOf.mp h1
  obtain ⟨hm2n, hn2, h2n⟩ := mem_sccOf.mp h2
  clear h1 h2
  induction hr with
  | refl => exact Relation.ReflTransGen.refl
  | @tail b c hab hbc ih =>
    have hbscc : b ∈ g.sccOf n := by
      refine mem_sccOf.mpr ⟨(hwf _ hbc).1, hn1.trans hab, ?_⟩
      exact (Relation.ReflTransGen.single hbc).trans h2n
    have hcscc : c ∈ g.sccOf n := by
      refine mem_sccOf.mpr ⟨(hwf _ hbc).2, ?_, h2n⟩
      exact (hn1.trans hab).trans (Relation.ReflTransGen.single hbc)
    have hb2 := mem_sccOf.mp hbscc
    refine (ih hb2.1 hb2.2.1 hb2.2.2).tail ?_
    show (b, c) ∈ List.filter _ g.edges
    rw [List.mem_filter, Bool.and_eq_true, decide_eq_true_eq, decide_eq_true_eq]
    exact ⟨hbc, hbscc, hcscc⟩

lemma no_selfloop_of_acyclic {g : Cppdep.DG} (hA : Cppdep.Acyclic g) :
    g.edges.any (fun e => decide (e.1 = e.2)) = false := by
  rw [Bool.eq_false_iff]
  intro hany
  obtain ⟨e, he, heq⟩ := List.any_eq_true.mp hany
  rw [decide_eq_true_eq] at heq
  refine hA e.1 (Relation.TransGen.single ?_)
  show (e.1, e.1) ∈ g.edges
  have : e = (e.1, e.2) := rfl
  rw [this, ← heq] at he
  exact he

lemma sccOf_length_le_one {g : Cppdep.DG} (hA : Cppdep.Acyclic g)
    (hnd : g.nodes.Nodup) (n : Cppdep.GNode) : (g.sccOf n).length ≤ 1 := by
  have hsub : ∀ m ∈ g.sccOf n, m = n := by
    intro m hm
    obtain ⟨_, hnm, hmn⟩ := mem_sccOf.mp hm
    by_contra hne
    exact hA n (Relation.TransGen.trans_left (reachP_of_reach_ne hnm (Ne.symm (fun h => hne h.symm))) hmn)
  have hnd2 : (g.sccOf n).Nodup := hnd.filter _
  cases hl : g.sccOf n with
  | nil => simp
  | cons a t =>
    cases ht : t with
    | nil => simp
    | cons b t2 =>
      have ha := hsub a (by rw [hl]; exact List.mem_cons_self _ _)
      have hb := hsub b (by rw [hl, ht]; exact List.mem_cons_of_mem _ (List.mem_cons_self _ _))
      rw [hl, ht] at hnd2
      rw [List.nodup_cons] at hnd2
      exact absurd (by rw [ha, hb] : a = b) (fun hab => hnd2.1 (hab ▸ List.mem_cons_self _ _))

lemma sccSnapshots_nil {st : Cppdep.St} (hA : Cppdep.Acyclic st.digraph)
    (hnd : st.digraph.nodes.Nodup) : Cppdep.sccSnapshots st = [] := by
  rw [Cppdep.sccSnapshots, List.map_eq_nil]
  rw [List.filter_eq_nil]
  intro c hc
  obtain ⟨n, _, rfl⟩ := sccList_mem hc
  rw [decide_eq_true_eq]
  have := sccOf_length_le_one hA hnd n
  omega

lemma decondense_nil {st : Cppdep.St} (hcy : st.cycles = []) :
    Cppdep.decondense st = .ok st := by
  rw [Cppdep.decondense, hcy]
  rfl

lemma condense_acyclic {st : Cppdep.St} (hA : Cppdep.Acyclic st.digraph)
    (hnd : st.digraph.nodes.Nodup) (hcy : st.cycles = []) (hidx : st.cycle2index = []) :
    Cppdep.condense st = .ok st := by
  obtain ⟨dg, cy, ci, nc, cd, lv⟩ := st
  cases hcy
  cases hidx
  rw [Cppdep.condense, sccSnapshots_nil hA hnd]
  rfl

lemma assocUpd_self_noop {α : Type} {k : Cppdep.GNode} {v : α} :
    ∀ {m : List (Cppdep.GNode × α)}, Cppdep.assocFind k m = some v →
      Cppdep.assocUpd k v m = m := by
  intro m
  induction m with
  | nil => intro h; cases h
  | cons p t ih =>
    intro h
    obtain ⟨a, b⟩ := p
    rw [Cppdep.assocFind] at h
    by_cases hak : a = k
    · rw [if_pos hak] at h
      cases h
      rw [Cppdep.assocUpd, if_pos hak]
    · rw [if_neg hak] at h
      rw [Cppdep.assocUpd, if_neg hak, ih h]

lemma foldl_assocUpd_noop (val : Cppdep.GNode → Nat) :
    ∀ (l : List Cppdep.GNode) (m : List (Cppdep.GNode × Nat)),
      (∀ k ∈ l, Cppdep.assocFind k m = some (val k)) →
      l.foldl (fun m n => Cppdep.assocUpd n (val n) m) m = m := by
  intro l
  induction l with
  | nil => exact fun m _ => rfl
  | cons n l ih =>
    intro m hm
    rw [List.foldl_cons, assocUpd_self_noop (hm n (List.mem_cons_self _ _))]
    exact ih m (fun k hk => hm k (List.mem_cons_of_mem _ hk))

lemma memoFold_noop (val : Cppdep.GNode → Nat) :
    ∀ (l : List Cppdep.GNode) (m : List (Cppdep.GNode × Nat)),
      (∀ k ∈ l, (Cppdep.assocFind k m).isSome) →
      l.foldl (fun m n =>
        if (Cppdep.assocFind n m).isSome then m else Cppdep.assocUpd n (val n) m) m = m := by
  intro l
  induction l with
  | nil => exact fun m _ => rfl
  | cons n l ih =>
    intro m hm
    rw [List.foldl_cons, if_pos (hm n (List.mem_cons_self _ _))]
    exact ih m (fun k hk => hm k (List.mem_cons_of_mem _ hk))

lemma getCd_congr {isExt : Nat → Bool} {st st2 : Cppdep.St}
    (hcy : st.cycles = st2.cycles) (n : Cppdep.GNode) :
    Cppdep.getCd isExt st n = Cppdep.getCd isExt st2 n := by
  rw [Cppdep.getCd, Cppdep.getCd, hcy]

lemma cdVal_congr {isExt : Nat → Bool} {st st2 : Cppdep.St}
    (hdg : st.digraph = st2.digraph) (hcy : st.cycles = st2.cycles) (n : Cppdep.GNode) :
    Cppdep.cdVal isExt st n = Cppdep.cdVal isExt st2 n := by
  rw [Cppdep.cdVal, Cppdep.cdVal, hdg, getCd_congr hcy]
  have hmap : (st2.digraph.descendants n).map (Cppdep.getCd isExt st) =
      (st2.digraph.descendants n).map (Cppdep.getCd isExt st2) :=
    List.map_congr_left (fun v _ => getCd_congr hcy v)
  rw [hmap]

lemma levelBase_congr {isExt : Nat → Bool} {st st2 : Cppdep.St}
    (hcy : st.cycles = st2.cycles) (n : Cppdep.GNode) :
    Cppdep.levelBase isExt st n = Cppdep.levelBase isExt st2 n := by
  rw [Cppdep.levelBase, Cppdep.levelBase, hcy]

lemma levelAux_congr {isExt : Nat → Bool} {st st2 : Cppdep.St} {g : Cppdep.DG}
    (hcy : st.cycles = st2.cycles) :
    ∀ (fuel : Nat) (n : Cppdep.GNode),
      Cppdep.levelAux isExt st g fuel n = Cppdep.levelAux isExt st2 g fuel n := by
  intro fuel
  induction fuel with
  | zero => exact fun n => rfl
  | succ fuel ih =>
    intro n
    rw [Cppdep.levelAux, Cppdep.levelAux]
    cases hs : g.succs n with
    | nil => exact levelBase_congr hcy n
    | cons a l =>
      have hmap : (a :: l).map (Cppdep.levelAux isExt st g fuel) =
          (a :: l).map (Cppdep.levelAux isExt st2 g fuel) :=
        List.map_congr_left (fun v _ => ih v)
      simp only [hmap, levelBase_congr hcy n]

lemma levelVal_congr {isExt : Nat → Bool} {st st2 : Cppdep.St}
    (hdg : st.digraph = st2.digraph) (hcy : st.cycles = st2.cycles) (n : Cppdep.GNode) :
    Cppdep.levelVal isExt st n = Cppdep.levelVal isExt st2 n := by
  rw [Cppdep.levelVal, Cppdep.levelVal, hdg, levelAux_congr hcy]

lemma tvList_mono {g h : Cppdep.DG} (hs : ∀ e, e ∈ h.edges → e ∈ g.edges)
    {u x : Cppdep.GNode} (hx : x ∈ Cppdep.tvList h u) : x ∈ Cppdep.tvList g u := by
  obtain ⟨v, he, hr, hne⟩ := mem_tvList.mp hx
  exact mem_tvList.mpr ⟨v, hs _ he, reach_mono hs hr, hne⟩

/-- After the full fold of the transitive reduction, no surviving edge of a
processed node is still removable. -/
lemma foldl_reduceStep_closed :
    ∀ (l : List Cppdep.GNode) (g : Cppdep.DG), Cppdep.Acyclic g →
      ∀ u ∈ l, ∀ x, (u, x) ∈ (l.foldl Cppdep.reduceStep g).edges →
        x ∉ Cppdep.tvList (l.foldl Cppdep.reduceStep g) u := by
  intro l
  induction l with
  | nil => exact fun g _ u hu => absurd hu (List.not_mem_nil u)
  | cons u0 l ih =>
    intro g hA u hu x hx
    rw [List.foldl_cons] at hx ⊢
    rcases List.mem_cons.mp hu with rfl | hul
    · have hx2 : (u, x) ∈ (Cppdep.reduceStep g u).edges := foldl_reduceStep_subset l _ _ hx
      have hnotv : x ∉ Cppdep.tvList g u := fun hc => (mem_reduceStep.mp hx2).2 ⟨rfl, hc⟩
      intro hc
      exact hnotv (tvList_mono (fun e he =>
        reduceStep_subset (foldl_reduceStep_subset l _ e he)) hc)
    · exact ih (Cppdep.reduceStep g u0)
        (acyclic_of_subset (fun e he => reduceStep_subset he) hA) u hul x hx

lemma reduceStep_id {g : Cppdep.DG} {u : Cppdep.GNode}
    (h : ∀ x, (u, x) ∈ g.edges → x ∉ Cppdep.tvList g u) :
    Cppdep.reduceStep g u = g := by
  rw [Cppdep.reduceStep]
  have hf : g.edges.filter
      (fun e => !(decide (e.1 = u) && decide (e.2 ∈ Cppdep.tvList g u))) = g.edges := by
    apply List.filter_eq_self.mpr
    intro e he
    rw [Bool.not_eq_eq_eq_not, Bool.not_true, Bool.and_eq_false_iff]
    by_cases h1 : e.1 = u
    · refine Or.inr ?_
      rw [decide_eq_false_iff_not]
      have : e = (e.1, e.2) := rfl
      rw [h1] at this
      exact h e.2 (by rw [this] at he; exact he)
    · exact Or.inl (by rw [decide_eq_false_iff_not]; exact h1)
  rw [hf]

lemma foldl_reduceStep_id :
    ∀ (l : List Cppdep.GNode) (g : Cppdep.DG),
      (∀ u ∈ l, ∀ x, (u, x) ∈ g.edges → x ∉ Cppdep.tvList g u) →
      l.foldl Cppdep.reduceStep g = g := by
  intro l
  induction l with
  | nil => exact fun g _ => rfl
  | cons u l ih =>
    intro g hg
    rw [List.foldl_cons, reduceStep_id (hg u (List.mem_cons_self _ _))]
    exact ih g (fun v hv => hg v (List.mem_cons_of_mem _ hv))

/-- The transitive reduction is idempotent on an acyclic graph. -/
lemma transRed_idem {g : Cppdep.DG} (hA : Cppdep.Acyclic g) :
    Cppdep.transRed (Cppdep.transRed g) = Cppdep.transRed g := by
  rw [Cppdep.transRed, Cppdep.transRed]
  rw [foldl_reduceStep_nodes g.nodes g]
  exact foldl_reduceStep_id g.nodes _ (fun u hu x => foldl_reduceStep_closed g.nodes g hA u hu x)

/-- On an acyclic instance the whole of `analyze` reduces to metric
calculation over the transitive reduction. -/
lemma analyze_eq_of_acyclic {isExt : Nat → Bool} {st : Cppdep.St}
    (hA : Cppdep.Acyclic st.digraph) (hnd : st.digraph.nodes.Nodup)
    (hcy : st.cycles = []) (hidx : st.cycle2index = []) :
    Cppdep.analyze isExt st =
      Cppdep.decondense (Cppdep.calcLevels isExt (Cppdep.calcCcd isExt
        { st with digraph := Cppdep.transRed st.digraph })) := by
  rw [Cppdep.analyze, no_selfloop_of_acyclic hA]
  rw [if_neg (by simp)]
  rw [condense_acyclic hA hnd hcy hidx]
  show (if (!st.digraph.isDagB) = true then (Except.error Cppdep.Err.notDag : Except Cppdep.Err Cppdep.St)
    else Cppdep.decondense (Cppdep.calcLevels isExt (Cppdep.calcCcd isExt
      { st with digraph := Cppdep.transRed st.digraph }))) = _
  rw [isDagB_iff.mpr hA]
  rfl

/-- On an acyclic instance, `analyze` succeeds and its output is a fixed
point of `analyze`: a second call returns the same state (in particular the
digraph, the level assignments and the CD values are unchanged). -/
lemma analyze_acyclic_fixpoint (isExt : Nat → Bool) (st : Cppdep.St)
    (hdag : st.digraph.isDagB = true) (hnd : st.digraph.nodes.Nodup)
    (hcy : st.cycles = []) (hidx : st.cycle2index = []) (hlv : st.node2level = []) :
    ∃ st1, Cppdep.analyze isExt st = .ok st1 ∧ Cppdep.analyze isExt st1 = .ok st1 ∧
      st1.digraph = Cppdep.transRed st.digraph := by
  obtain ⟨dg, cy, ci, nc, cd0, lv0⟩ := st
  cases hcy
  cases hidx
  cases hlv
  have hA : Cppdep.Acyclic dg := isDagB_iff.mp hdag
  have hA1 : Cppdep.Acyclic (Cppdep.transRed dg) :=
    acyclic_of_subset (fun e he => foldl_reduceStep_subset _ _ e he) hA
  have hnd1 : (Cppdep.transRed dg).nodes.Nodup := by
    rw [Cppdep.transRed, foldl_reduceStep_nodes]
    exact hnd
  have e1 : Cppdep.calcCcd isExt ⟨Cppdep.transRed dg, [], [], nc, cd0, []⟩ =
      ⟨Cppdep.transRed dg, [], [], nc,
        (Cppdep.transRed dg).nodes.foldl
          (fun m n => Cppdep.assocUpd n
            (Cppdep.cdVal isExt ⟨Cppdep.transRed dg, [], [], nc, cd0, []⟩ n) m) cd0,
        []⟩ := rfl
  have e2 : Cppdep.calcLevels isExt
      ⟨Cppdep.transRed dg, [], [], nc,
        (Cppdep.transRed dg).nodes.foldl
          (fun m n => Cppdep.assocUpd n
            (Cppdep.cdVal isExt ⟨Cppdep.transRed dg, [], [], nc, cd0, []⟩ n) m) cd0,
        []⟩ =
      ⟨Cppdep.transRed dg, [], [], nc,
        (Cppdep.transRed dg).nodes.foldl
          (fun m n => Cppdep.assocUpd n
            (Cppdep.cdVal isExt ⟨Cppdep.transRed dg, [], [], nc, cd0, []⟩ n) m) cd0,
        (Cppdep.transRed dg).nodes.foldl
          (fun m n => if (Cppdep.assocFind n m).isSome then m
            else Cppdep.assocUpd n
              (Cppdep.levelVal isExt
                ⟨Cppdep.transRed dg, [], [], nc,
                  (Cppdep.transRed dg).nodes.foldl
                    (fun m n => Cppdep.assocUpd n
                      (Cppdep.cdVal isExt ⟨Cppdep.transRed dg, [], [], nc, cd0, []⟩ n) m)
                    cd0, []⟩ n) m) []⟩ := rfl
  refine ⟨Cppdep.calcLevels isExt (Cppdep.calcCcd isExt
      ⟨Cppdep.transRed dg, [], [], nc, cd0, []⟩), ?_, ?_, rfl⟩
  · rw [analyze_eq_of_acyclic hA hnd rfl rfl]
    exact decondense_nil rfl
  · rw [analyze_eq_of_acyclic hA1 hnd1 rfl rfl]
    rw [show Cppdep.transRed
        (Cppdep.calcLevels isExt (Cppdep.calcCcd isExt
          ({ digraph := Cppdep.transRed dg, cycles := [], cycle2index := [],
             node2cycle := nc, node2cd := cd0, node2level := [] } : Cppdep.St))).digraph =
        Cppdep.transRed dg from transRed_idem hA]
    rw [e1, e2]
    have hccd : Cppdep.calcCcd isExt
        ⟨Cppdep.transRed dg, [], [], nc,
          (Cppdep.transRed dg).nodes.foldl
            (fun m n => Cppdep.assocUpd n
              (Cppdep.cdVal isExt ⟨Cppdep.transRed dg, [], [], nc, cd0, []⟩ n) m) cd0,
          (Cppdep.transRed dg).nodes.foldl
            (fun m n => if (Cppdep.assocFind n m).isSome then m
              else Cppdep.assocUpd n
                (Cppdep.levelVal isExt
                  ⟨Cppdep.transRed dg, [], [], nc,
                    (Cppdep.transRed dg).nodes.foldl
                      (fun m n => Cppdep.assocUpd n
                        (Cppdep.cdVal isExt ⟨Cppdep.transRed dg, [], [], nc, cd0, []⟩ n) m)
                      cd0, []⟩ n) m) []⟩ =
        ⟨Cppdep.transRed dg, [], [], nc,
          (Cppdep.transRed dg).nodes.foldl
            (fun m n => Cppdep.assocUpd n
              (Cppdep.cdVal isExt ⟨Cppdep.transRed dg, [], [], nc, cd0, []⟩ n) m) cd0,
          (Cppdep.transRed dg).nodes.foldl
            (fun m n => if (Cppdep.assocFind n m).isSome then m
              else Cppdep.assocUpd n
                (Cppdep.levelVal isExt
                  ⟨Cppdep.transRed dg, [], [], nc,
                    (Cppdep.transRed dg).nodes.foldl
                      (fun m n => Cppdep.assocUpd n
                        (Cppdep.cdVal isExt ⟨Cppdep.transRed dg, [], [], nc, cd0, []⟩ n) m)
                      cd0, []⟩ n) m) []⟩ := by
      simp only [Cppdep.calcCcd]
      have hnoop := foldl_assocUpd_noop
        (Cppdep.cdVal isExt
          ⟨Cppdep.transRed dg, [], [], nc,
            (Cppdep.transRed dg).nodes.foldl
              (fun m n => Cppdep.assocUpd n
                (Cppdep.cdVal isExt ⟨Cppdep.transRed dg, [], [], nc, cd0, []⟩ n) m) cd0,
            (Cppdep.transRed dg).nodes.foldl
              (fun m n => if (Cppdep.assocFind n m).isSome then m
                else Cppdep.assocUpd n
                  (Cppdep.levelVal isExt
                    ⟨Cppdep.transRed dg, [], [], nc,
                      (Cppdep.transRed dg).nodes.foldl
                        (fun m n => Cppdep.assocUpd n
                          (Cppdep.cdVal isExt ⟨Cppdep.transRed dg, [], [], nc, cd0, []⟩ n) m)
                        cd0, []⟩ n) m) []⟩)
        (Cppdep.transRed dg).nodes
        ((Cppdep.transRed dg).nodes.foldl
          (fun m n => Cppdep.assocUpd n
            (Cppdep.cdVal isExt ⟨Cppdep.transRed dg, [], [], nc, cd0, []⟩ n) m) cd0)
        (by
          intro k hk
          have hfind : Cppdep.assocFind k (Cppdep.calcCcd isExt
              ⟨Cppdep.transRed dg, [], [], nc, cd0, []⟩).node2cd =
              some (Cppdep.cdVal isExt ⟨Cppdep.transRed dg, [], [], nc, cd0, []⟩ k) :=
            calcCcd_find hk
          rw [e1] at hfind
          rw [hfind]
          exact congrArg some (cdVal_congr rfl rfl k))
      rw [hnoop]
    rw [hccd]
    have hlvl2 : Cppdep.calcLevels isExt
        ⟨Cppdep.transRed dg, [], [], nc,
          (Cppdep.transRed dg).nodes.foldl
            (fun m n => Cppdep.assocUpd n
              (Cppdep.cdVal isExt ⟨Cppdep.transRed dg, [], [], nc, cd0, []⟩ n) m) cd0,
          (Cppdep.transRed dg).nodes.foldl
            (fun m n => if (Cppdep.assocFind n m).isSome then m
              else Cppdep.assocUpd n
                (Cppdep.levelVal isExt
                  ⟨Cppdep.transRed dg, [], [], nc,
                    (Cppdep.transRed dg).nodes.foldl
                      (fun m n => Cppdep.assocUpd n
                        (Cppdep.cdVal isExt ⟨Cppdep.transRed dg, [], [], nc, cd0, []⟩ n) m)
                      cd0, []⟩ n) m) []⟩ =
        ⟨Cppdep.transRed dg, [], [], nc,
          (Cppdep.transRed dg).nodes.foldl
            (fun m n => Cppdep.assocUpd n
              (Cppdep.cdVal isExt ⟨Cppdep.transRed dg, [], [], nc, cd0, []⟩ n) m) cd0,
          (Cppdep.transRed dg).nodes.foldl
            (fun m n => if (Cppdep.assocFind n m).isSome then m
              else Cppdep.assocUpd n
                (Cppdep.levelVal isExt
                  ⟨Cppdep.transRed dg, [], [], nc,
                    (Cppdep.transRed dg).nodes.foldl
                      (fun m n => Cppdep.assocUpd n
                        (Cppdep.cdVal isExt ⟨Cppdep.transRed dg, [], [], nc, cd0, []⟩ n) m)
                      cd0, []⟩ n) m) []⟩ := by
      simp only [Cppdep.calcLevels]
      have hnoop := memoFold_noop
        (Cppdep.levelVal isExt
          ⟨Cppdep.transRed dg, [], [], nc,
            (Cppdep.transRed dg).nodes.foldl
              (fun m n => Cppdep.assocUpd n
                (Cppdep.cdVal isExt ⟨Cppdep.transRed dg, [], [], nc, cd0, []⟩ n) m) cd0,
            (Cppdep.transRed dg).nodes.foldl
              (fun m n => if (Cppdep.assocFind n m).isSome then m
                else Cppdep.assocUpd n
                  (Cppdep.levelVal isExt
                    ⟨Cppdep.transRed dg, [], [], nc,
                      (Cppdep.transRed dg).nodes.foldl
                        (fun m n => Cppdep.assocUpd n
                          (Cppdep.cdVal isExt ⟨Cppdep.transRed dg, [], [], nc, cd0, []⟩ n) m)
                        cd0, []⟩ n) m) []⟩)
        (Cppdep.transRed dg).nodes
        ((Cppdep.transRed dg).nodes.foldl
          (fun m n => if (Cppdep.assocFind n m).isSome then m
            else Cppdep.assocUpd n
              (Cppdep.levelVal isExt
                ⟨Cppdep.transRed dg, [], [], nc,
                  (Cppdep.transRed dg).nodes.foldl
                    (fun m n => Cppdep.assocUpd n
                      (Cppdep.cdVal isExt ⟨Cppdep.transRed dg, [], [], nc, cd0, []⟩ n) m)
                    cd0, []⟩ n) m) [])
        (by
          intro k hk
          have hfind := @calcLevels_find isExt
            (Cppdep.calcCcd isExt ⟨Cppdep.transRed dg, [], [], nc, cd0, []⟩)
            k hk (by
              intro k2 v hv
              cases hv)
          show (Cppdep.assocFind k (Cppdep.calcLevels isExt (Cppdep.calcCcd isExt
              ⟨Cppdep.transRed dg, [], [], nc, cd0, []⟩)).node2level).isSome = true
          rw [hfind]
          rfl)
      rw [hnoop]
    rw [hlvl2]
    exact decondense_nil rfl

/-- The unfolding of one member step of `__condensation`. -/
lemma condenseMembers_cons (rep : Cppdep.GNode) (members : List Cppdep.GNode)
    (st : Cppdep.St) (pre suc : List (Cppdep.GNode × Cppdep.GNode)) (n : Cppdep.GNode)
    (rest : List Cppdep.GNode) :
    Cppdep.condenseMembers rep members st pre suc (n :: rest) =
      if (Cppdep.assocFind n st.node2cycle).isSome then .error .nodeInCycleMap
      else if n ∉ st.digraph.nodes then .error .nodeGone
      else Cppdep.condenseMembers rep members (Cppdep.condStepSt rep members st n)
        (pre ++ (Cppdep.condStepPs members st n).map (fun p => (p, n)))
        (suc ++ (Cppdep.condStepSs rep members st n).map (fun s => (n, s))) rest := rfl

/-- Every edge surviving one member step is an old edge or touches the
representative from outside the member set; no surviving edge touches the
removed member. -/
lemma condStepSt_edges_sub {rep : Cppdep.GNode} {members : List Cppdep.GNode}
    {st : Cppdep.St} {n : Cppdep.GNode} :
    ∀ e ∈ (Cppdep.condStepSt rep members st n).digraph.edges,
      (e ∈ st.digraph.edges ∨ (e.2 = rep ∧ e.1 ∉ members) ∨ (e.1 = rep ∧ e.2 ∉ members)) ∧
        e.1 ≠ n ∧ e.2 ≠ n := by
  intro e he
  have he2 : e ∈ ((Cppdep.condStepDg3 rep members st n).removeNode n).edges := he
  rw [mem_removeNode_edges] at he2
  refine ⟨?_, he2.2⟩
  have he3 := he2.1
  rw [Cppdep.condStepDg3, foldl_addEdge_fst] at he3
  rcases he3 with he3 | ⟨s, hs, rfl⟩
  · rw [Cppdep.condStepDg2, foldl_addEdge_snd] at he3
    rcases he3 with he3 | ⟨p, hp, rfl⟩
    · exact Or.inl he3
    · rw [Cppdep.condStepPs, List.mem_filter, decide_eq_true_eq] at hp
      exact Or.inr (Or.inl ⟨rfl, hp.2⟩)
  · rw [Cppdep.condStepSs, List.mem_filter, decide_eq_true_eq] at hs
    exact Or.inr (Or.inr ⟨rfl, hs.2⟩)

/-- A fold whose every step preserves node distinctness preserves it. -/
lemma foldl_nodup_of_step {α : Type} (f : Cppdep.DG → α → Cppdep.DG)
    (hf : ∀ g a, g.nodes.Nodup → (f g a).nodes.Nodup) :
    ∀ (l : List α) (g : Cppdep.DG), g.nodes.Nodup → (l.foldl f g).nodes.Nodup := by
  intro l
  induction l with
  | nil => exact fun g hg => hg
  | cons a l ih =>
    intro g hg
    rw [List.foldl_cons]
    exact ih _ (hf g a hg)

/-- One member step of `__condensation` keeps the node list duplicate-free. -/
lemma condStepSt_nodup {rep : Cppdep.GNode} {members : List Cppdep.GNode}
    {st : Cppdep.St} {n : Cppdep.GNode} (h : st.digraph.nodes.Nodup) :
    (Cppdep.condStepSt rep members st n).digraph.nodes.Nodup := by
  show ((Cppdep.condStepDg3 rep members st n).removeNode n).nodes.Nodup
  apply removeNode_nodup
  rw [Cppdep.condStepDg3]
  apply foldl_nodup_of_step _ (fun g a hg => addEdge_nodup hg)
  rw [Cppdep.condStepDg2]
  exact foldl_nodup_of_step _ (fun g a hg => addEdge_nodup hg) _ _ h

/-- Edges produced by the member loop of `__condensation`: old edges, or edges
rerouted through the representative from outside the member set. -/
lemma condenseMembers_edges {rep : Cppdep.GNode} {members : List Cppdep.GNode} :
    ∀ (l : List Cppdep.GNode) (st : Cppdep.St) (pre suc : List (Cppdep.GNode × Cppdep.GNode))
      (st1 : Cppdep.St) (p1 s1 : List (Cppdep.GNode × Cppdep.GNode)),
      Cppdep.condenseMembers rep members st pre suc l = .ok (st1, p1, s1) →
      ∀ e ∈ st1.digraph.edges,
        e ∈ st.digraph.edges ∨ (e.2 = rep ∧ e.1 ∉ members) ∨ (e.1 = rep ∧ e.2 ∉ members) := by
  intro l
  induction l with
  | nil =>
    intro st pre suc st1 p1 s1 h e he
    cases h
    exact Or.inl he
  | cons n l ih =>
    intro st pre suc st1 p1 s1 h e he
    rw [condenseMembers_cons] at h
    by_cases h1 : (Cppdep.assocFind n st.node2cycle).isSome = true
    · rw [if_pos h1] at h
      cases h
    · rw [if_neg h1] at h
      by_cases h2 : n ∉ st.digraph.nodes
      · rw [if_pos h2] at h
        cases h
      · rw [if_neg h2] at h
        rcases ih _ _ _ _ _ _ h e he with h3 | h3 | h3
        · rcases (condStepSt_edges_sub e h3).1 with h4 | h4 | h4
          · exact Or.inl h4
          · exact Or.inr (Or.inl h4)
          · exact Or.inr (Or.inr h4)
        · exact Or.inr (Or.inl h3)
        · exact Or.inr (Or.inr h3)

/-- The member loop never discards a `node2cycle` entry. -/
lemma condenseMembers_n2c_mono {rep : Cppdep.GNode} {members : List Cppdep.GNode} :
    ∀ (l : List Cppdep.GNode) (st : Cppdep.St) (pre suc : List (Cppdep.GNode × Cppdep.GNode))
      (st1 : Cppdep.St) (p1 s1 : List (Cppdep.GNode × Cppdep.GNode)),
      Cppdep.condenseMembers rep members st pre suc l = .ok (st1, p1, s1) →
      ∀ k, (Cppdep.assocFind k st.node2cycle).isSome = true →
        (Cppdep.assocFind k st1.node2cycle).isSome = true := by
  intro l
  induction l with
  | nil =>
    intro st pre suc st1 p1 s1 h k hk
    cases h
    exact hk
  | cons n l ih =>
    intro st pre suc st1 p1 s1 h k hk
    rw [condenseMembers_cons] at h
    by_cases h1 : (Cppdep.assocFind n st.node2cycle).isSome = true
    · rw [if_pos h1] at h
      cases h
    · rw [if_neg h1] at h
      by_cases h2 : n ∉ st.digraph.nodes
      · rw [if_pos h2] at h
        cases h
      · rw [if_neg h2] at h
        refine ih _ _ _ _ _ _ h k ?_
        show (Cppdep.assocFind k (Cppdep.assocUpd n rep st.node2cycle)).isSome = true
        by_cases hkn : k = n
        · subst hkn
          rw [assocFind_upd_self]
          rfl
        · rw [assocFind_upd_other _ hkn]
          exact hk

/-- The member loop records every processed member in `node2cycle`. -/
lemma condenseMembers_n2c_records {rep : Cppdep.GNode} {members : List Cppdep.GNode} :
    ∀ (l : List Cppdep.GNode) (st : Cppdep.St) (pre suc : List (Cppdep.GNode × Cppdep.GNode))
      (st1 : Cppdep.St) (p1 s1 : List (Cppdep.GNode × Cppdep.GNode)),
      Cppdep.condenseMembers rep members st pre suc l = .ok (st1, p1, s1) →
      ∀ m ∈ l, (Cppdep.assocFind m st1.node2cycle).isSome = true := by
  intro l
  induction l with
  | nil =>
    intro st pre suc st1 p1 s1 h m hm
    exact absurd hm (List.not_mem_nil m)
  | cons n l ih =>
    intro st pre suc st1 p1 s1 h m hm
    rw [condenseMembers_cons] at h
    by_cases h1 : (Cppdep.assocFind n st.node2cycle).isSome = true
    · rw [if_pos h1] at h
      cases h
    · rw [if_neg h1] at h
      by_cases h2 : n ∉ st.digraph.nodes
      · rw [if_pos h2] at h
        cases h
      · rw [if_neg h2] at h
        rcases List.mem_cons.mp hm with rfl | hml
        · refine condenseMembers_n2c_mono _ _ _ _ _ _ _ h m ?_
          show (Cppdep.assocFind m (Cppdep.assocUpd m rep st.node2cycle)).isSome = true
          rw [assocFind_upd_self]
          rfl
        · exact ih _ _ _ _ _ _ h m hml

/-- New `node2cycle` keys created by the member loop are member nodes. -/
lemma condenseMembers_n2c_new {rep : Cppdep.GNode} {members : List Cppdep.GNode} :
    ∀ (l : List Cppdep.GNode) (st : Cppdep.St) (pre suc : List (Cppdep.GNode × Cppdep.GNode))
      (st1 : Cppdep.St) (p1 s1 : List (Cppdep.GNode × Cppdep.GNode)),
      Cppdep.condenseMembers rep members st pre suc l = .ok (st1, p1, s1) →
      ∀ k v, Cppdep.assocFind k st1.node2cycle = some v →
        (∃ v0, Cppdep.assocFind k st.node2cycle = some v0) ∨ k ∈ l := by
  intro l
  induction l with
  | nil =>
    intro st pre suc st1 p1 s1 h k v hk
    cases h
    exact Or.inl ⟨v, hk⟩
  | cons n l ih =>
    intro st pre suc st1 p1 s1 h k v hk
    rw [condenseMembers_cons] at h
    by_cases h1 : (Cppdep.assocFind n st.node2cycle).isSome = true
    · rw [if_pos h1] at h
      cases h
    · rw [if_neg h1] at h
      by_cases h2 : n ∉ st.digraph.nodes
      · rw [if_pos h2] at h
        cases h
      · rw [if_neg h2] at h
        rcases ih _ _ _ _ _ _ h k v hk with ⟨v0, hv0⟩ | hkl
        · by_cases hkn : k = n
          · exact Or.inr (hkn ▸ List.mem_cons_self n l)
          · refine Or.inl ⟨v0, ?_⟩
            have hv0' : Cppdep.assocFind k (Cppdep.assocUpd n rep st.node2cycle) = some v0 := hv0
            rwa [assocFind_upd_other _ hkn] at hv0'
        · exact Or.inr (List.mem_cons_of_mem n hkl)

/-- Recorded incoming boundary edges of the member loop: pre-existing entries
aside, each is an edge of the starting digraph from outside the member set
into it. -/
lemma condenseMembers_pre {rep : Cppdep.GNode} {members : List Cppdep.GNode} :
    ∀ (l : List Cppdep.GNode) (st : Cppdep.St) (pre suc : List (Cppdep.GNode × Cppdep.GNode))
      (st1 : Cppdep.St) (p1 s1 : List (Cppdep.GNode × Cppdep.GNode)),
      (∀ x ∈ l, x ∈ members) → (∀ m ∈ members, m.isBase = true) → rep.isBase = false →
      Cppdep.condenseMembers rep members st pre suc l = .ok (st1, p1, s1) →
      ∀ pn ∈ p1, pn ∈ pre ∨
        ((pn.1, pn.2) ∈ st.digraph.edges ∧ pn.1 ∉ members ∧ pn.2 ∈ members) := by
  intro l
  induction l with
  | nil =>
    intro st pre suc st1 p1 s1 _ _ _ h pn hpn
    cases h
    exact Or.inl hpn
  | cons n l ih =>
    intro st pre suc st1 p1 s1 hl hmb hrep h pn hpn
    rw [condenseMembers_cons] at h
    by_cases h1 : (Cppdep.assocFind n st.node2cycle).isSome = true
    · rw [if_pos h1] at h
      cases h
    · rw [if_neg h1] at h
      by_cases h2 : n ∉ st.digraph.nodes
      · rw [if_pos h2] at h
        cases h
      · rw [if_neg h2] at h
        rcases ih _ _ _ _ _ _ (fun x hx => hl x (List.mem_cons_of_mem n hx)) hmb hrep h pn hpn
          with hin | ⟨hedge, hnm, hm⟩
        · rcases List.mem_append.mp hin with hin2 | hin2
          · exact Or.inl hin2
          · obtain ⟨p, hp, rfl⟩ := List.mem_map.mp hin2
            rw [Cppdep.condStepPs, List.mem_filter, decide_eq_true_eq] at hp
            refine Or.inr ⟨mem_preds.mp hp.1, hp.2, hl n (List.mem_cons_self n l)⟩
        · rcases (condStepSt_edges_sub _ hedge).1 with h4 | h4 | h4
          · exact Or.inr ⟨h4, hnm, hm⟩
          · have hb : rep.isBase = true := by
              rw [← h4.1]
              exact hmb _ hm
            rw [hrep] at hb
            exact absurd hb Bool.false_ne_true
          · exact absurd hm h4.2

/-- Recorded outgoing boundary edges of the member loop: pre-existing entries
aside, each is an edge of the starting digraph from the member set out of it. -/
lemma condenseMembers_suc {rep : Cppdep.GNode} {members : List Cppdep.GNode} :
    ∀ (l : List Cppdep.GNode) (st : Cppdep.St) (pre suc : List (Cppdep.GNode × Cppdep.GNode))
      (st1 : Cppdep.St) (p1 s1 : List (Cppdep.GNode × Cppdep.GNode)),
      (∀ x ∈ l, x ∈ members) → (∀ m ∈ members, m.isBase = true) → rep.isBase = false →
      Cppdep.condenseMembers rep members st pre suc l = .ok (st1, p1, s1) →
      ∀ uv ∈ s1, uv ∈ suc ∨
        ((uv.1, uv.2) ∈ st.digraph.edges ∧ uv.1 ∈ members ∧ uv.2 ∉ members) := by
  intro l
  induction l with
  | nil =>
    intro st pre suc st1 p1 s1 _ _ _ h uv huv
    cases h
    exact Or.inl huv
  | cons n l ih =>
    intro st pre suc st1 p1 s1 hl hmb hrep h uv huv
    rw [condenseMembers_cons] at h
    by_cases h1 : (Cppdep.assocFind n st.node2cycle).isSome = true
    · rw [if_pos h1] at h
      cases h
    · rw [if_neg h1] at h
      by_cases h2 : n ∉ st.digraph.nodes
      · rw [if_pos h2] at h
        cases h
      · rw [if_neg h2] at h
        rcases ih _ _ _ _ _ _ (fun x hx => hl x (List.mem_cons_of_mem n hx)) hmb hrep h uv huv
          with hin | ⟨hedge, hm, hnm⟩
        · rcases List.mem_append.mp hin with hin2 | hin2
          · exact Or.inl hin2
          · obtain ⟨q, hq, rfl⟩ := List.mem_map.mp hin2
            rw [Cppdep.condStepSs, List.mem_filter, decide_eq_true_eq] at hq
            have hq1 := mem_succs.mp hq.1
            rw [Cppdep.condStepDg2, foldl_addEdge_snd] at hq1
            rcases hq1 with hq1 | ⟨p, hp, hpq⟩
            · exact Or.inr ⟨hq1, hl n (List.mem_cons_self n l), hq.2⟩
            · rw [Cppdep.condStepPs, List.mem_filter, decide_eq_true_eq] at hp
              obtain ⟨hnp, _⟩ := Prod.mk.injEq .. ▸ hpq
              exact absurd (hnp ▸ hl n (List.mem_cons_self n l)) hp.2
        · rcases (condStepSt_edges_sub _ hedge).1 with h4 | h4 | h4
          · exact Or.inr ⟨h4, hm, hnm⟩
          · exact absurd hm h4.2
          · have hb : rep.isBase = true := by
              rw [← h4.1]
              exact hmb _ hm
            rw [hrep] at hb
            exact absurd hb Bool.false_ne_true

/-- The member loop keeps the node list duplicate-free. -/
lemma condenseMembers_nodup {rep : Cppdep.GNode} {members : List Cppdep.GNode} :
    ∀ (l : List Cppdep.GNode) (st : Cppdep.St) (pre suc : List (Cppdep.GNode × Cppdep.GNode))
      (st1 : Cppdep.St) (p1 s1 : List (Cppdep.GNode × Cppdep.GNode)),
      Cppdep.condenseMembers rep members st pre suc l = .ok (st1, p1, s1) →
      st.digraph.nodes.Nodup → st1.digraph.nodes.Nodup := by
  intro l
  induction l with
  | nil =>
    intro st pre suc st1 p1 s1 h hnd
    cases h
    exact hnd
  | cons n l ih =>
    intro st pre suc st1 p1 s1 h hnd
    rw [condenseMembers_cons] at h
    by_cases h1 : (Cppdep.assocFind n st.node2cycle).isSome = true
    · rw [if_pos h1] at h
      cases h
    · rw [if_neg h1] at h
      by_cases h2 : n ∉ st.digraph.nodes
      · rw [if_pos h2] at h
        cases h
      · rw [if_neg h2] at h
        exact ih _ _ _ _ _ _ h (condStepSt_nodup hnd)

/-- A cycle representative is never a base node. -/
lemma repOf_isBase {l : List Cppdep.GNode} : (Cppdep.repOf l).isBase = false := rfl

/-- `condenseOne` preserves the condensation invariant. -/
lemma condenseOne_inv {E0 : List (Cppdep.GNode × Cppdep.GNode)} {snaps : List Cppdep.Cycle}
    {s s2 : Cppdep.St} {c : Cppdep.Cycle}
    (hc : c ∈ snaps)
    (hcm : ∀ m ∈ c.members, m.isBase = true)
    (hP : Cppdep.CondInv E0 snaps s)
    (hok : Cppdep.condenseOne s c = .ok s2) :
    Cppdep.CondInv E0 snaps s2 := by
  obtain ⟨P1, P2, P3, P4, P5, P6⟩ := hP
  rw [Cppdep.condenseOne] at hok
  cases hcm2 : Cppdep.condenseMembers (Cppdep.repOf c.members) c.members s [] [] c.members with
  | error e =>
    rw [hcm2] at hok
    cases hok
  | ok r =>
    obtain ⟨s1, pre, suc⟩ := r
    rw [hcm2] at hok
    have h2 : (if (s1.cycles.any fun e => decide (e.1.members = c.members)) = true
        then (Except.error Cppdep.Err.cycleSeen : Except Cppdep.Err Cppdep.St)
        else Except.ok { s1 with cycles := s1.cycles ++ [(c, pre, suc)] }) = Except.ok s2 := hok
    by_cases hany : (s1.cycles.any fun e => decide (e.1.members = c.members)) = true
    · rw [if_pos hany] at h2
      cases h2
    · rw [if_neg hany] at h2
      cases h2
      have hcyc : s1.cycles = s.cycles := condenseMembers_cycles _ _ _ _ _ _ _ hcm2
      refine ⟨?_, ?_, ?_, ?_, ?_, ?_⟩
      · intro e he
        rcases condenseMembers_edges _ _ _ _ _ _ _ hcm2 e he with h3 | h3 | h3
        · rcases P1 e h3 with hb | ⟨ce, hce, hr⟩
          · exact Or.inl hb
          · refine Or.inr ⟨ce, ?_, hr⟩
            show ce ∈ s1.cycles ++ [(c, pre, suc)]
            exact List.mem_append_left _ (hcyc ▸ hce)
        · refine Or.inr ⟨(c, pre, suc), ?_, Or.inr h3.1⟩
          exact List.mem_append_right _ (List.mem_singleton.mpr rfl)
        · refine Or.inr ⟨(c, pre, suc), ?_, Or.inl h3.1⟩
          exact List.mem_append_right _ (List.mem_singleton.mpr rfl)
      · intro k v hk
        rcases condenseMembers_n2c_new _ _ _ _ _ _ _ hcm2 k v hk with ⟨v0, hv0⟩ | hkm
        · exact P2 k v0 hv0
        · exact hcm k hkm
      · intro ce hce m hm
        rcases List.mem_append.mp hce with hce2 | hce2
        · refine condenseMembers_n2c_mono _ _ _ _ _ _ _ hcm2 m ?_
          exact P3 ce (hcyc ▸ hce2) m hm
        · rw [List.mem_singleton] at hce2
          subst hce2
          exact condenseMembers_n2c_records _ _ _ _ _ _ _ hcm2 m hm
      · intro ce hce
        rcases List.mem_append.mp hce with hce2 | hce2
        · exact P4 ce (hcyc ▸ hce2)
        · rw [List.mem_singleton] at hce2
          subst hce2
          exact hc
      · intro D ce T hsplit
        have hsplit2 : s1.cycles ++ [(c, pre, suc)] = D ++ ce :: T := hsplit
        rcases List.eq_nil_or_concat T with rfl | ⟨T2, last, hT⟩
        · obtain ⟨hD, hcons⟩ := List.append_inj' hsplit2 rfl
          have hce : ce = (c, pre, suc) := (List.cons.injEq .. ▸ hcons.symm).1
          subst hce
          constructor
          · intro pn hpn
            rcases condenseMembers_pre _ _ _ _ _ _ _ (fun x hx => hx) hcm repOf_isBase
                hcm2 pn hpn with hin | ⟨hedge, hnm, hm⟩
            · exact absurd hin (List.not_mem_nil pn)
            · rcases P1 _ hedge with ⟨hb1, _, hE⟩ | ⟨ce2, hce2, hr⟩
              · exact Or.inl ⟨hb1, hE⟩
              · rcases hr with hr | hr
                · refine Or.inr ⟨ce2, ?_, hr⟩
                  rw [← hD, hcyc]
                  exact hce2
                · have hb : (Cppdep.repOf ce2.1.members).isBase = true := by
                    rw [← hr]
                    exact hcm _ hm
                  rw [repOf_isBase] at hb
                  exact absurd hb Bool.false_ne_true
          · intro uv huv
            rcases condenseMembers_suc _ _ _ _ _ _ _ (fun x hx => hx) hcm repOf_isBase
                hcm2 uv huv with hin | ⟨hedge, hm, hnm⟩
            · exact absurd hin (List.not_mem_nil uv)
            · rcases P1 _ hedge with ⟨_, hb2, hE⟩ | ⟨ce2, hce2, hr⟩
              · exact Or.inl ⟨hb2, hE⟩
              · rcases hr with hr | hr
                · have hb : (Cppdep.repOf ce2.1.members).isBase = true := by
                    rw [← hr]
                    exact hcm _ hm
                  rw [repOf_isBase] at hb
                  exact absurd hb Bool.false_ne_true
                · refine Or.inr ⟨ce2, ?_, hr⟩
                  rw [← hD, hcyc]
                  exact hce2
        · rw [List.concat_eq_append] at hT
          subst hT
          have hassoc : s1.cycles ++ [(c, pre, suc)] = (D ++ ce :: T2) ++ [last] := by
            rw [hsplit2]
            simp
          obtain ⟨hD, _⟩ := List.append_inj' hassoc rfl
          exact P5 D ce T2 (by rw [← hcyc]; exact hD)
      · show s1.digraph.nodes.Nodup
        exact condenseMembers_nodup _ _ _ _ _ _ _ hcm2 P6

/-- `__condensation` establishes the condensation invariant. -/
lemma condense_CondInv {E0 : List (Cppdep.GNode × Cppdep.GNode)} {st stc : Cppdep.St}
    (hok : Cppdep.condense st = .ok stc)
    (hsnapbase : ∀ c ∈ Cppdep.sccSnapshots st, ∀ m ∈ c.members, m.isBase = true)
    (hinit : Cppdep.CondInv E0 (Cppdep.sccSnapshots st) st) :
    Cppdep.CondInv E0 (Cppdep.sccSnapshots st) stc := by
  rw [Cppdep.condense] at hok
  cases hres : (Cppdep.sccSnapshots st).foldlM Cppdep.condenseOne st with
  | error e =>
    rw [hres] at hok
    cases hok
  | ok s1 =>
    rw [hres] at hok
    cases hok
    exact except_foldlM_inv (Cppdep.CondInv E0 (Cppdep.sccSnapshots st)) _ _
      (fun s c s' hc hP hone => condenseOne_inv hc (hsnapbase c hc) hP hone) st s1 hinit hres

/-- `condenseOne` never discards a recorded cycle. -/
lemma condenseOne_cycles_mono {s s2 : Cppdep.St} {c : Cppdep.Cycle}
    (h : Cppdep.condenseOne s c = .ok s2) : ∀ x ∈ s.cycles, x ∈ s2.cycles := by
  obtain ⟨pre, suc, hcy⟩ := condenseOne_cycles h
  intro x hx
  rw [hcy]
  exact List.mem_append_left _ hx

/-- Every snapshot processed by the condensation fold ends up recorded. -/
lemma foldlM_condenseOne_covers :
    ∀ (l : List Cppdep.Cycle) (s s' : Cppdep.St),
      l.foldlM Cppdep.condenseOne s = .ok s' →
      ∀ c ∈ l, ∃ pre suc, (c, pre, suc) ∈ s'.cycles := by
  intro l
  induction l with
  | nil =>
    intro s s' h c hc
    exact absurd hc (List.not_mem_nil c)
  | cons c0 l ih =>
    intro s s' h c hc
    rw [List.foldlM_cons] at h
    cases hone : Cppdep.condenseOne s c0 with
    | error e =>
      rw [hone] at h
      cases h
    | ok s1 =>
      rw [hone] at h
      rcases List.mem_cons.mp hc with rfl | hcl
      · obtain ⟨pre, suc, hcy⟩ := condenseOne_cycles hone
        have hmem : (c, pre, suc) ∈ s1.cycles := by
          rw [hcy]
          exact List.mem_append_right _ (List.mem_singleton.mpr rfl)
        exact ⟨pre, suc, except_foldlM_inv (fun s => (c, pre, suc) ∈ s.cycles) l
          Cppdep.condenseOne (fun s b s2 _ hP hone2 => condenseOne_cycles_mono hone2 _ hP)
          s1 s' hmem h⟩
      · exact ih _ _ h c hcl

/-- Every snapshot of `__condensation`'s input is recorded in its output. -/
lemma condense_covers {st stc : Cppdep.St} (hok : Cppdep.condense st = .ok stc) :
    ∀ c ∈ Cppdep.sccSnapshots st, ∃ pre suc, (c, pre, suc) ∈ stc.cycles := by
  rw [Cppdep.condense] at hok
  cases hres : (Cppdep.sccSnapshots st).foldlM Cppdep.condenseOne st with
  | error e =>
    rw [hres] at hok
    cases hok
  | ok s1 =>
    rw [hres] at hok
    cases hok
    intro c hc
    obtain ⟨p, q, hm⟩ := foldlM_condenseOne_covers _ _ _ hres c hc
    exact ⟨p, q, hm⟩

/-- A conditional edge-restoring fold whose condition only ever fires on
original edges: the result stays within the original edges plus base-to-base
edges of `E0`, existing edges and nodes persist, and distinctness persists. -/
lemma restore_fold {E0 : List (Cppdep.GNode × Cppdep.GNode)} {D : Cppdep.DG}
    (C : Cppdep.DG → Cppdep.GNode × Cppdep.GNode → Bool)
    (hE0 : ∀ e ∈ E0, e.1.isBase = true ∧ e.2.isBase = true) :
    ∀ (l : List (Cppdep.GNode × Cppdep.GNode)) (g : Cppdep.DG),
      (∀ e ∈ g.edges, e ∈ D.edges ∨ (e ∈ E0 ∧ e.1.isBase = true ∧ e.2.isBase = true)) →
      (∀ (g2 : Cppdep.DG) pv, pv ∈ l →
        (∀ e ∈ g2.edges, e ∈ D.edges ∨ (e ∈ E0 ∧ e.1.isBase = true ∧ e.2.isBase = true)) →
        C g2 pv = true → pv ∈ E0) →
      (∀ e ∈ (l.foldl (fun g pv => if C g pv then g.addEdge pv.1 pv.2 else g) g).edges,
          e ∈ D.edges ∨ (e ∈ E0 ∧ e.1.isBase = true ∧ e.2.isBase = true)) ∧
      (∀ e ∈ g.edges,
          e ∈ (l.foldl (fun g pv => if C g pv then g.addEdge pv.1 pv.2 else g) g).edges) ∧
      (∀ x ∈ g.nodes,
          x ∈ (l.foldl (fun g pv => if C g pv then g.addEdge pv.1 pv.2 else g) g).nodes) ∧
      (g.nodes.Nodup →
        (l.foldl (fun g pv => if C g pv then g.addEdge pv.1 pv.2 else g) g).nodes.Nodup) ∧
      (∀ x ∈ (l.foldl (fun g pv => if C g pv then g.addEdge pv.1 pv.2 else g) g).nodes,
          x ∈ g.nodes ∨ ∃ e ∈ E0, x = e.1 ∨ x = e.2) := by
  intro l
  induction l with
  | nil => exact fun g hg _ => ⟨hg, fun e he => he, fun x hx => hx, fun h => h,
      fun x hx => Or.inl hx⟩
  | cons pv l ih =>
    intro g hg hC
    have hg' : ∀ e ∈ (if C g pv then g.addEdge pv.1 pv.2 else g).edges,
        e ∈ D.edges ∨ (e ∈ E0 ∧ e.1.isBase = true ∧ e.2.isBase = true) := by
      intro e he
      by_cases hcond : C g pv = true
      · rw [if_pos hcond] at he
        rcases mem_addEdge.mp he with he2 | rfl
        · exact hg e he2
        · have hpv : pv ∈ E0 := hC g pv (List.mem_cons_self pv l) hg hcond
          exact Or.inr ⟨hpv, (hE0 pv hpv).1, (hE0 pv hpv).2⟩
      · rw [if_neg hcond] at he
        exact hg e he
    have hmono : ∀ e ∈ g.edges, e ∈ (if C g pv then g.addEdge pv.1 pv.2 else g).edges := by
      intro e he
      by_cases hcond : C g pv = true
      · rw [if_pos hcond]
        exact mem_addEdge.mpr (Or.inl he)
      · rw [if_neg hcond]
        exact he
    have hnodes : ∀ x ∈ g.nodes, x ∈ (if C g pv then g.addEdge pv.1 pv.2 else g).nodes := by
      intro x hx
      by_cases hcond : C g pv = true
      · rw [if_pos hcond]
        exact mem_addEdge_nodes.mpr (Or.inl hx)
      · rw [if_neg hcond]
        exact hx
    have hnd : g.nodes.Nodup → (if C g pv then g.addEdge pv.1 pv.2 else g).nodes.Nodup := by
      intro h
      by_cases hcond : C g pv = true
      · rw [if_pos hcond]
        exact addEdge_nodup h
      · rw [if_neg hcond]
        exact h
    have hrec := ih (if C g pv then g.addEdge pv.1 pv.2 else g) hg'
      (fun g2 qv hqv => hC g2 qv (List.mem_cons_of_mem pv hqv))
    rw [List.foldl_cons]
    refine ⟨hrec.1, fun e he => hrec.2.1 e (hmono e he),
      fun x hx => hrec.2.2.1 x (hnodes x hx), fun h => hrec.2.2.2.1 (hnd h), ?_⟩
    intro x hx
    rcases hrec.2.2.2.2 x hx with h2 | h2
    · by_cases hcond : C g pv = true
      · rw [if_pos hcond] at h2
        rcases mem_addEdge_nodes.mp h2 with h3 | h3 | h3
        · exact Or.inl h3
        · exact Or.inr ⟨pv, hC g pv (List.mem_cons_self pv l) hg hcond, Or.inl h3⟩
        · exact Or.inr ⟨pv, hC g pv (List.mem_cons_self pv l) hg hcond, Or.inr h3⟩
      · rw [if_neg hcond] at h2
        exact Or.inl h2
    · exact Or.inr h2

/-- Nodes of a plain edge-restoring fold: old nodes or endpoints of the
restored pairs. -/
lemma foldl_addEdge_pairs_nodes_upper :
    ∀ (l : List (Cppdep.GNode × Cppdep.GNode)) (g : Cppdep.DG) (x : Cppdep.GNode),
      x ∈ (l.foldl (fun (g : Cppdep.DG) uv => g.addEdge uv.1 uv.2) g).nodes →
      x ∈ g.nodes ∨ ∃ uv ∈ l, x = uv.1 ∨ x = uv.2 := by
  intro l
  induction l with
  | nil => exact fun g x hx => Or.inl hx
  | cons p l ih =>
    intro g x hx
    rw [List.foldl_cons] at hx
    rcases ih _ x hx with h2 | ⟨uv, huv, hend⟩
    · rcases mem_addEdge_nodes.mp h2 with h3 | h3 | h3
      · exact Or.inl h3
      · exact Or.inr ⟨p, List.mem_cons_self _ _, Or.inl h3⟩
      · exact Or.inr ⟨p, List.mem_cons_self _ _, Or.inr h3⟩
    · exact Or.inr ⟨uv, List.mem_cons_of_mem _ huv, hend⟩

/-- A base node is never a cycle representative. -/
lemma ne_repOf_of_isBase {x : Cppdep.GNode} {l : List Cppdep.GNode}
    (h : x.isBase = true) : x ≠ Cppdep.repOf l := by
  intro hc
  rw [hc, repOf_isBase] at h
  exact Bool.false_ne_true h

set_option maxHeartbeats 3200000 in
/-- One step of `__decondensation`, on an entry whose incoming and outgoing
boundary edges are original edges or touch an already-dead representative:
the digraph stays within the original base-to-base edges plus whatever was
already there minus the entry's representative; base-to-base edges, base
nodes and distinctness persist; the entry's members and intra-cycle edges
are restored; the bookkeeping dictionaries are untouched. -/
lemma decondenseOne_step {E0 : List (Cppdep.GNode × Cppdep.GNode)} {s s' : Cppdep.St}
    {ce : Cppdep.CycleEntry}
    (hE0 : ∀ e ∈ E0, e.1.isBase = true ∧ e.2.isBase = true)
    (hpre : ∀ pn ∈ ce.2.1, (pn.1.isBase = true ∧ pn ∈ E0) ∨
        (pn.1.isBase = false ∧ Cppdep.NoIncident s.digraph pn.1))
    (hsuc : ∀ uv ∈ ce.2.2, (uv.2.isBase = true ∧ uv ∈ E0) ∨
        (uv.2.isBase = false ∧ Cppdep.NoIncident s.digraph uv.2))
    (hintra : ∀ uv ∈ ce.1.intra, uv ∈ E0)
    (hn2c : ∀ k v, Cppdep.assocFind k s.node2cycle = some v → k.isBase = true)
    (hok : Cppdep.decondenseOne s ce = .ok s') :
    (∀ e ∈ s'.digraph.edges,
        (e ∈ s.digraph.edges ∨ (e ∈ E0 ∧ e.1.isBase = true ∧ e.2.isBase = true)) ∧
        e.1 ≠ Cppdep.repOf ce.1.members ∧ e.2 ≠ Cppdep.repOf ce.1.members) ∧
    (∀ pq ∈ s.digraph.edges, pq.1.isBase = true → pq.2.isBase = true →
        pq ∈ s'.digraph.edges) ∧
    (∀ x ∈ s.digraph.nodes, x.isBase = true → x ∈ s'.digraph.nodes) ∧
    (∀ uv ∈ ce.1.intra, uv ∈ s'.digraph.edges) ∧
    (∀ m ∈ ce.1.members, m.isBase = true → m ∈ s'.digraph.nodes) ∧
    s'.node2cycle = s.node2cycle ∧ s'.cycles = s.cycles ∧
    (s.digraph.nodes.Nodup → s'.digraph.nodes.Nodup) ∧
    (∀ x ∈ s'.digraph.nodes,
        (x ∈ s.digraph.nodes ∨ x ∈ ce.1.members ∨ ∃ e2 ∈ E0, x = e2.1 ∨ x = e2.2) ∧
        x ≠ Cppdep.repOf ce.1.members) := by
  rw [Cppdep.decondenseOne] at hok
  simp only [] at hok
  by_cases hrepmem : Cppdep.repOf ce.1.members ∉ s.digraph.nodes
  · rw [if_pos hrepmem] at hok
    cases hok
  · rw [if_neg hrepmem] at hok
    cases hok
    have hsafe1 : ∀ (g2 : Cppdep.DG) pv, pv ∈ ce.2.1 →
        (∀ e ∈ g2.edges, e ∈ s.digraph.edges ∨ (e ∈ E0 ∧ e.1.isBase = true ∧ e.2.isBase = true)) →
        (g2.hasEdge pv.1 (Cppdep.repOf ce.1.members) || (match Cppdep.assocFind pv.1 s.node2cycle with
          | some c => g2.hasEdge c (Cppdep.repOf ce.1.members) | none => false)) = true → pv ∈ E0 := by
      intro g2 pv hpv hg2 hcond
      rcases hpre pv hpv with ⟨_, hE⟩ | ⟨hbf, hni⟩
      · exact hE
      · exfalso
        rw [Bool.or_eq_true] at hcond
        rcases hcond with hc1 | hc2
        · have hmem : (pv.1, Cppdep.repOf ce.1.members) ∈ g2.edges := of_decide_eq_true hc1
          rcases hg2 _ hmem with hmem2 | ⟨_, hb, _⟩
          · exact (hni _ hmem2).1 rfl
          · rw [hbf] at hb
            exact Bool.false_ne_true hb
        · cases hfind : Cppdep.assocFind pv.1 s.node2cycle with
          | none =>
            rw [hfind] at hc2
            exact Bool.false_ne_true hc2
          | some c =>
            have hb := hn2c _ _ hfind
            rw [hbf] at hb
            exact Bool.false_ne_true hb
    have hsafe2 : ∀ (g2 : Cppdep.DG) uv, uv ∈ ce.2.2 →
        (∀ e ∈ g2.edges, e ∈ s.digraph.edges ∨ (e ∈ E0 ∧ e.1.isBase = true ∧ e.2.isBase = true)) →
        (g2.hasEdge (Cppdep.repOf ce.1.members) uv.2 || (match Cppdep.assocFind uv.2 s.node2cycle with
          | some c => g2.hasEdge (Cppdep.repOf ce.1.members) c | none => false)) = true → uv ∈ E0 := by
      intro g2 uv huv hg2 hcond
      rcases hsuc uv huv with ⟨_, hE⟩ | ⟨hbf, hni⟩
      · exact hE
      · exfalso
        rw [Bool.or_eq_true] at hcond
        rcases hcond with hc1 | hc2
        · have hmem : (Cppdep.repOf ce.1.members, uv.2) ∈ g2.edges := of_decide_eq_true hc1
          rcases hg2 _ hmem with hmem2 | ⟨_, _, hb⟩
          · exact (hni _ hmem2).2 rfl
          · rw [hbf] at hb
            exact Bool.false_ne_true hb
        · cases hfind : Cppdep.assocFind uv.2 s.node2cycle with
          | none =>
            rw [hfind] at hc2
            exact Bool.false_ne_true hc2
          | some c =>
            have hb := hn2c _ _ hfind
            rw [hbf] at hb
            exact Bool.false_ne_true hb
    have hf1 := @restore_fold E0 s.digraph (fun (g : Cppdep.DG) (pv : Cppdep.GNode × Cppdep.GNode) => g.hasEdge pv.1 (Cppdep.repOf ce.1.members) || (match Cppdep.assocFind pv.1 s.node2cycle with | some c => g.hasEdge c (Cppdep.repOf ce.1.members) | none => false)) hE0 ce.2.1 s.digraph
      (fun e he => Or.inl he) hsafe1
    have hf2 := @restore_fold E0 s.digraph (fun (g : Cppdep.DG) (uv : Cppdep.GNode × Cppdep.GNode) => g.hasEdge (Cppdep.repOf ce.1.members) uv.2 || (match Cppdep.assocFind uv.2 s.node2cycle with | some c => g.hasEdge (Cppdep.repOf ce.1.members) c | none => false)) hE0 ce.2.2 (ce.2.1.foldl (fun (g : Cppdep.DG) pv => if g.hasEdge pv.1 (Cppdep.repOf ce.1.members) || (match Cppdep.assocFind pv.1 s.node2cycle with | some c => g.hasEdge c (Cppdep.repOf ce.1.members) | none => false) then g.addEdge pv.1 pv.2 else g) s.digraph) hf1.1 hsafe2
    have h2EOK : ∀ e ∈ (ce.2.2.foldl (fun (g : Cppdep.DG) uv => if g.hasEdge (Cppdep.repOf ce.1.members) uv.2 || (match Cppdep.assocFind uv.2 s.node2cycle with | some c => g.hasEdge (Cppdep.repOf ce.1.members) c | none => false) then g.addEdge uv.1 uv.2 else g) (ce.2.1.foldl (fun (g : Cppdep.DG) pv => if g.hasEdge pv.1 (Cppdep.repOf ce.1.members) || (match Cppdep.assocFind pv.1 s.node2cycle with | some c => g.hasEdge c (Cppdep.repOf ce.1.members) | none => false) then g.addEdge pv.1 pv.2 else g) s.digraph)).edges,
        e ∈ s.digraph.edges ∨ (e ∈ E0 ∧ e.1.isBase = true ∧ e.2.isBase = true) := hf2.1
    have h2mono : ∀ e ∈ s.digraph.edges, e ∈ (ce.2.2.foldl (fun (g : Cppdep.DG) uv => if g.hasEdge (Cppdep.repOf ce.1.members) uv.2 || (match Cppdep.assocFind uv.2 s.node2cycle with | some c => g.hasEdge (Cppdep.repOf ce.1.members) c | none => false) then g.addEdge uv.1 uv.2 else g) (ce.2.1.foldl (fun (g : Cppdep.DG) pv => if g.hasEdge pv.1 (Cppdep.repOf ce.1.members) || (match Cppdep.assocFind pv.1 s.node2cycle with | some c => g.hasEdge c (Cppdep.repOf ce.1.members) | none => false) then g.addEdge pv.1 pv.2 else g) s.digraph)).edges :=
      fun e he => hf2.2.1 e (hf1.2.1 e he)
    have h2nodes : ∀ x ∈ s.digraph.nodes, x ∈ (ce.2.2.foldl (fun (g : Cppdep.DG) uv => if g.hasEdge (Cppdep.repOf ce.1.members) uv.2 || (match Cppdep.assocFind uv.2 s.node2cycle with | some c => g.hasEdge (Cppdep.repOf ce.1.members) c | none => false) then g.addEdge uv.1 uv.2 else g) (ce.2.1.foldl (fun (g : Cppdep.DG) pv => if g.hasEdge pv.1 (Cppdep.repOf ce.1.members) || (match Cppdep.assocFind pv.1 s.node2cycle with | some c => g.hasEdge c (Cppdep.repOf ce.1.members) | none => false) then g.addEdge pv.1 pv.2 else g) s.digraph)).nodes :=
      fun x hx => hf2.2.2.1 x (hf1.2.2.1 x hx)
    have h2nd : s.digraph.nodes.Nodup → (ce.2.2.foldl (fun (g : Cppdep.DG) uv => if g.hasEdge (Cppdep.repOf ce.1.members) uv.2 || (match Cppdep.assocFind uv.2 s.node2cycle with | some c => g.hasEdge (Cppdep.repOf ce.1.members) c | none => false) then g.addEdge uv.1 uv.2 else g) (ce.2.1.foldl (fun (g : Cppdep.DG) pv => if g.hasEdge pv.1 (Cppdep.repOf ce.1.members) || (match Cppdep.assocFind pv.1 s.node2cycle with | some c => g.hasEdge c (Cppdep.repOf ce.1.members) | none => false) then g.addEdge pv.1 pv.2 else g) s.digraph)).nodes.Nodup :=
      fun h => hf2.2.2.2.1 (hf1.2.2.2.1 h)
    have h4edges : ∀ e ∈ (ce.1.intra.foldl (fun (g : Cppdep.DG) uv => g.addEdge uv.1 uv.2) (ce.1.members.foldl Cppdep.DG.addNode (ce.2.2.foldl (fun (g : Cppdep.DG) uv => if g.hasEdge (Cppdep.repOf ce.1.members) uv.2 || (match Cppdep.assocFind uv.2 s.node2cycle with | some c => g.hasEdge (Cppdep.repOf ce.1.members) c | none => false) then g.addEdge uv.1 uv.2 else g) (ce.2.1.foldl (fun (g : Cppdep.DG) pv => if g.hasEdge pv.1 (Cppdep.repOf ce.1.members) || (match Cppdep.assocFind pv.1 s.node2cycle with | some c => g.hasEdge c (Cppdep.repOf ce.1.members) | none => false) then g.addEdge pv.1 pv.2 else g) s.digraph)))).edges,
        e ∈ s.digraph.edges ∨ (e ∈ E0 ∧ e.1.isBase = true ∧ e.2.isBase = true) := by
      intro e he
      rcases (foldl_addEdge_pairs _ _ _).mp he with he2 | he2
      · rw [foldl_addNode_edges] at he2
        exact h2EOK e he2
      · have hE := hintra e he2
        exact Or.inr ⟨hE, (hE0 e hE).1, (hE0 e hE).2⟩
    have h4mono : ∀ e ∈ (ce.2.2.foldl (fun (g : Cppdep.DG) uv => if g.hasEdge (Cppdep.repOf ce.1.members) uv.2 || (match Cppdep.assocFind uv.2 s.node2cycle with | some c => g.hasEdge (Cppdep.repOf ce.1.members) c | none => false) then g.addEdge uv.1 uv.2 else g) (ce.2.1.foldl (fun (g : Cppdep.DG) pv => if g.hasEdge pv.1 (Cppdep.repOf ce.1.members) || (match Cppdep.assocFind pv.1 s.node2cycle with | some c => g.hasEdge c (Cppdep.repOf ce.1.members) | none => false) then g.addEdge pv.1 pv.2 else g) s.digraph)).edges, e ∈ (ce.1.intra.foldl (fun (g : Cppdep.DG) uv => g.addEdge uv.1 uv.2) (ce.1.members.foldl Cppdep.DG.addNode (ce.2.2.foldl (fun (g : Cppdep.DG) uv => if g.hasEdge (Cppdep.repOf ce.1.members) uv.2 || (match Cppdep.assocFind uv.2 s.node2cycle with | some c => g.hasEdge (Cppdep.repOf ce.1.members) c | none => false) then g.addEdge uv.1 uv.2 else g) (ce.2.1.foldl (fun (g : Cppdep.DG) pv => if g.hasEdge pv.1 (Cppdep.repOf ce.1.members) || (match Cppdep.assocFind pv.1 s.node2cycle with | some c => g.hasEdge c (Cppdep.repOf ce.1.members) | none => false) then g.addEdge pv.1 pv.2 else g) s.digraph)))).edges := by
      intro e he
      refine (foldl_addEdge_pairs _ _ _).mpr (Or.inl ?_)
      rw [foldl_addNode_edges]
      exact he
    have h4nodes : ∀ x, (x ∈ (ce.2.2.foldl (fun (g : Cppdep.DG) uv => if g.hasEdge (Cppdep.repOf ce.1.members) uv.2 || (match Cppdep.assocFind uv.2 s.node2cycle with | some c => g.hasEdge (Cppdep.repOf ce.1.members) c | none => false) then g.addEdge uv.1 uv.2 else g) (ce.2.1.foldl (fun (g : Cppdep.DG) pv => if g.hasEdge pv.1 (Cppdep.repOf ce.1.members) || (match Cppdep.assocFind pv.1 s.node2cycle with | some c => g.hasEdge c (Cppdep.repOf ce.1.members) | none => false) then g.addEdge pv.1 pv.2 else g) s.digraph)).nodes ∨ x ∈ ce.1.members) → x ∈ (ce.1.intra.foldl (fun (g : Cppdep.DG) uv => g.addEdge uv.1 uv.2) (ce.1.members.foldl Cppdep.DG.addNode (ce.2.2.foldl (fun (g : Cppdep.DG) uv => if g.hasEdge (Cppdep.repOf ce.1.members) uv.2 || (match Cppdep.assocFind uv.2 s.node2cycle with | some c => g.hasEdge (Cppdep.repOf ce.1.members) c | none => false) then g.addEdge uv.1 uv.2 else g) (ce.2.1.foldl (fun (g : Cppdep.DG) pv => if g.hasEdge pv.1 (Cppdep.repOf ce.1.members) || (match Cppdep.assocFind pv.1 s.node2cycle with | some c => g.hasEdge c (Cppdep.repOf ce.1.members) | none => false) then g.addEdge pv.1 pv.2 else g) s.digraph)))).nodes := by
      intro x hx
      exact foldl_addEdge_pairs_nodes_sub _ _ x ((foldl_addNode_nodes _ _ _).mpr hx)
    have h4nd : s.digraph.nodes.Nodup → (ce.1.intra.foldl (fun (g : Cppdep.DG) uv => g.addEdge uv.1 uv.2) (ce.1.members.foldl Cppdep.DG.addNode (ce.2.2.foldl (fun (g : Cppdep.DG) uv => if g.hasEdge (Cppdep.repOf ce.1.members) uv.2 || (match Cppdep.assocFind uv.2 s.node2cycle with | some c => g.hasEdge (Cppdep.repOf ce.1.members) c | none => false) then g.addEdge uv.1 uv.2 else g) (ce.2.1.foldl (fun (g : Cppdep.DG) pv => if g.hasEdge pv.1 (Cppdep.repOf ce.1.members) || (match Cppdep.assocFind pv.1 s.node2cycle with | some c => g.hasEdge c (Cppdep.repOf ce.1.members) | none => false) then g.addEdge pv.1 pv.2 else g) s.digraph)))).nodes.Nodup := by
      intro h
      apply foldl_nodup_of_step _ (fun g a hg => addEdge_nodup hg)
      apply foldl_nodup_of_step _ (fun g a hg => addNode_nodup hg)
      exact h2nd h
    refine ⟨?_, ?_, ?_, ?_, ?_, rfl, rfl, ?_, ?_⟩
    · intro e he
      have he2 : e ∈ ((ce.1.intra.foldl (fun (g : Cppdep.DG) uv => g.addEdge uv.1 uv.2) (ce.1.members.foldl Cppdep.DG.addNode (ce.2.2.foldl (fun (g : Cppdep.DG) uv => if g.hasEdge (Cppdep.repOf ce.1.members) uv.2 || (match Cppdep.assocFind uv.2 s.node2cycle with | some c => g.hasEdge (Cppdep.repOf ce.1.members) c | none => false) then g.addEdge uv.1 uv.2 else g) (ce.2.1.foldl (fun (g : Cppdep.DG) pv => if g.hasEdge pv.1 (Cppdep.repOf ce.1.members) || (match Cppdep.assocFind pv.1 s.node2cycle with | some c => g.hasEdge c (Cppdep.repOf ce.1.members) | none => false) then g.addEdge pv.1 pv.2 else g) s.digraph)))).removeNode (Cppdep.repOf ce.1.members)).edges := he
      rw [mem_removeNode_edges] at he2
      exact ⟨h4edges e he2.1, he2.2.1, he2.2.2⟩
    · intro pq hpq hb1 hb2
      show pq ∈ ((ce.1.intra.foldl (fun (g : Cppdep.DG) uv => g.addEdge uv.1 uv.2) (ce.1.members.foldl Cppdep.DG.addNode (ce.2.2.foldl (fun (g : Cppdep.DG) uv => if g.hasEdge (Cppdep.repOf ce.1.members) uv.2 || (match Cppdep.assocFind uv.2 s.node2cycle with | some c => g.hasEdge (Cppdep.repOf ce.1.members) c | none => false) then g.addEdge uv.1 uv.2 else g) (ce.2.1.foldl (fun (g : Cppdep.DG) pv => if g.hasEdge pv.1 (Cppdep.repOf ce.1.members) || (match Cppdep.assocFind pv.1 s.node2cycle with | some c => g.hasEdge c (Cppdep.repOf ce.1.members) | none => false) then g.addEdge pv.1 pv.2 else g) s.digraph)))).removeNode (Cppdep.repOf ce.1.members)).edges
      rw [mem_removeNode_edges]
      exact ⟨h4mono pq (h2mono pq hpq), ne_repOf_of_isBase hb1, ne_repOf_of_isBase hb2⟩
    · intro x hx hb
      show x ∈ ((ce.1.intra.foldl (fun (g : Cppdep.DG) uv => g.addEdge uv.1 uv.2) (ce.1.members.foldl Cppdep.DG.addNode (ce.2.2.foldl (fun (g : Cppdep.DG) uv => if g.hasEdge (Cppdep.repOf ce.1.members) uv.2 || (match Cppdep.assocFind uv.2 s.node2cycle with | some c => g.hasEdge (Cppdep.repOf ce.1.members) c | none => false) then g.addEdge uv.1 uv.2 else g) (ce.2.1.foldl (fun (g : Cppdep.DG) pv => if g.hasEdge pv.1 (Cppdep.repOf ce.1.members) || (match Cppdep.assocFind pv.1 s.node2cycle with | some c => g.hasEdge c (Cppdep.repOf ce.1.members) | none => false) then g.addEdge pv.1 pv.2 else g) s.digraph)))).removeNode (Cppdep.repOf ce.1.members)).nodes
      rw [mem_removeNode_nodes]
      exact ⟨h4nodes x (Or.inl (h2nodes x hx)), ne_repOf_of_isBase hb⟩
    · intro uv huv
      show uv ∈ ((ce.1.intra.foldl (fun (g : Cppdep.DG) uv => g.addEdge uv.1 uv.2) (ce.1.members.foldl Cppdep.DG.addNode (ce.2.2.foldl (fun (g : Cppdep.DG) uv => if g.hasEdge (Cppdep.repOf ce.1.members) uv.2 || (match Cppdep.assocFind uv.2 s.node2cycle with | some c => g.hasEdge (Cppdep.repOf ce.1.members) c | none => false) then g.addEdge uv.1 uv.2 else g) (ce.2.1.foldl (fun (g : Cppdep.DG) pv => if g.hasEdge pv.1 (Cppdep.repOf ce.1.members) || (match Cppdep.assocFind pv.1 s.node2cycle with | some c => g.hasEdge c (Cppdep.repOf ce.1.members) | none => false) then g.addEdge pv.1 pv.2 else g) s.digraph)))).removeNode (Cppdep.repOf ce.1.members)).edges
      rw [mem_removeNode_edges]
      have hE := hintra uv huv
      refine ⟨(foldl_addEdge_pairs _ _ _).mpr (Or.inr huv),
        ne_repOf_of_isBase (hE0 uv hE).1, ne_repOf_of_isBase (hE0 uv hE).2⟩
    · intro m hm hb
      show m ∈ ((ce.1.intra.foldl (fun (g : Cppdep.DG) uv => g.addEdge uv.1 uv.2) (ce.1.members.foldl Cppdep.DG.addNode (ce.2.2.foldl (fun (g : Cppdep.DG) uv => if g.hasEdge (Cppdep.repOf ce.1.members) uv.2 || (match Cppdep.assocFind uv.2 s.node2cycle with | some c => g.hasEdge (Cppdep.repOf ce.1.members) c | none => false) then g.addEdge uv.1 uv.2 else g) (ce.2.1.foldl (fun (g : Cppdep.DG) pv => if g.hasEdge pv.1 (Cppdep.repOf ce.1.members) || (match Cppdep.assocFind pv.1 s.node2cycle with | some c => g.hasEdge c (Cppdep.repOf ce.1.members) | none => false) then g.addEdge pv.1 pv.2 else g) s.digraph)))).removeNode (Cppdep.repOf ce.1.members)).nodes
      rw [mem_removeNode_nodes]
      exact ⟨h4nodes m (Or.inr hm), ne_repOf_of_isBase hb⟩
    · intro h
      show ((ce.1.intra.foldl (fun (g : Cppdep.DG) uv => g.addEdge uv.1 uv.2) (ce.1.members.foldl Cppdep.DG.addNode (ce.2.2.foldl (fun (g : Cppdep.DG) uv => if g.hasEdge (Cppdep.repOf ce.1.members) uv.2 || (match Cppdep.assocFind uv.2 s.node2cycle with | some c => g.hasEdge (Cppdep.repOf ce.1.members) c | none => false) then g.addEdge uv.1 uv.2 else g) (ce.2.1.foldl (fun (g : Cppdep.DG) pv => if g.hasEdge pv.1 (Cppdep.repOf ce.1.members) || (match Cppdep.assocFind pv.1 s.node2cycle with | some c => g.hasEdge c (Cppdep.repOf ce.1.members) | none => false) then g.addEdge pv.1 pv.2 else g) s.digraph)))).removeNode (Cppdep.repOf ce.1.members)).nodes.Nodup
      exact removeNode_nodup (h4nd h)
    · intro x hx
      have hx2 : x ∈ ((ce.1.intra.foldl (fun (g : Cppdep.DG) uv => g.addEdge uv.1 uv.2) (ce.1.members.foldl Cppdep.DG.addNode (ce.2.2.foldl (fun (g : Cppdep.DG) uv => if g.hasEdge (Cppdep.repOf ce.1.members) uv.2 || (match Cppdep.assocFind uv.2 s.node2cycle with | some c => g.hasEdge (Cppdep.repOf ce.1.members) c | none => false) then g.addEdge uv.1 uv.2 else g) (ce.2.1.foldl (fun (g : Cppdep.DG) pv => if g.hasEdge pv.1 (Cppdep.repOf ce.1.members) || (match Cppdep.assocFind pv.1 s.node2cycle with | some c => g.hasEdge c (Cppdep.repOf ce.1.members) | none => false) then g.addEdge pv.1 pv.2 else g) s.digraph)))).removeNode (Cppdep.repOf ce.1.members)).nodes := hx
      rw [mem_removeNode_nodes] at hx2
      refine ⟨?_, hx2.2⟩
      rcases foldl_addEdge_pairs_nodes_upper _ _ _ hx2.1 with hx4 | ⟨uv, huv, hend⟩
      · rcases (foldl_addNode_nodes _ _ _).mp hx4 with hx5 | hx5
        · rcases hf2.2.2.2.2 x hx5 with hx6 | hx6
          · rcases hf1.2.2.2.2 x hx6 with hx7 | hx7
            · exact Or.inl hx7
            · exact Or.inr (Or.inr hx7)
          · exact Or.inr (Or.inr hx6)
        · exact Or.inr (Or.inl hx5)
      · exact Or.inr (Or.inr ⟨uv, hintra uv huv, hend⟩)

/-- The decondensation fold, processing the suffix `T` of the recorded list
`L` with the reps of the processed prefix `D` already dead: the final digraph
contains only original base-to-base edges; base edges, base nodes and
distinctness persist; members and intra-cycle edges of every remaining entry
are restored; `node2cycle` is untouched. -/
lemma decondense_go {E0 : List (Cppdep.GNode × Cppdep.GNode)} {L : List Cppdep.CycleEntry}
    (hE0 : ∀ e ∈ E0, e.1.isBase = true ∧ e.2.isBase = true)
    (HL : ∀ D ce T, L = D ++ ce :: T →
      (∀ pn ∈ ce.2.1, (pn.1.isBase = true ∧ pn ∈ E0) ∨
          ∃ ce2 ∈ D, pn.1 = Cppdep.repOf ce2.1.members) ∧
      (∀ uv ∈ ce.2.2, (uv.2.isBase = true ∧ uv ∈ E0) ∨
          ∃ ce2 ∈ D, uv.2 = Cppdep.repOf ce2.1.members))
    (HLintra : ∀ ce ∈ L, ∀ uv ∈ ce.1.intra, uv ∈ E0)
    (HLmem : ∀ ce ∈ L, ∀ m ∈ ce.1.members, m.isBase = true) :
    ∀ (T D : List Cppdep.CycleEntry) (s s1 : Cppdep.St), L = D ++ T →
      (∀ ce ∈ D, Cppdep.NoIncident s.digraph (Cppdep.repOf ce.1.members)) →
      (∀ ce ∈ D, Cppdep.repOf ce.1.members ∉ s.digraph.nodes) →
      (∀ k v, Cppdep.assocFind k s.node2cycle = some v → k.isBase = true) →
      (∀ e ∈ s.digraph.edges,
          (e.1.isBase = true ∧ e.2.isBase = true ∧ e ∈ E0) ∨
          ∃ ce ∈ T, e.1 = Cppdep.repOf ce.1.members ∨ e.2 = Cppdep.repOf ce.1.members) →
      T.foldlM Cppdep.decondenseOne s = .ok s1 →
      (∀ e ∈ s1.digraph.edges, e.1.isBase = true ∧ e.2.isBase = true ∧ e ∈ E0) ∧
      (∀ pq ∈ s.digraph.edges, pq.1.isBase = true → pq.2.isBase = true →
          pq ∈ s1.digraph.edges) ∧
      (∀ x ∈ s.digraph.nodes, x.isBase = true → x ∈ s1.digraph.nodes) ∧
      (∀ ce ∈ T, ∀ uv ∈ ce.1.intra, uv ∈ s1.digraph.edges) ∧
      (∀ ce ∈ T, ∀ m ∈ ce.1.members, m.isBase = true → m ∈ s1.digraph.nodes) ∧
      s1.node2cycle = s.node2cycle ∧
      (s.digraph.nodes.Nodup → s1.digraph.nodes.Nodup) ∧
      (∀ x ∈ s1.digraph.nodes, x ∈ s.digraph.nodes ∨ (∃ ce ∈ T, x ∈ ce.1.members) ∨
          ∃ e ∈ E0, x = e.1 ∨ x = e.2) ∧
      (∀ ce ∈ D ++ T, Cppdep.repOf ce.1.members ∉ s1.digraph.nodes) := by
  intro T
  induction T with
  | nil =>
    intro D s s1 hL hdead hdeadN hn2c hedges h
    cases h
    refine ⟨?_, fun pq hpq _ _ => hpq, fun x hx _ => hx,
      fun ce hce => absurd hce (List.not_mem_nil ce),
      fun ce hce => absurd hce (List.not_mem_nil ce), rfl, fun hh => hh,
      fun x hx => Or.inl hx, ?_⟩
    · intro e he
      rcases hedges e he with hb | ⟨ce, hce, _⟩
      · exact hb
      · exact absurd hce (List.not_mem_nil ce)
    · intro ce hce
      rw [List.append_nil] at hce
      exact hdeadN ce hce
  | cons ce T ih =>
    intro D s s1 hL hdead hdeadN hn2c hedges h
    rw [List.foldlM_cons] at h
    cases hone : Cppdep.decondenseOne s ce with
    | error e =>
      rw [hone] at h
      cases h
    | ok s2 =>
      rw [hone] at h
      have hsplit := HL D ce T hL
      have hpre : ∀ pn ∈ ce.2.1, (pn.1.isBase = true ∧ pn ∈ E0) ∨
          (pn.1.isBase = false ∧ Cppdep.NoIncident s.digraph pn.1) := by
        intro pn hpn
        rcases hsplit.1 pn hpn with hb | ⟨ce2, hce2, hr⟩
        · exact Or.inl hb
        · refine Or.inr ⟨by rw [hr]; exact repOf_isBase, ?_⟩
          rw [hr]
          exact hdead ce2 hce2
      have hsuc : ∀ uv ∈ ce.2.2, (uv.2.isBase = true ∧ uv ∈ E0) ∨
          (uv.2.isBase = false ∧ Cppdep.NoIncident s.digraph uv.2) := by
        intro uv huv
        rcases hsplit.2 uv huv with hb | ⟨ce2, hce2, hr⟩
        · exact Or.inl hb
        · refine Or.inr ⟨by rw [hr]; exact repOf_isBase, ?_⟩
          rw [hr]
          exact hdead ce2 hce2
      have hceL : ce ∈ L := by
        rw [hL]
        exact List.mem_append_right _ (List.mem_cons_self _ _)
      obtain ⟨hs2E, hs2pers, hs2nodes, hs2intra, hs2mem, hs2n2c, _, hs2nd, hs2up⟩ :=
        decondenseOne_step hE0 hpre hsuc (HLintra ce hceL) hn2c hone
      have hL' : L = (D ++ [ce]) ++ T := by
        rw [hL]
        simp
      have hdead' : ∀ ce2 ∈ D ++ [ce],
          Cppdep.NoIncident s2.digraph (Cppdep.repOf ce2.1.members) := by
        intro ce2 hce2 e he
        obtain ⟨hein, hne1, hne2⟩ := hs2E e he
        rcases List.mem_append.mp hce2 with hce2 | hce2
        · rcases hein with hein | ⟨_, hb1, hb2⟩
          · exact hdead ce2 hce2 e hein
          · exact ⟨ne_repOf_of_isBase hb1, ne_repOf_of_isBase hb2⟩
        · rw [List.mem_singleton] at hce2
          subst hce2
          exact ⟨hne1, hne2⟩
      have hdeadN' : ∀ ce2 ∈ D ++ [ce],
          Cppdep.repOf ce2.1.members ∉ s2.digraph.nodes := by
        intro ce2 hce2 hmem
        obtain ⟨hin, hne⟩ := hs2up _ hmem
        rcases List.mem_append.mp hce2 with hce2 | hce2
        · rcases hin with hin | hin | ⟨e2, he2, hend⟩
          · exact hdeadN ce2 hce2 hin
          · have hb := HLmem ce hceL _ hin
            rw [repOf_isBase] at hb
            exact Bool.false_ne_true hb
          · rcases hend with hend | hend
            · have hb := (hE0 e2 he2).1
              rw [← hend, repOf_isBase] at hb
              exact Bool.false_ne_true hb
            · have hb := (hE0 e2 he2).2
              rw [← hend, repOf_isBase] at hb
              exact Bool.false_ne_true hb
        · rw [List.mem_singleton] at hce2
          subst hce2
          exact hne rfl
      have hn2c' : ∀ k v, Cppdep.assocFind k s2.node2cycle = some v → k.isBase = true := by
        rw [hs2n2c]
        exact hn2c
      have hedges' : ∀ e ∈ s2.digraph.edges,
          (e.1.isBase = true ∧ e.2.isBase = true ∧ e ∈ E0) ∨
          ∃ ce2 ∈ T, e.1 = Cppdep.repOf ce2.1.members ∨ e.2 = Cppdep.repOf ce2.1.members := by
        intro e he
        obtain ⟨hein, hne1, hne2⟩ := hs2E e he
        rcases hein with hein | ⟨hE, hb1, hb2⟩
        · rcases hedges e hein with hb | ⟨ce2, hce2, hr⟩
          · exact Or.inl hb
          · rcases List.mem_cons.mp hce2 with heq | hce2T
            · subst heq
              rcases hr with hr | hr
              · exact absurd hr hne1
              · exact absurd hr hne2
            · exact Or.inr ⟨ce2, hce2T, hr⟩
        · exact Or.inl ⟨hb1, hb2, hE⟩
      obtain ⟨R1, R2, R3, R4, R5, R6, R7, R8, R9⟩ :=
        ih (D ++ [ce]) s2 s1 hL' hdead' hdeadN' hn2c' hedges' h
      refine ⟨R1, ?_, ?_, ?_, ?_, ?_, ?_, ?_, ?_⟩
      · intro pq hpq hb1 hb2
        exact R2 pq (hs2pers pq hpq hb1 hb2) hb1 hb2
      · intro x hx hb
        exact R3 x (hs2nodes x hx hb) hb
      · intro ce2 hce2 uv huv
        rcases List.mem_cons.mp hce2 with heq | hce2T
        · subst heq
          have hEuv := HLintra ce2 hceL uv huv
          exact R2 uv (hs2intra uv huv) (hE0 uv hEuv).1 (hE0 uv hEuv).2
        · exact R4 ce2 hce2T uv huv
      · intro ce2 hce2 m hm hb
        rcases List.mem_cons.mp hce2 with heq | hce2T
        · subst heq
          exact R3 m (hs2mem m hm hb) hb
        · exact R5 ce2 hce2T m hm hb
      · rw [R6, hs2n2c]
      · intro hnd
        exact R7 (hs2nd hnd)
      · intro x hx
        rcases R8 x hx with hx2 | ⟨ce2, hce2, hxm⟩ | hx2
        · rcases (hs2up x hx2).1 with hx3 | hx3 | hx3
          · exact Or.inl hx3
          · exact Or.inr (Or.inl ⟨ce, List.mem_cons_self _ _, hx3⟩)
          · exact Or.inr (Or.inr hx3)
        · exact Or.inr (Or.inl ⟨ce2, List.mem_cons_of_mem _ hce2, hxm⟩)
        · exact Or.inr (Or.inr hx2)
      · intro ce2 hce2
        refine R9 ce2 ?_
        rw [List.append_assoc, List.singleton_append]
        exact hce2

/-- Decomposition of a successful `analyze` run into its pipeline stages. -/
lemma analyze_ok_pieces {isExt : Nat → Bool} {st st1 : Cppdep.St}
    (h : Cppdep.analyze isExt st = .ok st1) :
    st.digraph.edges.any (fun e => decide (e.1 = e.2)) = false ∧
    ∃ stc, Cppdep.condense st = .ok stc ∧ stc.digraph.isDagB = true ∧
      Cppdep.decondense (Cppdep.calcLevels isExt (Cppdep.calcCcd isExt
        { stc with digraph := Cppdep.transRed stc.digraph })) = .ok st1 := by
  rw [Cppdep.analyze] at h
  by_cases hsl : st.digraph.edges.any (fun e => decide (e.1 = e.2)) = true
  · rw [if_pos hsl] at h
    cases h
  · rw [if_neg hsl] at h
    refine ⟨Bool.eq_false_iff.mpr hsl, ?_⟩
    cases hcond : Cppdep.condense st with
    | error e =>
      rw [hcond] at h
      cases h
    | ok stc =>
      rw [hcond] at h
      have h2 : (if (!stc.digraph.isDagB) = true
          then (Except.error Cppdep.Err.notDag : Except Cppdep.Err Cppdep.St)
          else Cppdep.decondense (Cppdep.calcLevels isExt (Cppdep.calcCcd isExt
            { stc with digraph := Cppdep.transRed stc.digraph }))) = Except.ok st1 := h
      by_cases hdag : (!stc.digraph.isDagB) = true
      · rw [if_pos hdag] at h2
        cases h2
      · rw [if_neg hdag] at h2
        cases hb : stc.digraph.isDagB with
        | true => exact ⟨stc, rfl, hb, h2⟩
        | false => exact absurd (by rw [hb]; rfl) hdag

/-- Intra-cycle edges of a snapshot are edges of the snapshotted digraph. -/
lemma snapshot_intra_sub {st : Cppdep.St} {c : Cppdep.Cycle}
    (hc : c ∈ Cppdep.sccSnapshots st) : ∀ uv ∈ c.intra, uv ∈ st.digraph.edges := by
  rw [Cppdep.sccSnapshots] at hc
  obtain ⟨mems, _, rfl⟩ := List.mem_map.mp hc
  intro uv huv
  exact (List.mem_filter.mp huv).1

/-- Member nodes of a snapshot are base nodes of the snapshotted digraph. -/
lemma snapshot_members_base {st : Cppdep.St}
    (hbase : ∀ n ∈ st.digraph.nodes, n.isBase = true) :
    ∀ c ∈ Cppdep.sccSnapshots st, ∀ m ∈ c.members, m.isBase = true := by
  intro c hc m hm
  rw [Cppdep.sccSnapshots] at hc
  obtain ⟨mems, hmems, rfl⟩ := List.mem_map.mp hc
  obtain ⟨n0, _, rfl⟩ := sccList_mem (List.mem_filter.mp hmems).1
  exact hbase m (mem_sccOf.mp hm).1

/-- What one successful `analyze` run guarantees on a fresh, well-formed,
all-base instance: the final edges are original base-to-base edges with no
self-loop; every pair of distinct mutually reachable nodes survives with its
mutual reachability and is recorded in `node2cycle`; the node list stays
duplicate-free. -/
lemma analyze_ok_facts (isExt : Nat → Bool) (st st1 : Cppdep.St)
    (hwf : Cppdep.Wf st.digraph)
    (hnd : st.digraph.nodes.Nodup)
    (hbase : ∀ n ∈ st.digraph.nodes, n.isBase = true)
    (hcy : st.cycles = [])
    (hn2c : st.node2cycle = [])
    (h1 : Cppdep.analyze isExt st = .ok st1) :
    (∀ e ∈ st1.digraph.edges,
        e.1.isBase = true ∧ e.2.isBase = true ∧ e ∈ st.digraph.edges) ∧
    (∀ a b, a ≠ b → Cppdep.ReachP st.digraph a b → Cppdep.ReachP st.digraph b a →
        a ∈ st1.digraph.nodes ∧ Cppdep.Reach st1.digraph a b ∧
        (Cppdep.assocFind a st1.node2cycle).isSome = true) ∧
    st1.digraph.nodes.Nodup ∧
    (∀ e ∈ st1.digraph.edges, e.1 ≠ e.2) := by
  obtain ⟨hsl, stc, hcond, hdag, hdec⟩ := analyze_ok_pieces h1
  have hE0b : ∀ e ∈ st.digraph.edges, e.1.isBase = true ∧ e.2.isBase = true :=
    fun e he => ⟨hbase _ (hwf e he).1, hbase _ (hwf e he).2⟩
  have hsnapbase := snapshot_members_base hbase
  have hinit : Cppdep.CondInv st.digraph.edges (Cppdep.sccSnapshots st) st := by
    refine ⟨?_, ?_, ?_, ?_, ?_, hnd⟩
    · intro e he
      exact Or.inl ⟨(hE0b e he).1, (hE0b e he).2, he⟩
    · intro k v hk
      rw [hn2c] at hk
      cases hk
    · intro ce hce
      rw [hcy] at hce
      exact absurd hce (List.not_mem_nil ce)
    · intro ce hce
      rw [hcy] at hce
      exact absurd hce (List.not_mem_nil ce)
    · intro D ce T hsp
      rw [hcy] at hsp
      simp at hsp
  obtain ⟨C1, C2, C3, C4, C5, C6⟩ := condense_CondInv hcond hsnapbase hinit
  have hcov := condense_covers hcond
  have hfold : stc.cycles.foldlM Cppdep.decondenseOne (Cppdep.calcLevels isExt (Cppdep.calcCcd isExt { stc with digraph := Cppdep.transRed stc.digraph })) = .ok st1 := hdec
  have hn2cstd : ∀ k v, Cppdep.assocFind k (Cppdep.calcLevels isExt (Cppdep.calcCcd isExt { stc with digraph := Cppdep.transRed stc.digraph })).node2cycle = some v → k.isBase = true := C2
  have hedges0 : ∀ e ∈ (Cppdep.calcLevels isExt (Cppdep.calcCcd isExt { stc with digraph := Cppdep.transRed stc.digraph })).digraph.edges,
      (e.1.isBase = true ∧ e.2.isBase = true ∧ e ∈ st.digraph.edges) ∨
      ∃ ce ∈ stc.cycles, e.1 = Cppdep.repOf ce.1.members ∨ e.2 = Cppdep.repOf ce.1.members := by
    intro e he
    have he2 : e ∈ (Cppdep.transRed stc.digraph).edges := he
    rw [Cppdep.transRed] at he2
    exact C1 e (foldl_reduceStep_subset _ _ e he2)
  have HLintra : ∀ ce ∈ stc.cycles, ∀ uv ∈ ce.1.intra, uv ∈ st.digraph.edges :=
    fun ce hce => snapshot_intra_sub (C4 ce hce)
  have HLmem : ∀ ce ∈ stc.cycles, ∀ m ∈ ce.1.members, m.isBase = true :=
    fun ce hce => snapshot_members_base hbase ce.1 (C4 ce hce)
  obtain ⟨F1, F2, F3, F4, F5, F6, F7, F8, F9⟩ :=
    decondense_go hE0b C5 HLintra HLmem stc.cycles [] (Cppdep.calcLevels isExt (Cppdep.calcCcd isExt { stc with digraph := Cppdep.transRed stc.digraph })) st1 rfl
      (fun ce hce => absurd hce (List.not_mem_nil ce))
      (fun ce hce => absurd hce (List.not_mem_nil ce)) hn2cstd hedges0 hfold
  have hn2cEq : st1.node2cycle = stc.node2cycle := F6
  have hstdnd : (Cppdep.calcLevels isExt (Cppdep.calcCcd isExt { stc with digraph := Cppdep.transRed stc.digraph })).digraph.nodes.Nodup := by
    show (Cppdep.transRed stc.digraph).nodes.Nodup
    rw [Cppdep.transRed, foldl_reduceStep_nodes]
    exact C6
  have hnosl : ∀ e ∈ st.digraph.edges, e.1 ≠ e.2 := by
    intro e he heq
    have hany : st.digraph.edges.any (fun e => decide (e.1 = e.2)) = true :=
      List.any_eq_true.mpr ⟨e, he, decide_eq_true heq⟩
    rw [hsl] at hany
    exact Bool.false_ne_true hany
  refine ⟨F1, ?_, F7 hstdnd, fun e he => hnosl e (F1 e he).2.2⟩
  intro a b hne hab hba
  have haN : a ∈ st.digraph.nodes := by
    obtain ⟨c, hedge, _⟩ := Relation.TransGen.head'_iff.mp hab
    exact (hwf _ hedge).1
  have hbN : b ∈ st.digraph.nodes := by
    obtain ⟨c, hedge, _⟩ := Relation.TransGen.head'_iff.mp hba
    exact (hwf _ hedge).1
  obtain ⟨csl, hcsl, hacsl⟩ := sccList_covers haN
  obtain ⟨n0, hn0N, rfl⟩ := sccList_mem hcsl
  have hreach_ab : Cppdep.Reach st.digraph a b := hab.to_reflTransGen
  have hreach_ba : Cppdep.Reach st.digraph b a := hba.to_reflTransGen
  obtain ⟨_, hn0a, han0⟩ := mem_sccOf.mp hacsl
  have hbcsl : b ∈ st.digraph.sccOf n0 :=
    mem_sccOf.mpr ⟨hbN, hn0a.trans hreach_ab, hreach_ba.trans han0⟩
  have h2le : 2 ≤ (st.digraph.sccOf n0).length := two_mem_length hacsl hbcsl hne
  have hsnap : ({ members := st.digraph.sccOf n0, intra := st.digraph.edges.filter (fun e => decide (e.1 ∈ st.digraph.sccOf n0) && decide (e.2 ∈ st.digraph.sccOf n0)) } : Cppdep.Cycle) ∈ Cppdep.sccSnapshots st := by
    rw [Cppdep.sccSnapshots]
    exact List.mem_map.mpr ⟨st.digraph.sccOf n0,
      List.mem_filter.mpr ⟨hcsl, decide_eq_true h2le⟩, rfl⟩
  obtain ⟨pre0, suc0, hentry⟩ := hcov _ hsnap
  have hsome : (Cppdep.assocFind a stc.node2cycle).isSome = true := C3 _ hentry a hacsl
  have hpath := scc_path_intra hwf hacsl hbcsl hreach_ab
  have hintra_sub : ∀ uv ∈ ({ members := st.digraph.sccOf n0, intra := st.digraph.edges.filter (fun e => decide (e.1 ∈ st.digraph.sccOf n0) && decide (e.2 ∈ st.digraph.sccOf n0)) } : Cppdep.Cycle).intra, uv ∈ st1.digraph.edges := F4 _ hentry
  have hra : Cppdep.Reach st1.digraph a b :=
    reach_mono (fun e he => hintra_sub e he) hpath
  refine ⟨F5 _ hentry a hacsl (hbase a haN), hra, ?_⟩
  rw [hn2cEq]
  exact hsome

/-- `__condensation` hits the `node not in self.node2cycle` assertion as soon
as the first member of the first snapshot is already recorded. -/
lemma condense_err_of_snapshot {st : Cppdep.St} {c : Cppdep.Cycle} {cs : List Cppdep.Cycle}
    {m : Cppdep.GNode} {rest : List Cppdep.GNode}
    (hsnap : Cppdep.sccSnapshots st = c :: cs) (hmem : c.members = m :: rest)
    (hfound : (Cppdep.assocFind m st.node2cycle).isSome = true) :
    Cppdep.condense st = .error .nodeInCycleMap := by
  rw [Cppdep.condense, hsnap, List.foldlM_cons]
  have hone : Cppdep.condenseOne st c = .error .nodeInCycleMap := by
    rw [Cppdep.condenseOne, hmem, condenseMembers_cons, if_pos hfound]
  rw [hone]
  rfl

/-- On a cyclic instance, a second `analyze` call on the state left by a
successful first call fails the `node not in self.node2cycle` assertion
inside `__condensation`. -/
lemma analyze_second_run {isExt : Nat → Bool} {st st1 : Cppdep.St}
    (hwf : Cppdep.Wf st.digraph) (hnd : st.digraph.nodes.Nodup)
    (hbase : ∀ n ∈ st.digraph.nodes, n.isBase = true)
    (hcy : st.cycles = []) (hn2c : st.node2cycle = [])
    (h1 : Cppdep.analyze isExt st = .ok st1)
    (hcyc : ¬ Cppdep.Acyclic st.digraph) :
    Cppdep.analyze isExt st1 = .error .nodeInCycleMap := by
  obtain ⟨G1, G2, G3, G4⟩ := analyze_ok_facts isExt st st1 hwf hnd hbase hcy hn2c h1
  have hsl := (analyze_ok_pieces h1).1
  have hnosl : ∀ e ∈ st.digraph.edges, e.1 ≠ e.2 := by
    intro e he heq
    have hany : st.digraph.edges.any (fun e => decide (e.1 = e.2)) = true :=
      List.any_eq_true.mpr ⟨e, he, decide_eq_true heq⟩
    rw [hsl] at hany
    exact Bool.false_ne_true hany
  rw [Cppdep.Acyclic] at hcyc
  push_neg at hcyc
  obtain ⟨n, hn⟩ := hcyc
  obtain ⟨x, hedge, hxn⟩ := Relation.TransGen.head'_iff.mp hn
  have hnx : n ≠ x := hnosl (n, x) hedge
  have hPnx : Cppdep.ReachP st.digraph n x := Relation.TransGen.single hedge
  have hPxn : Cppdep.ReachP st.digraph x n := reachP_of_reach_ne hxn hnx
  obtain ⟨hnN1, hr_nx, _⟩ := G2 n x hnx hPnx hPxn
  obtain ⟨hxN1, hr_xn, _⟩ := G2 x n (Ne.symm hnx) hPxn hPnx
  have hsl1 : (st1.digraph.edges.any (fun e => decide (e.1 = e.2))) = false := by
    rw [Bool.eq_false_iff]
    intro hany
    obtain ⟨e, he, heq⟩ := List.any_eq_true.mp hany
    rw [decide_eq_true_eq] at heq
    exact G4 e he heq
  obtain ⟨csl, hcsl, hncsl⟩ := sccList_covers hnN1
  obtain ⟨nw, hnwN, rfl⟩ := sccList_mem hcsl
  obtain ⟨_, hnwn, hnnw⟩ := mem_sccOf.mp hncsl
  have hxcsl : x ∈ st1.digraph.sccOf nw :=
    mem_sccOf.mpr ⟨hxN1, hnwn.trans hr_nx, hr_xn.trans hnnw⟩
  have h2lew : 2 ≤ (st1.digraph.sccOf nw).length := two_mem_length hncsl hxcsl hnx
  have hsnapmem : ({ members := st1.digraph.sccOf nw, intra := st1.digraph.edges.filter (fun e => decide (e.1 ∈ st1.digraph.sccOf nw) && decide (e.2 ∈ st1.digraph.sccOf nw)) } : Cppdep.Cycle) ∈ Cppdep.sccSnapshots st1 := by
    rw [Cppdep.sccSnapshots]
    exact List.mem_map.mpr ⟨st1.digraph.sccOf nw,
      List.mem_filter.mpr ⟨hcsl, decide_eq_true h2lew⟩, rfl⟩
  cases hsnap : Cppdep.sccSnapshots st1 with
  | nil =>
    rw [hsnap] at hsnapmem
    exact absurd hsnapmem (List.not_mem_nil _)
  | cons c0 cs =>
    have hc0 : c0 ∈ Cppdep.sccSnapshots st1 := by
      rw [hsnap]
      exact List.mem_cons_self _ _
    have hstruct : ∃ mems, mems ∈ st1.digraph.sccList ∧ 2 ≤ mems.length ∧
        c0.members = mems := by
      rw [Cppdep.sccSnapshots] at hc0
      obtain ⟨mems, hmems, rfl⟩ := List.mem_map.mp hc0
      have h2 := List.mem_filter.mp hmems
      refine ⟨mems, h2.1, ?_, rfl⟩
      have h3 := h2.2
      rwa [decide_eq_true_eq] at h3
    obtain ⟨mems, hmemsL, h2le0, hc0m⟩ := hstruct
    obtain ⟨n1, hn1N, hscc⟩ := sccList_mem hmemsL
    have hmnd : mems.Nodup := by
      rw [hscc]
      exact G3.filter _
    cases hmm : mems with
    | nil =>
      rw [hmm] at h2le0
      simp at h2le0
    | cons m0 r0 =>
      cases hr0 : r0 with
      | nil =>
        rw [hmm, hr0] at h2le0
        simp at h2le0
      | cons m1 r1 =>
        have hm0m : m0 ∈ mems := by
          rw [hmm]
          exact List.mem_cons_self _ _
        have hm1m : m1 ∈ mems := by
          rw [hmm, hr0]
          exact List.mem_cons_of_mem _ (List.mem_cons_self _ _)
        have hne01 : m0 ≠ m1 := by
          rw [hmm, hr0, List.nodup_cons] at hmnd
          exact fun heq => hmnd.1 (by rw [heq]; exact List.mem_cons_self m1 r1)
        have hm0scc : m0 ∈ st1.digraph.sccOf n1 := by
          rw [← hscc]
          exact hm0m
        have hm1scc : m1 ∈ st1.digraph.sccOf n1 := by
          rw [← hscc]
          exact hm1m
        obtain ⟨hm0N, hn1m0, hm0n1⟩ := mem_sccOf.mp hm0scc
        obtain ⟨hm1N, hn1m1, hm1n1⟩ := mem_sccOf.mp hm1scc
        have hr01 : Cppdep.Reach st1.digraph m0 m1 := hm0n1.trans hn1m1
        have hr10 : Cppdep.Reach st1.digraph m1 m0 := hm1n1.trans hn1m0
        have hsub : ∀ e, e ∈ st1.digraph.edges → e ∈ st.digraph.edges :=
          fun e he => (G1 e he).2.2
        have hP01 : Cppdep.ReachP st.digraph m0 m1 :=
          reachP_of_reach_ne (reach_mono hsub hr01) (Ne.symm hne01)
        have hP10 : Cppdep.ReachP st.digraph m1 m0 :=
          reachP_of_reach_ne (reach_mono hsub hr10) hne01
        obtain ⟨_, _, hfound⟩ := G2 m0 m1 hne01 hP01 hP10
        have hcm : c0.members = m0 :: (m1 :: r1) := by
          rw [hc0m, hmm, hr0]
        have hcond := condense_err_of_snapshot hsnap hcm hfound
        rw [Cppdep.analyze, hsl1, if_neg Bool.false_ne_true, hcond]

/-- Membership in the edge list after one member step of `__condensation`,
given that the processed member belongs to the member set. -/
lemma mem_condStepSt_edges_iff {rep : Cppdep.GNode} {members : List Cppdep.GNode}
    {st : Cppdep.St} {n : Cppdep.GNode} (hn : n ∈ members)
    (e : Cppdep.GNode × Cppdep.GNode) :
    e ∈ (Cppdep.condStepSt rep members st n).digraph.edges ↔
      ((e ∈ st.digraph.edges ∨
        (∃ p, (p, n) ∈ st.digraph.edges ∧ p ∉ members ∧ e = (p, rep)) ∨
        (∃ q, (n, q) ∈ st.digraph.edges ∧ q ∉ members ∧ e = (rep, q))) ∧
       e.1 ≠ n ∧ e.2 ≠ n) := by
  have hstep : e ∈ (Cppdep.condStepSt rep members st n).digraph.edges ↔
      e ∈ ((Cppdep.condStepDg3 rep members st n).removeNode n).edges := Iff.rfl
  rw [hstep, mem_removeNode_edges]
  have hdg3 : e ∈ (Cppdep.condStepDg3 rep members st n).edges ↔
      (e ∈ st.digraph.edges ∨
       (∃ p, (p, n) ∈ st.digraph.edges ∧ p ∉ members ∧ e = (p, rep)) ∨
       (∃ q, (n, q) ∈ st.digraph.edges ∧ q ∉ members ∧ e = (rep, q))) := by
    rw [Cppdep.condStepDg3, foldl_addEdge_fst]
    constructor
    · rintro (h | ⟨q, hq, rfl⟩)
      · rw [Cppdep.condStepDg2, foldl_addEdge_snd] at h
        rcases h with h | ⟨p, hp, rfl⟩
        · exact Or.inl h
        · rw [Cppdep.condStepPs, List.mem_filter, decide_eq_true_eq] at hp
          exact Or.inr (Or.inl ⟨p, mem_preds.mp hp.1, hp.2, rfl⟩)
      · rw [Cppdep.condStepSs, List.mem_filter, decide_eq_true_eq] at hq
        have hq1 := mem_succs.mp hq.1
        rw [Cppdep.condStepDg2, foldl_addEdge_snd] at hq1
        rcases hq1 with hq1 | ⟨p, hp, hpq⟩
        · exact Or.inr (Or.inr ⟨q, hq1, hq.2, rfl⟩)
        · rw [Cppdep.condStepPs, List.mem_filter, decide_eq_true_eq] at hp
          have hnp : n = p := (Prod.mk.injEq .. ▸ hpq).1
          exact absurd (hnp ▸ hn) hp.2
    · rintro (h | ⟨p, hp, hpm, rfl⟩ | ⟨q, hq, hqm, rfl⟩)
      · rw [Cppdep.condStepDg2, foldl_addEdge_snd]
        exact Or.inl (Or.inl h)
      · rw [Cppdep.condStepDg2, foldl_addEdge_snd]
        refine Or.inl (Or.inr ⟨p, ?_, rfl⟩)
        rw [Cppdep.condStepPs, List.mem_filter, decide_eq_true_eq]
        exact ⟨mem_preds.mpr hp, hpm⟩
      · refine Or.inr ⟨q, ?_, rfl⟩
        rw [Cppdep.condStepSs, List.mem_filter, decide_eq_true_eq]
        refine ⟨?_, hqm⟩
        refine mem_succs.mpr ?_
        rw [Cppdep.condStepDg2, foldl_addEdge_snd]
        exact Or.inl hq
  rw [hdg3]

/-- Exact membership of the edge list after the member loop of
`__condensation`: untouched edges, or boundary edges rerouted through the
representative. -/
lemma condenseMembers_edges_iff {rep : Cppdep.GNode} {members : List Cppdep.GNode} :
    ∀ (l : List Cppdep.GNode) (st : Cppdep.St) (pre suc : List (Cppdep.GNode × Cppdep.GNode))
      (st1 : Cppdep.St) (p1 s1 : List (Cppdep.GNode × Cppdep.GNode)),
      (∀ x ∈ l, x ∈ members) →
      (∀ m ∈ members, m.isBase = true) →
      rep.isBase = false →
      l.Nodup →
      Cppdep.condenseMembers rep members st pre suc l = .ok (st1, p1, s1) →
      ∀ e, e ∈ st1.digraph.edges ↔
        ((e ∈ st.digraph.edges ∧ e.1 ∉ l ∧ e.2 ∉ l) ∨
         (∃ u v, (u, v) ∈ st.digraph.edges ∧ u ∈ l ∧ v ∉ members ∧ e = (rep, v)) ∨
         (∃ u v, (u, v) ∈ st.digraph.edges ∧ v ∈ l ∧ u ∉ members ∧ e = (u, rep))) := by
  intro l
  induction l with
  | nil =>
    intro st pre suc st1 p1 s1 _ _ _ _ h e
    cases h
    constructor
    · intro he
      exact Or.inl ⟨he, List.not_mem_nil _, List.not_mem_nil _⟩
    · rintro (⟨he, _, _⟩ | ⟨u, v, _, hu, _, _⟩ | ⟨u, v, _, hv, _, _⟩)
      · exact he
      · exact absurd hu (List.not_mem_nil u)
      · exact absurd hv (List.not_mem_nil v)
  | cons n l ih =>
    intro st pre suc st1 p1 s1 hl hmb hrep hnd h e
    rw [condenseMembers_cons] at h
    by_cases h1 : (Cppdep.assocFind n st.node2cycle).isSome = true
    · rw [if_pos h1] at h
      cases h
    · rw [if_neg h1] at h
      by_cases h2 : n ∉ st.digraph.nodes
      · rw [if_pos h2] at h
        cases h
      · rw [if_neg h2] at h
        have hnm : n ∈ members := hl n (List.mem_cons_self n l)
        have hl' : ∀ x ∈ l, x ∈ members := fun x hx => hl x (List.mem_cons_of_mem n hx)
        rw [List.nodup_cons] at hnd
        have hrepnotmem : rep ∉ members := fun hc => by
          have := hmb rep hc
          rw [hrep] at this
          exact Bool.false_ne_true this
        have hih := ih _ _ _ _ _ _ hl' hmb hrep hnd.2 h
        rw [hih e]
        constructor
        · rintro (⟨he, he1, he2⟩ | ⟨u, v, huv, hu, hv, rfl⟩ | ⟨u, v, huv, hv, hu, rfl⟩)
          · rw [mem_condStepSt_edges_iff hnm] at he
            obtain ⟨hx, hne1, hne2⟩ := he
            rcases hx with hx | ⟨p, hp, hpm, rfl⟩ | ⟨q, hq, hqm, rfl⟩
            · refine Or.inl ⟨hx, ?_, ?_⟩
              · rw [List.mem_cons]
                rintro (hc | hc)
                · exact hne1 hc
                · exact he1 hc
              · rw [List.mem_cons]
                rintro (hc | hc)
                · exact hne2 hc
                · exact he2 hc
            · exact Or.inr (Or.inr ⟨p, n, hp, List.mem_cons_self n l, hpm, rfl⟩)
            · exact Or.inr (Or.inl ⟨n, q, hq, List.mem_cons_self n l, hqm, rfl⟩)
          · rw [mem_condStepSt_edges_iff hnm] at huv
            obtain ⟨hx, hne1, hne2⟩ := huv
            rcases hx with hx | ⟨p, hp, hpm, hpe⟩ | ⟨q, hq, hqm, hqe⟩
            · exact Or.inr (Or.inl ⟨u, v, hx, List.mem_cons_of_mem n hu, hv, rfl⟩)
            · have hvp : v = rep := (Prod.mk.injEq .. ▸ hpe).2
              have hup : u = p := (Prod.mk.injEq .. ▸ hpe).1
              exact absurd (hup ▸ hu) (by intro hc; exact hpm (hl' _ hc))
            · have huq : u = rep := (Prod.mk.injEq .. ▸ hqe).1
              exact absurd (huq ▸ hl' u hu) (huq ▸ hrepnotmem)
          · rw [mem_condStepSt_edges_iff hnm] at huv
            obtain ⟨hx, hne1, hne2⟩ := huv
            rcases hx with hx | ⟨p, hp, hpm, hpe⟩ | ⟨q, hq, hqm, hqe⟩
            · exact Or.inr (Or.inr ⟨u, v, hx, List.mem_cons_of_mem n hv, hu, rfl⟩)
            · have hvp : v = rep := (Prod.mk.injEq .. ▸ hpe).2
              exact absurd (hvp ▸ hl' v hv) (hvp ▸ hrepnotmem)
            · have hvq : v = q := (Prod.mk.injEq .. ▸ hqe).2
              exact absurd (hvq ▸ hl' v hv) (hvq ▸ hqm)
        · rintro (⟨he, he1, he2⟩ | ⟨u, v, huv, hu, hv, rfl⟩ | ⟨u, v, huv, hv, hu, rfl⟩)
          · refine Or.inl ⟨?_, fun hc => he1 (List.mem_cons_of_mem n hc),
              fun hc => he2 (List.mem_cons_of_mem n hc)⟩
            rw [mem_condStepSt_edges_iff hnm]
            exact ⟨Or.inl he, fun hc => he1 (hc ▸ List.mem_cons_self n l),
              fun hc => he2 (hc ▸ List.mem_cons_self n l)⟩
          · rcases List.mem_cons.mp hu with rfl | hul
            · refine Or.inl ⟨?_, ?_, fun hc => hv (hl' _ hc)⟩
              · rw [mem_condStepSt_edges_iff hnm]
                refine ⟨Or.inr (Or.inr ⟨v, huv, hv, rfl⟩), ?_, ?_⟩
                · show rep ≠ u
                  intro hc
                  rw [← hc] at hnm
                  exact hrepnotmem hnm
                · show v ≠ u
                  intro hc
                  rw [← hc] at hnm
                  exact hv hnm
              · show rep ∉ l
                intro hc
                exact hrepnotmem (hl' _ hc)
            · refine Or.inr (Or.inl ⟨u, v, ?_, hul, hv, rfl⟩)
              rw [mem_condStepSt_edges_iff hnm]
              refine ⟨Or.inl huv, ?_, ?_⟩
              · show u ≠ n
                intro hc
                exact hnd.1 (hc ▸ hul)
              · show v ≠ n
                intro hc
                exact hv (hc ▸ hnm)
          · rcases List.mem_cons.mp hv with rfl | hvl
            · refine Or.inl ⟨?_, fun hc => hu (hl' _ hc), ?_⟩
              · rw [mem_condStepSt_edges_iff hnm]
                refine ⟨Or.inr (Or.inl ⟨u, huv, hu, rfl⟩), ?_, ?_⟩
                · show u ≠ v
                  intro hc
                  rw [← hc] at hnm
                  exact hu hnm
                · show rep ≠ v
                  intro hc
                  rw [← hc] at hnm
                  exact hrepnotmem hnm
              · show rep ∉ l
                intro hc
                exact hrepnotmem (hl' _ hc)
            · refine Or.inr (Or.inr ⟨u, v, ?_, hvl, hu, rfl⟩)
              rw [mem_condStepSt_edges_iff hnm]
              refine ⟨Or.inl huv, ?_, ?_⟩
              · show u ≠ n
                intro hc
                exact hu (hc ▸ hnm)
              · show v ≠ n
                intro hc
                exact hnd.1 (hc ▸ hvl)

/-- A fold preserves any per-step-preserved digraph property. -/
lemma foldl_pres {α : Type} (f : Cppdep.DG → α → Cppdep.DG) (P : Cppdep.DG → Prop)
    (hf : ∀ g a, P g → P (f g a)) :
    ∀ (l : List α) (g : Cppdep.DG), P g → P (l.foldl f g) := by
  intro l
  induction l with
  | nil => exact fun g hg => hg
  | cons a l ih =>
    intro g hg
    rw [List.foldl_cons]
    exact ih _ (hf g a hg)

/-- `add_edge` keeps the digraph well-formed. -/
lemma addEdge_wf {g : Cppdep.DG} {u v : Cppdep.GNode} (h : Cppdep.Wf g) :
    Cppdep.Wf (g.addEdge u v) := by
  intro e he
  rcases mem_addEdge.mp he with he2 | rfl
  · exact ⟨mem_addEdge_nodes.mpr (Or.inl (h e he2).1),
      mem_addEdge_nodes.mpr (Or.inl (h e he2).2)⟩
  · exact ⟨mem_addEdge_nodes.mpr (Or.inr (Or.inl rfl)),
      mem_addEdge_nodes.mpr (Or.inr (Or.inr rfl))⟩

/-- `remove_node` keeps the digraph well-formed. -/
lemma removeNode_wf {g : Cppdep.DG} {v : Cppdep.GNode} (h : Cppdep.Wf g) :
    Cppdep.Wf (g.removeNode v) := by
  intro e he
  obtain ⟨he2, hne1, hne2⟩ := mem_removeNode_edges.mp he
  exact ⟨mem_removeNode_nodes.mpr ⟨(h e he2).1, hne1⟩,
    mem_removeNode_nodes.mpr ⟨(h e he2).2, hne2⟩⟩

/-- One member step of `__condensation` keeps the digraph well-formed. -/
lemma condStepSt_wf {rep : Cppdep.GNode} {members : List Cppdep.GNode}
    {st : Cppdep.St} {n : Cppdep.GNode} (h : Cppdep.Wf st.digraph) :
    Cppdep.Wf (Cppdep.condStepSt rep members st n).digraph := by
  show Cppdep.Wf ((Cppdep.condStepDg3 rep members st n).removeNode n)
  apply removeNode_wf
  rw [Cppdep.condStepDg3]
  apply foldl_pres _ Cppdep.Wf (fun g a hg => addEdge_wf hg)
  rw [Cppdep.condStepDg2]
  exact foldl_pres _ Cppdep.Wf (fun g a hg => addEdge_wf hg) _ _ h

/-- Node membership after a fold adding edges from a fixed source. -/
lemma foldl_addEdge_fst_nodes {r : Cppdep.GNode} :
    ∀ (l : List Cppdep.GNode) (g : Cppdep.DG) (x : Cppdep.GNode),
      x ∈ (l.foldl (fun g s => g.addEdge r s) g).nodes ↔
        x ∈ g.nodes ∨ (l ≠ [] ∧ x = r) ∨ x ∈ l := by
  intro l
  induction l with
  | nil => simp
  | cons a l ih =>
    intro g x
    rw [List.foldl_cons, ih, mem_addEdge_nodes]
    constructor
    · rintro ((hx | rfl | rfl) | ⟨_, rfl⟩ | hx)
      · exact Or.inl hx
      · exact Or.inr (Or.inl ⟨List.cons_ne_nil _ _, rfl⟩)
      · exact Or.inr (Or.inr (List.mem_cons_self _ _))
      · exact Or.inr (Or.inl ⟨List.cons_ne_nil _ _, rfl⟩)
      · exact Or.inr (Or.inr (List.mem_cons_of_mem _ hx))
    · rintro (hx | ⟨_, rfl⟩ | hx)
      · exact Or.inl (Or.inl hx)
      · exact Or.inl (Or.inr (Or.inl rfl))
      · rcases List.mem_cons.mp hx with rfl | hx2
        · exact Or.inl (Or.inr (Or.inr rfl))
        · exact Or.inr (Or.inr hx2)

/-- Node membership after a fold adding edges into a fixed target. -/
lemma foldl_addEdge_snd_nodes {r : Cppdep.GNode} :
    ∀ (l : List Cppdep.GNode) (g : Cppdep.DG) (x : Cppdep.GNode),
      x ∈ (l.foldl (fun g p => g.addEdge p r) g).nodes ↔
        x ∈ g.nodes ∨ (l ≠ [] ∧ x = r) ∨ x ∈ l := by
  intro l
  induction l with
  | nil => simp
  | cons a l ih =>
    intro g x
    rw [List.foldl_cons, ih, mem_addEdge_nodes]
    constructor
    · rintro ((hx | rfl | rfl) | ⟨_, rfl⟩ | hx)
      · exact Or.inl hx
      · exact Or.inr (Or.inr (List.mem_cons_self _ _))
      · exact Or.inr (Or.inl ⟨List.cons_ne_nil _ _, rfl⟩)
      · exact Or.inr (Or.inl ⟨List.cons_ne_nil _ _, rfl⟩)
      · exact Or.inr (Or.inr (List.mem_cons_of_mem _ hx))
    · rintro (hx | ⟨_, rfl⟩ | hx)
      · exact Or.inl (Or.inl hx)
      · exact Or.inl (Or.inr (Or.inr rfl))
      · rcases List.mem_cons.mp hx with rfl | hx2
        · exact Or.inl (Or.inr (Or.inl rfl))
        · exact Or.inr (Or.inr hx2)

/-- Node membership after one member step of `__condensation` on a
well-formed digraph: old nodes survive except the member, and the
representative appears exactly when the member has a boundary edge. -/
lemma mem_condStepSt_nodes_iff {rep : Cppdep.GNode} {members : List Cppdep.GNode}
    {st : Cppdep.St} {n : Cppdep.GNode} (hwf : Cppdep.Wf st.digraph) (hn : n ∈ members)
    (x : Cppdep.GNode) :
    x ∈ (Cppdep.condStepSt rep members st n).digraph.nodes ↔
      ((x ∈ st.digraph.nodes ∨
        (x = rep ∧ ∃ y, ((y, n) ∈ st.digraph.edges ∧ y ∉ members) ∨
                        ((n, y) ∈ st.digraph.edges ∧ y ∉ members))) ∧ x ≠ n) := by
  have hstep : x ∈ (Cppdep.condStepSt rep members st n).digraph.nodes ↔
      x ∈ ((Cppdep.condStepDg3 rep members st n).removeNode n).nodes := Iff.rfl
  rw [hstep, mem_removeNode_nodes]
  have hps : ∀ p, p ∈ Cppdep.condStepPs members st n ↔
      (p, n) ∈ st.digraph.edges ∧ p ∉ members := by
    intro p
    rw [Cppdep.condStepPs, List.mem_filter, decide_eq_true_eq, mem_preds]
  have hss : ∀ q, q ∈ Cppdep.condStepSs rep members st n ↔
      (n, q) ∈ st.digraph.edges ∧ q ∉ members := by
    intro q
    rw [Cppdep.condStepSs, List.mem_filter, decide_eq_true_eq, mem_succs]
    constructor
    · rintro ⟨hq1, hq2⟩
      rw [Cppdep.condStepDg2, foldl_addEdge_snd] at hq1
      rcases hq1 with hq1 | ⟨p, hp, hpq⟩
      · exact ⟨hq1, hq2⟩
      · rw [Cppdep.condStepPs, List.mem_filter, decide_eq_true_eq] at hp
        have hnp : n = p := (Prod.mk.injEq .. ▸ hpq).1
        exact absurd (hnp ▸ hn) hp.2
    · rintro ⟨hq1, hq2⟩
      refine ⟨?_, hq2⟩
      rw [Cppdep.condStepDg2, foldl_addEdge_snd]
      exact Or.inl hq1
  have hdg2wf : Cppdep.Wf (Cppdep.condStepDg2 rep members st n) := by
    rw [Cppdep.condStepDg2]
    exact foldl_pres _ Cppdep.Wf (fun g a hg => addEdge_wf hg) _ _ hwf
  have hdg2 : ∀ y, y ∈ (Cppdep.condStepDg2 rep members st n).nodes ↔
      y ∈ st.digraph.nodes ∨ (Cppdep.condStepPs members st n ≠ [] ∧ y = rep) := by
    intro y
    rw [Cppdep.condStepDg2, foldl_addEdge_snd_nodes]
    constructor
    · rintro (hy | hy | hy)
      · exact Or.inl hy
      · exact Or.inr hy
      · rw [hps] at hy
        exact Or.inl (hwf _ hy.1).1
    · rintro (hy | hy)
      · exact Or.inl hy
      · exact Or.inr (Or.inl hy)
  have hdg3 : ∀ y, y ∈ (Cppdep.condStepDg3 rep members st n).nodes ↔
      y ∈ st.digraph.nodes ∨
      ((Cppdep.condStepPs members st n ≠ [] ∨ Cppdep.condStepSs rep members st n ≠ []) ∧
        y = rep) := by
    intro y
    rw [Cppdep.condStepDg3, foldl_addEdge_fst_nodes]
    constructor
    · rintro (hy | hy | hy)
      · rcases (hdg2 y).mp hy with hy2 | hy2
        · exact Or.inl hy2
        · exact Or.inr ⟨Or.inl hy2.1, hy2.2⟩
      · exact Or.inr ⟨Or.inr hy.1, hy.2⟩
      · rw [hss] at hy
        exact Or.inl (hwf _ hy.1).2
    · rintro (hy | ⟨hcase, rfl⟩)
      · exact Or.inl ((hdg2 y).mpr (Or.inl hy))
      · rcases hcase with hcase | hcase
        · exact Or.inl ((hdg2 _).mpr (Or.inr ⟨hcase, rfl⟩))
        · exact Or.inr (Or.inl ⟨hcase, rfl⟩)
  rw [hdg3]
  have hne : ∀ (l : List Cppdep.GNode) (P : Cppdep.GNode → Prop),
      (∀ y, y ∈ l ↔ P y) → (l ≠ [] ↔ ∃ y, P y) := by
    intro l P hmem
    constructor
    · intro hl
      cases l with
      | nil => exact absurd rfl hl
      | cons a t => exact ⟨a, (hmem a).mp (List.mem_cons_self a t)⟩
    · rintro ⟨y, hy⟩ hl
      rw [hl] at hmem
      exact absurd ((hmem y).mpr hy) (List.not_mem_nil y)
  have hpsne := hne _ _ hps
  have hssne := hne _ _ hss
  constructor
  · rintro ⟨hy | ⟨hcase, rfl⟩, hney⟩
    · exact ⟨Or.inl hy, hney⟩
    · refine ⟨Or.inr ⟨rfl, ?_⟩, hney⟩
      rcases hcase with hcase | hcase
      · obtain ⟨y, hy⟩ := hpsne.mp hcase
        exact ⟨y, Or.inl hy⟩
      · obtain ⟨y, hy⟩ := hssne.mp hcase
        exact ⟨y, Or.inr hy⟩
  · rintro ⟨hy | ⟨rfl, y, hy | hy⟩, hney⟩
    · exact ⟨Or.inl hy, hney⟩
    · exact ⟨Or.inr ⟨Or.inl (hpsne.mpr ⟨y, hy⟩), rfl⟩, hney⟩
    · exact ⟨Or.inr ⟨Or.inr (hssne.mpr ⟨y, hy⟩), rfl⟩, hney⟩

/-- Exact node membership after the member loop of `__condensation`: old
nodes survive except the members; the representative appears exactly when
some member has a boundary edge. -/
lemma condenseMembers_nodes_iff {rep : Cppdep.GNode} {members : List Cppdep.GNode} :
    ∀ (l : List Cppdep.GNode) (st : Cppdep.St) (pre suc : List (Cppdep.GNode × Cppdep.GNode))
      (st1 : Cppdep.St) (p1 s1 : List (Cppdep.GNode × Cppdep.GNode)),
      (∀ x ∈ l, x ∈ members) →
      (∀ m ∈ members, m.isBase = true) →
      rep.isBase = false →
      l.Nodup →
      Cppdep.Wf st.digraph →
      Cppdep.condenseMembers rep members st pre suc l = .ok (st1, p1, s1) →
      ∀ x, x ∈ st1.digraph.nodes ↔
        ((x ∈ st.digraph.nodes ∨
          (x = rep ∧ ∃ m ∈ l, ∃ y, ((y, m) ∈ st.digraph.edges ∧ y ∉ members) ∨
                                    ((m, y) ∈ st.digraph.edges ∧ y ∉ members))) ∧ x ∉ l) := by
  intro l
  induction l with
  | nil =>
    intro st pre suc st1 p1 s1 _ _ _ _ _ h x
    cases h
    constructor
    · intro hx
      exact ⟨Or.inl hx, List.not_mem_nil x⟩
    · rintro ⟨hx | ⟨_, m, hm, _⟩, _⟩
      · exact hx
      · exact absurd hm (List.not_mem_nil m)
  | cons n l ih =>
    intro st pre suc st1 p1 s1 hl hmb hrep hnd hwf h x
    rw [condenseMembers_cons] at h
    by_cases h1 : (Cppdep.assocFind n st.node2cycle).isSome = true
    · rw [if_pos h1] at h
      cases h
    · rw [if_neg h1] at h
      by_cases h2 : n ∉ st.digraph.nodes
      · rw [if_pos h2] at h
        cases h
      · rw [if_neg h2] at h
        have hnm : n ∈ members := hl n (List.mem_cons_self n l)
        have hl' : ∀ y ∈ l, y ∈ members := fun y hy => hl y (List.mem_cons_of_mem n hy)
        rw [List.nodup_cons] at hnd
        have hrepnotmem : rep ∉ members := fun hc => by
          have := hmb rep hc
          rw [hrep] at this
          exact Bool.false_ne_true this
        have hrepne : ∀ m ∈ members, rep ≠ m := by
          intro m hm hc
          exact hrepnotmem (hc ▸ hm)
        have hbnd : ∀ m ∈ l, ∀ y,
            ((((y, m) ∈ (Cppdep.condStepSt rep members st n).digraph.edges ∧ y ∉ members) ∨
              ((m, y) ∈ (Cppdep.condStepSt rep members st n).digraph.edges ∧ y ∉ members)) ↔
             (((y, m) ∈ st.digraph.edges ∧ y ∉ members) ∨
              ((m, y) ∈ st.digraph.edges ∧ y ∉ members))) := by
          intro m hm y
          have hmmem := hl' m hm
          have hmn : m ≠ n := fun hc => hnd.1 (hc ▸ hm)
          constructor
          · rintro (⟨he, hy⟩ | ⟨he, hy⟩)
            · rw [mem_condStepSt_edges_iff hnm] at he
              obtain ⟨hx2, _, _⟩ := he
              rcases hx2 with hx2 | ⟨p, hp, hpm, hpe⟩ | ⟨q, hq, hqm, hqe⟩
              · exact Or.inl ⟨hx2, hy⟩
              · have : m = rep := (Prod.mk.injEq .. ▸ hpe).2
                exact absurd (this ▸ hmmem) hrepnotmem
              · have : m = q := (Prod.mk.injEq .. ▸ hqe).2
                exact absurd (this ▸ hmmem) (this ▸ hqm)
            · rw [mem_condStepSt_edges_iff hnm] at he
              obtain ⟨hx2, _, _⟩ := he
              rcases hx2 with hx2 | ⟨p, hp, hpm, hpe⟩ | ⟨q, hq, hqm, hqe⟩
              · exact Or.inr ⟨hx2, hy⟩
              · have : m = p := (Prod.mk.injEq .. ▸ hpe).1
                exact absurd (this ▸ hmmem) (this ▸ hpm)
              · have : m = rep := (Prod.mk.injEq .. ▸ hqe).1
                exact absurd (this ▸ hmmem) hrepnotmem
          · rintro (⟨he, hy⟩ | ⟨he, hy⟩)
            · refine Or.inl ⟨?_, hy⟩
              rw [mem_condStepSt_edges_iff hnm]
              refine ⟨Or.inl he, ?_, hmn⟩
              intro hc
              exact hy (by rw [show y = n from hc]; exact hnm)
            · refine Or.inr ⟨?_, hy⟩
              rw [mem_condStepSt_edges_iff hnm]
              refine ⟨Or.inl he, hmn, ?_⟩
              intro hc
              exact hy (by rw [show y = n from hc]; exact hnm)
        have hih := ih _ _ _ _ _ _ hl' hmb hrep hnd.2 (condStepSt_wf hwf) h
        rw [hih x]
        constructor
        · rintro ⟨hx | ⟨rfl, m, hm, y, hy⟩, hxl⟩
          · rw [mem_condStepSt_nodes_iff hwf hnm] at hx
            obtain ⟨hx2, hxn⟩ := hx
            rcases hx2 with hx2 | ⟨rfl, y, hy⟩
            · refine ⟨Or.inl hx2, ?_⟩
              rw [List.mem_cons]
              rintro (hc | hc)
              · exact hxn hc
              · exact hxl hc
            · refine ⟨Or.inr ⟨rfl, n, List.mem_cons_self n l, y, hy⟩, ?_⟩
              rw [List.mem_cons]
              rintro (hc | hc)
              · exact hxn hc
              · exact hxl hc
          · refine ⟨Or.inr ⟨rfl, m, List.mem_cons_of_mem n hm, y, (hbnd m hm y).mp hy⟩, ?_⟩
            rw [List.mem_cons]
            rintro (hc | hc)
            · exact hrepne n hnm hc
            · exact hxl hc
        · rintro ⟨hx | ⟨rfl, m, hm, y, hy⟩, hxl⟩
          · have hxn : x ≠ n := fun hc => hxl (hc ▸ List.mem_cons_self n l)
            have hxl2 : x ∉ l := fun hc => hxl (List.mem_cons_of_mem n hc)
            refine ⟨Or.inl ?_, hxl2⟩
            rw [mem_condStepSt_nodes_iff hwf hnm]
            exact ⟨Or.inl hx, hxn⟩
          · rcases List.mem_cons.mp hm with rfl | hml
            · refine ⟨Or.inl ?_, fun hc => hrepnotmem (hl' _ hc)⟩
              rw [mem_condStepSt_nodes_iff hwf hnm]
              exact ⟨Or.inr ⟨rfl, y, hy⟩, hrepne m hnm⟩
            · exact ⟨Or.inr ⟨rfl, m, hml, y, (hbnd m hml y).mpr hy⟩,
                fun hc => hrepnotmem (hl' _ hc)⟩

/-- Two booleans agree when their truths are equivalent. -/
lemma bool_eq_of_iff {a b : Bool} (h : a = true ↔ b = true) : a = b := by
  cases a <;> cases b <;> simp_all

/-- A node's SCC list is the same for every member (same filter, literally). -/
lemma sccOf_congr_lists {g : Cppdep.DG} {m n : Cppdep.GNode} (hm : m ∈ g.sccOf n) :
    g.sccOf m = g.sccOf n := by
  obtain ⟨hmN, hnm, hmn⟩ := mem_sccOf.mp hm
  rw [Cppdep.DG.sccOf, Cppdep.DG.sccOf]
  apply List.filter_congr
  intro y hy
  apply bool_eq_of_iff
  rw [Bool.and_eq_true, Bool.and_eq_true, reachB_iff, reachB_iff, reachB_iff, reachB_iff]
  constructor
  · rintro ⟨h1, h2⟩
    exact ⟨hnm.trans h1, h2.trans hmn⟩
  · rintro ⟨h1, h2⟩
    exact ⟨hmn.trans h1, h2.trans hnm⟩

/-- Two SCC-list entries sharing a node are equal. -/
lemma sccList_overlap {g : Cppdep.DG} {c1 c2 : List Cppdep.GNode}
    (h1 : c1 ∈ g.sccList) (h2 : c2 ∈ g.sccList) {x : Cppdep.GNode}
    (hx1 : x ∈ c1) (hx2 : x ∈ c2) : c1 = c2 := by
  obtain ⟨n1, _, rfl⟩ := sccList_mem h1
  obtain ⟨n2, _, rfl⟩ := sccList_mem h2
  rw [← sccOf_congr_lists hx1, ← sccOf_congr_lists hx2]

/-- The SCC list contains no duplicate entries. -/
lemma sccListAux_nodup {g : Cppdep.DG} :
    ∀ (l : List Cppdep.GNode) (acc : List (List Cppdep.GNode)),
      (∀ x ∈ l, x ∈ g.nodes) → acc.Nodup → (g.sccListAux l acc).Nodup := by
  intro l
  induction l with
  | nil => exact fun acc _ hacc => hacc
  | cons n l ih =>
    intro acc hl hacc
    rw [Cppdep.DG.sccListAux]
    by_cases hin : (acc.any fun c => decide (n ∈ c)) = true
    · rw [if_pos hin]
      exact ih _ (fun x hx => hl x (List.mem_cons_of_mem n hx)) hacc
    · rw [if_neg hin]
      refine ih _ (fun x hx => hl x (List.mem_cons_of_mem n hx)) ?_
      rw [List.nodup_append]
      refine ⟨hacc, List.nodup_singleton _, ?_⟩
      intro c hc hc2
      rw [List.mem_singleton] at hc2
      apply hin
      refine List.any_eq_true.mpr ⟨c, hc, decide_eq_true ?_⟩
      rw [hc2]
      exact self_mem_sccOf (hl n (List.mem_cons_self n l))

lemma sccList_nodup {g : Cppdep.DG} : g.sccList.Nodup :=
  sccListAux_nodup g.nodes [] (fun x hx => hx) List.nodup_nil

/-- Two snapshots sharing a member are equal. -/
lemma snapshot_overlap {st : Cppdep.St} {c1 c2 : Cppdep.Cycle}
    (h1 : c1 ∈ Cppdep.sccSnapshots st) (h2 : c2 ∈ Cppdep.sccSnapshots st)
    {x : Cppdep.GNode} (hx1 : x ∈ c1.members) (hx2 : x ∈ c2.members) : c1 = c2 := by
  rw [Cppdep.sccSnapshots] at h1 h2
  obtain ⟨m1, hm1, rfl⟩ := List.mem_map.mp h1
  obtain ⟨m2, hm2, rfl⟩ := List.mem_map.mp h2
  have he : m1 = m2 :=
    sccList_overlap (List.mem_filter.mp hm1).1 (List.mem_filter.mp hm2).1 hx1 hx2
  rw [he]

/-- The snapshot list contains no duplicate entries. -/
lemma sccSnapshots_nodup {st : Cppdep.St} : (Cppdep.sccSnapshots st).Nodup := by
  rw [Cppdep.sccSnapshots]
  refine List.Nodup.map ?_ (sccList_nodup.filter _)
  intro a b h
  exact congrArg Cppdep.Cycle.members h

/-- A snapshot's member list is an SCC entry of size at least two. -/
lemma snapshot_members_mem {st : Cppdep.St} {c : Cppdep.Cycle}
    (hc : c ∈ Cppdep.sccSnapshots st) :
    c.members ∈ st.digraph.sccList ∧ 2 ≤ c.members.length := by
  rw [Cppdep.sccSnapshots] at hc
  obtain ⟨mems, hmems, rfl⟩ := List.mem_map.mp hc
  have h2 := List.mem_filter.mp hmems
  refine ⟨h2.1, ?_⟩
  have h3 := h2.2
  rwa [decide_eq_true_eq] at h3

/-- A snapshot's member list has no duplicates when the node list has none. -/
lemma snapshot_members_nodup {st : Cppdep.St} {c : Cppdep.Cycle}
    (hnd : st.digraph.nodes.Nodup) (hc : c ∈ Cppdep.sccSnapshots st) :
    c.members.Nodup := by
  obtain ⟨n, _, hn⟩ := sccList_mem (snapshot_members_mem hc).1
  rw [hn]
  exact hnd.filter _

/-- A snapshot's intra edges are the original edges within its members. -/
lemma snapshot_intra_iff {st : Cppdep.St} {c : Cppdep.Cycle}
    (hc : c ∈ Cppdep.sccSnapshots st) :
    ∀ uv, uv ∈ c.intra ↔ uv ∈ st.digraph.edges ∧ uv.1 ∈ c.members ∧ uv.2 ∈ c.members := by
  rw [Cppdep.sccSnapshots] at hc
  obtain ⟨mems, hmems, rfl⟩ := List.mem_map.mp hc
  intro uv
  show uv ∈ st.digraph.edges.filter _ ↔ _
  rw [List.mem_filter, Bool.and_eq_true, decide_eq_true_eq, decide_eq_true_eq]

/-- A base node is its payload's image. -/
lemma isBase_eq_base {x : Cppdep.GNode} (h : x.isBase = true) :
    x = Cppdep.GNode.base (Cppdep.baseId x) := by
  cases x with
  | base n => rfl
  | cyc l =>
    rw [Cppdep.GNode.isBase] at h
    exact absurd h Bool.false_ne_true

/-- Permuted member lists have the same representative. -/
lemma repOf_congr {l1 l2 : List Cppdep.GNode} (h : l1.Perm l2) :
    Cppdep.repOf l1 = Cppdep.repOf l2 := by
  rw [Cppdep.repOf, Cppdep.repOf]
  refine congrArg Cppdep.GNode.cyc ?_
  refine List.eq_of_perm_of_sorted ?_ (List.sorted_insertionSort _ _)
    (List.sorted_insertionSort _ _)
  exact (List.perm_insertionSort _ _).trans ((h.map Cppdep.baseId).trans
    (List.perm_insertionSort _ _).symm)

/-- Base member lists with the same representative have the same members. -/
lemma repOf_inj_set {l1 l2 : List Cppdep.GNode}
    (h1 : ∀ m ∈ l1, m.isBase = true) (h2 : ∀ m ∈ l2, m.isBase = true)
    (hr : Cppdep.repOf l1 = Cppdep.repOf l2) : ∀ x, x ∈ l1 ↔ x ∈ l2 := by
  rw [Cppdep.repOf, Cppdep.repOf] at hr
  have hs := Cppdep.GNode.cyc.inj hr
  have hids : ∀ i, i ∈ l1.map Cppdep.baseId ↔ i ∈ l2.map Cppdep.baseId := by
    intro i
    rw [← (List.perm_insertionSort (· ≤ ·) (l1.map Cppdep.baseId)).mem_iff,
      ← (List.perm_insertionSort (· ≤ ·) (l2.map Cppdep.baseId)).mem_iff, hs]
  intro x
  constructor
  · intro hx
    have hid : Cppdep.baseId x ∈ l2.map Cppdep.baseId :=
      (hids _).mp (List.mem_map.mpr ⟨x, hx, rfl⟩)
    obtain ⟨y, hy, hyx⟩ := List.mem_map.mp hid
    have : y = x := by
      rw [isBase_eq_base (h2 y hy), isBase_eq_base (h1 x hx), hyx]
    exact this ▸ hy
  · intro hx
    have hid : Cppdep.baseId x ∈ l1.map Cppdep.baseId :=
      (hids _).mpr (List.mem_map.mpr ⟨x, hx, rfl⟩)
    obtain ⟨y, hy, hyx⟩ := List.mem_map.mp hid
    have : y = x := by
      rw [isBase_eq_base (h1 y hy), isBase_eq_base (h2 x hx), hyx]
    exact this ▸ hy

/-- Distinct snapshots have distinct representatives (over base nodes). -/
lemma snapshot_rep_inj {st : Cppdep.St} {c1 c2 : Cppdep.Cycle}
    (hbase : ∀ n ∈ st.digraph.nodes, n.isBase = true)
    (h1 : c1 ∈ Cppdep.sccSnapshots st) (h2 : c2 ∈ Cppdep.sccSnapshots st)
    (hr : Cppdep.repOf c1.members = Cppdep.repOf c2.members) : c1 = c2 := by
  have hb := snapshot_members_base hbase
  have hmem := repOf_inj_set (hb c1 h1) (hb c2 h2) hr
  obtain ⟨_, hlen⟩ := snapshot_members_mem h1
  cases hm : c1.members with
  | nil =>
    rw [hm] at hlen
    simp at hlen
  | cons m r =>
    have hm1 : m ∈ c1.members := by
      rw [hm]
      exact List.mem_cons_self _ _
    exact snapshot_overlap h1 h2 hm1 ((hmem m).mp hm1)

/-- `cmap` of a node covered by a snapshot, when that snapshot is the only
one containing it. -/
lemma cmap_eq_of_mem {cs : List Cppdep.Cycle} {c : Cppdep.Cycle} {x : Cppdep.GNode}
    (hc : c ∈ cs) (hx : x ∈ c.members)
    (huniq : ∀ c2 ∈ cs, x ∈ c2.members → c2 = c) :
    Cppdep.cmap cs x = Cppdep.repOf c.members := by
  rw [Cppdep.cmap]
  cases hf : cs.find? (fun c => decide (x ∈ c.members)) with
  | none =>
    have := List.find?_eq_none.mp hf c hc
    rw [decide_eq_true_eq] at this
    exact absurd hx this
  | some c2 =>
    have hp := List.find?_some hf
    rw [decide_eq_true_eq] at hp
    rw [huniq c2 (List.mem_of_find?_eq_some hf) hp]

/-- `cmap` of a node covered by no snapshot. -/
lemma cmap_eq_self {cs : List Cppdep.Cycle} {x : Cppdep.GNode}
    (hx : ∀ c ∈ cs, x ∉ c.members) : Cppdep.cmap cs x = x := by
  rw [Cppdep.cmap]
  cases hf : cs.find? (fun c => decide (x ∈ c.members)) with
  | none => rfl
  | some c2 =>
    have hp := List.find?_some hf
    rw [decide_eq_true_eq] at hp
    exact absurd hp (hx c2 (List.mem_of_find?_eq_some hf))

/-- Appending a snapshot that does not contain the node leaves its image. -/
lemma cmap_append_notin {D : List Cppdep.Cycle} {c : Cppdep.Cycle} {x : Cppdep.GNode}
    (hx : x ∉ c.members) : Cppdep.cmap (D ++ [c]) x = Cppdep.cmap D x := by
  rw [Cppdep.cmap, Cppdep.cmap, List.find?_append]
  cases hf : D.find? (fun c => decide (x ∈ c.members)) with
  | none =>
    have hc : List.find? (fun c => decide (x ∈ c.members)) [c] = none := by
      rw [List.find?_eq_none]
      intro a ha
      rw [List.mem_singleton] at ha
      subst ha
      rw [decide_eq_true_eq]
      exact hx
    rw [Option.none_or, hc]
  | some c2 => rw [Option.or_some]

/-- Appending a snapshot containing a previously uncovered node maps it to
the new representative. -/
lemma cmap_append_in {D : List Cppdep.Cycle} {c : Cppdep.Cycle} {x : Cppdep.GNode}
    (hx : x ∈ c.members) (hD : ∀ c2 ∈ D, x ∉ c2.members) :
    Cppdep.cmap (D ++ [c]) x = Cppdep.repOf c.members := by
  rw [Cppdep.cmap, List.find?_append]
  have hf : D.find? (fun c => decide (x ∈ c.members)) = none := by
    rw [List.find?_eq_none]
    intro a ha
    rw [decide_eq_true_eq]
    exact hD a ha
  rw [hf, Option.none_or]
  have hc : List.find? (fun c => decide (x ∈ c.members)) [c] = some c := by
    rw [List.find?_cons_of_pos]
    exact decide_eq_true hx
  rw [hc]

/-- The canonical image is the node itself or the representative of a
snapshot containing it. -/
lemma cmap_cases (cs : List Cppdep.Cycle) (x : Cppdep.GNode) :
    Cppdep.cmap cs x = x ∨
      ∃ c ∈ cs, Cppdep.cmap cs x = Cppdep.repOf c.members ∧ x ∈ c.members := by
  rw [Cppdep.cmap]
  cases hf : cs.find? (fun c => decide (x ∈ c.members)) with
  | none => exact Or.inl rfl
  | some c2 =>
    have hp := List.find?_some hf
    rw [decide_eq_true_eq] at hp
    exact Or.inr ⟨c2, List.mem_of_find?_eq_some hf, rfl, hp⟩

/-- The member loop keeps the digraph well-formed. -/
lemma condenseMembers_wf {rep : Cppdep.GNode} {members : List Cppdep.GNode} :
    ∀ (l : List Cppdep.GNode) (st : Cppdep.St) (pre suc : List (Cppdep.GNode × Cppdep.GNode))
      (st1 : Cppdep.St) (p1 s1 : List (Cppdep.GNode × Cppdep.GNode)),
      Cppdep.condenseMembers rep members st pre suc l = .ok (st1, p1, s1) →
      Cppdep.Wf st.digraph → Cppdep.Wf st1.digraph := by
  intro l
  induction l with
  | nil =>
    intro st pre suc st1 p1 s1 h hwf
    cases h
    exact hwf
  | cons n l ih =>
    intro st pre suc st1 p1 s1 h hwf
    rw [condenseMembers_cons] at h
    by_cases h1 : (Cppdep.assocFind n st.node2cycle).isSome = true
    · rw [if_pos h1] at h
      cases h
    · rw [if_neg h1] at h
      by_cases h2 : n ∉ st.digraph.nodes
      · rw [if_pos h2] at h
        cases h
      · rw [if_neg h2] at h
        exact ih _ _ _ _ _ _ h (condStepSt_wf hwf)

/-- The condensation fold realizes the canonical quotient: edges are the
distinct-image pairs of original edges under `cmap`, and the surviving nodes
are the uncollapsed originals plus the representatives of snapshots having a
boundary edge. -/
lemma condense_go {st0 : Cppdep.St}
    (hbase : ∀ n ∈ st0.digraph.nodes, n.isBase = true)
    (hnd0 : st0.digraph.nodes.Nodup)
    (hwf0 : Cppdep.Wf st0.digraph) :
    ∀ (T D : List Cppdep.Cycle) (s s2 : Cppdep.St),
      Cppdep.sccSnapshots st0 = D ++ T →
      (∀ e, e ∈ s.digraph.edges ↔ ∃ u v, (u, v) ∈ st0.digraph.edges ∧
          e = (Cppdep.cmap D u, Cppdep.cmap D v) ∧ Cppdep.cmap D u ≠ Cppdep.cmap D v) →
      (∀ x, x ∈ s.digraph.nodes ↔
          ((x ∈ st0.digraph.nodes ∧ Cppdep.cmap D x = x) ∨
           ∃ c ∈ D, x = Cppdep.repOf c.members ∧ ∃ uv ∈ st0.digraph.edges,
             (uv.1 ∈ c.members ∧ uv.2 ∉ c.members) ∨
             (uv.2 ∈ c.members ∧ uv.1 ∉ c.members))) →
      Cppdep.Wf s.digraph →
      T.foldlM Cppdep.condenseOne s = .ok s2 →
      (∀ e, e ∈ s2.digraph.edges ↔ ∃ u v, (u, v) ∈ st0.digraph.edges ∧
          e = (Cppdep.cmap (D ++ T) u, Cppdep.cmap (D ++ T) v) ∧
          Cppdep.cmap (D ++ T) u ≠ Cppdep.cmap (D ++ T) v) ∧
      (∀ x, x ∈ s2.digraph.nodes ↔
          ((x ∈ st0.digraph.nodes ∧ Cppdep.cmap (D ++ T) x = x) ∨
           ∃ c ∈ D ++ T, x = Cppdep.repOf c.members ∧ ∃ uv ∈ st0.digraph.edges,
             (uv.1 ∈ c.members ∧ uv.2 ∉ c.members) ∨
             (uv.2 ∈ c.members ∧ uv.1 ∉ c.members))) := by
  intro T
  induction T with
  | nil =>
    intro D s s2 hS hIE hIN hwf h
    cases h
    rw [List.append_nil]
    exact ⟨hIE, hIN⟩
  | cons c T ih =>
    intro D s s2 hS hIE hIN hwf h
    rw [List.foldlM_cons] at h
    cases hone : Cppdep.condenseOne s c with
    | error e =>
      rw [hone] at h
      cases h
    | ok s1 =>
      rw [hone] at h
      have hcS : c ∈ Cppdep.sccSnapshots st0 := by
        rw [hS]
        exact List.mem_append_right _ (List.mem_cons_self _ _)
      have hDS : ∀ c2 ∈ D, c2 ∈ Cppdep.sccSnapshots st0 := by
        intro c2 hc2
        rw [hS]
        exact List.mem_append_left _ hc2
      have hcD : c ∉ D := by
        intro hc
        have hnd := @sccSnapshots_nodup st0
        rw [hS] at hnd
        exact List.disjoint_of_nodup_append hnd hc (List.mem_cons_self _ _)
      have hmb := snapshot_members_base hbase c hcS
      have hndm := snapshot_members_nodup hnd0 hcS
      have hmD : ∀ m ∈ c.members, ∀ c2 ∈ D, m ∉ c2.members := by
        intro m hm c2 hc2 hmc2
        exact hcD (snapshot_overlap (hDS c2 hc2) hcS hmc2 hm ▸ hc2)
      have hcmapm : ∀ m ∈ c.members, Cppdep.cmap D m = m :=
        fun m hm => cmap_eq_self (fun c2 hc2 => hmD m hm c2 hc2)
      have himg_mem : ∀ u, Cppdep.cmap D u ∈ c.members ↔ u ∈ c.members := by
        intro u
        constructor
        · intro hu
          rcases cmap_cases D u with hc2 | ⟨c2, hc2, heq, hu2⟩
          · rwa [hc2] at hu
          · rw [heq] at hu
            have := hmb _ hu
            rw [repOf_isBase] at this
            exact absurd this Bool.false_ne_true
        · intro hu
          rw [hcmapm u hu]
          exact hu
      have himg_ne_rep : ∀ b, b ∈ st0.digraph.nodes → b ∉ c.members →
          Cppdep.cmap D b ≠ Cppdep.repOf c.members := by
        intro b hbN hbc
        rcases cmap_cases D b with hc2 | ⟨c2, hc2, heq, _⟩
        · rw [hc2]
          exact ne_repOf_of_isBase (hbase b hbN)
        · rw [heq]
          intro hr
          exact hcD (snapshot_rep_inj hbase (hDS c2 hc2) hcS hr ▸ hc2)
      have himg_eq_base : ∀ a b, a ∈ c.members → Cppdep.cmap D b = a → b = a := by
        intro a b ha heq
        rcases cmap_cases D b with hc2 | ⟨c2, hc2, heq2, _⟩
        · rw [← hc2]
          exact heq
        · rw [heq2] at heq
          have := hmb _ (heq ▸ ha)
          rw [repOf_isBase] at this
          exact absurd this Bool.false_ne_true
      rw [Cppdep.condenseOne] at hone
      cases hcm2 : Cppdep.condenseMembers (Cppdep.repOf c.members) c.members s [] []
          c.members with
      | error e =>
        rw [hcm2] at hone
        cases hone
      | ok r =>
        obtain ⟨s1', pre, suc⟩ := r
        rw [hcm2] at hone
        have hone2 : (if (s1'.cycles.any fun e => decide (e.1.members = c.members)) = true
            then (Except.error Cppdep.Err.cycleSeen : Except Cppdep.Err Cppdep.St)
            else Except.ok { s1' with cycles := s1'.cycles ++ [(c, pre, suc)] }) =
            Except.ok s1 := hone
        by_cases hany : (s1'.cycles.any fun e => decide (e.1.members = c.members)) = true
        · rw [if_pos hany] at hone2
          cases hone2
        · rw [if_neg hany] at hone2
          cases hone2
          have hEs1 := condenseMembers_edges_iff c.members s [] [] s1' pre suc
            (fun x hx => hx) hmb repOf_isBase hndm hcm2
          have hNs1 := condenseMembers_nodes_iff c.members s [] [] s1' pre suc
            (fun x hx => hx) hmb repOf_isBase hndm hwf hcm2
          have hwf1 : Cppdep.Wf s1'.digraph :=
            condenseMembers_wf _ _ _ _ _ _ _ hcm2 hwf
          have hIE' : ∀ e, e ∈ s1'.digraph.edges ↔
              ∃ u v, (u, v) ∈ st0.digraph.edges ∧
                e = (Cppdep.cmap (D ++ [c]) u, Cppdep.cmap (D ++ [c]) v) ∧
                Cppdep.cmap (D ++ [c]) u ≠ Cppdep.cmap (D ++ [c]) v := by
            intro e
            rw [hEs1 e]
            constructor
            · rintro (⟨he, he1, he2⟩ | ⟨u0, v0, huv, hu0, hv0, rfl⟩ |
                ⟨u0, v0, huv, hv0, hu0, rfl⟩)
              · obtain ⟨u, v, hE, rfl, hne⟩ := (hIE e).mp he
                have hu : u ∉ c.members := fun hc2 => he1 (by rw [hcmapm u hc2]; exact hc2)
                have hv : v ∉ c.members := fun hc2 => he2 (by rw [hcmapm v hc2]; exact hc2)
                refine ⟨u, v, hE, ?_, ?_⟩
                · rw [cmap_append_notin hu, cmap_append_notin hv]
                · rw [cmap_append_notin hu, cmap_append_notin hv]
                  exact hne
              · obtain ⟨a, b, hE, hab, hne⟩ := (hIE _).mp huv
                have ha1 : Cppdep.cmap D a = u0 := ((Prod.mk.injEq .. ▸ hab).1).symm
                have hb1 : Cppdep.cmap D b = v0 := ((Prod.mk.injEq .. ▸ hab).2).symm
                have ha : a ∈ c.members := (himg_mem a).mp (ha1 ▸ hu0)
                have hb : b ∉ c.members := fun hc2 => hv0 (by
                  rw [← hb1, hcmapm b hc2]
                  exact hc2)
                refine ⟨a, b, hE, ?_, ?_⟩
                · rw [cmap_append_in ha (fun c2 hc2 => hmD a ha c2 hc2),
                    cmap_append_notin hb, hb1]
                · rw [cmap_append_in ha (fun c2 hc2 => hmD a ha c2 hc2),
                    cmap_append_notin hb, hb1]
                  exact fun hr => himg_ne_rep b (hwf0 _ hE).2 hb (hb1 ▸ hr.symm)
              · obtain ⟨a, b, hE, hab, hne⟩ := (hIE _).mp huv
                have ha1 : Cppdep.cmap D a = u0 := ((Prod.mk.injEq .. ▸ hab).1).symm
                have hb1 : Cppdep.cmap D b = v0 := ((Prod.mk.injEq .. ▸ hab).2).symm
                have hb : b ∈ c.members := (himg_mem b).mp (hb1 ▸ hv0)
                have ha : a ∉ c.members := fun hc2 => hu0 (by
                  rw [← ha1, hcmapm a hc2]
                  exact hc2)
                refine ⟨a, b, hE, ?_, ?_⟩
                · rw [cmap_append_in hb (fun c2 hc2 => hmD b hb c2 hc2),
                    cmap_append_notin ha, ha1]
                · rw [cmap_append_in hb (fun c2 hc2 => hmD b hb c2 hc2),
                    cmap_append_notin ha, ha1]
                  exact fun hr => himg_ne_rep a (hwf0 _ hE).1 ha (ha1 ▸ hr)
            · rintro ⟨u, v, hE, rfl, hne⟩
              by_cases hu : u ∈ c.members <;> by_cases hv : v ∈ c.members
              · exact absurd (by
                  rw [cmap_append_in hu (fun c2 hc2 => hmD u hu c2 hc2),
                    cmap_append_in hv (fun c2 hc2 => hmD v hv c2 hc2)]) hne
              · refine Or.inr (Or.inl ⟨u, Cppdep.cmap D v, ?_, hu, ?_, ?_⟩)
                · refine (hIE _).mpr ⟨u, v, hE, by rw [hcmapm u hu], ?_⟩
                  rw [hcmapm u hu]
                  exact fun hc2 => hv ((himg_mem v).mp (hc2 ▸ hu))
                · exact fun hc2 => hv ((himg_mem v).mp hc2)
                · rw [cmap_append_in hu (fun c2 hc2 => hmD u hu c2 hc2),
                    cmap_append_notin hv]
              · refine Or.inr (Or.inr ⟨Cppdep.cmap D u, v, ?_, hv, ?_, ?_⟩)
                · refine (hIE _).mpr ⟨u, v, hE, by rw [hcmapm v hv], ?_⟩
                  rw [hcmapm v hv]
                  exact fun hc2 => hu ((himg_mem u).mp (hc2.symm ▸ hv))
                · exact fun hc2 => hu ((himg_mem u).mp hc2)
                · rw [cmap_append_in hv (fun c2 hc2 => hmD v hv c2 hc2),
                    cmap_append_notin hu]
              · refine Or.inl ⟨?_, ?_, ?_⟩
                · refine (hIE _).mpr ⟨u, v, hE, ?_, ?_⟩
                  · rw [cmap_append_notin hu, cmap_append_notin hv]
                  · rw [← cmap_append_notin hu, ← cmap_append_notin hv]
                    exact hne
                · rw [cmap_append_notin hu]
                  exact fun hc2 => hu ((himg_mem u).mp hc2)
                · rw [cmap_append_notin hv]
                  exact fun hc2 => hv ((himg_mem v).mp hc2)
          have hIN' : ∀ x, x ∈ s1'.digraph.nodes ↔
              ((x ∈ st0.digraph.nodes ∧ Cppdep.cmap (D ++ [c]) x = x) ∨
               ∃ c2 ∈ D ++ [c], x = Cppdep.repOf c2.members ∧
                 ∃ uv ∈ st0.digraph.edges,
                   (uv.1 ∈ c2.members ∧ uv.2 ∉ c2.members) ∨
                   (uv.2 ∈ c2.members ∧ uv.1 ∉ c2.members)) := by
            intro x
            rw [hNs1 x]
            constructor
            · rintro ⟨hx | ⟨rfl, m, hm, y, hy⟩, hxc⟩
              · rcases (hIN x).mp hx with ⟨hxN, hcm⟩ | ⟨c2, hc2, rfl, huv, hE, hbd⟩
                · exact Or.inl ⟨hxN, by rw [cmap_append_notin hxc]; exact hcm⟩
                · exact Or.inr ⟨c2, List.mem_append_left _ hc2, rfl, huv, hE, hbd⟩
              · refine Or.inr ⟨c, List.mem_append_right _ (List.mem_singleton.mpr rfl),
                  rfl, ?_⟩
                rcases hy with ⟨he, hyc⟩ | ⟨he, hyc⟩
                · obtain ⟨a, b, hE, hab, _⟩ := (hIE _).mp he
                  have ha1 : Cppdep.cmap D a = y := ((Prod.mk.injEq .. ▸ hab).1).symm
                  have hb1 : Cppdep.cmap D b = m := ((Prod.mk.injEq .. ▸ hab).2).symm
                  have hb : b = m := himg_eq_base m b hm hb1
                  refine ⟨(a, b), hE, Or.inr ⟨hb ▸ hm, ?_⟩⟩
                  exact fun hc2 => hyc (by rw [← ha1, hcmapm a hc2]; exact hc2)
                · obtain ⟨a, b, hE, hab, _⟩ := (hIE _).mp he
                  have ha1 : Cppdep.cmap D a = m := ((Prod.mk.injEq .. ▸ hab).1).symm
                  have hb1 : Cppdep.cmap D b = y := ((Prod.mk.injEq .. ▸ hab).2).symm
                  have ha : a = m := himg_eq_base m a hm ha1
                  refine ⟨(a, b), hE, Or.inl ⟨ha ▸ hm, ?_⟩⟩
                  exact fun hc2 => hyc (by rw [← hb1, hcmapm b hc2]; exact hc2)
            · rintro (⟨hxN, hcm⟩ | ⟨c2, hc2, rfl, uv, hE, hbd⟩)
              · have hxc : x ∉ c.members := by
                  intro hc2
                  rw [cmap_append_in hc2 (fun c3 hc3 => hmD x hc2 c3 hc3)] at hcm
                  have := hbase x hxN
                  rw [← hcm, repOf_isBase] at this
                  exact absurd this Bool.false_ne_true
                refine ⟨Or.inl ((hIN x).mpr (Or.inl ⟨hxN, ?_⟩)), hxc⟩
                rw [← cmap_append_notin hxc]
                exact hcm
              · rcases List.mem_append.mp hc2 with hc2 | hc2
                · have hxc : Cppdep.repOf c2.members ∉ c.members := by
                    intro hc3
                    have := hmb _ hc3
                    rw [repOf_isBase] at this
                    exact absurd this Bool.false_ne_true
                  exact ⟨Or.inl ((hIN _).mpr (Or.inr ⟨c2, hc2, rfl, uv, hE, hbd⟩)), hxc⟩
                · rw [List.mem_singleton] at hc2
                  subst hc2
                  have hxc : Cppdep.repOf c2.members ∉ c2.members := by
                    intro hc3
                    have := hmb _ hc3
                    rw [repOf_isBase] at this
                    exact absurd this Bool.false_ne_true
                  refine ⟨Or.inr ⟨rfl, ?_⟩, hxc⟩
                  rcases hbd with ⟨h1, h2⟩ | ⟨h1, h2⟩
                  · refine ⟨uv.1, h1, Cppdep.cmap D uv.2, Or.inr ⟨?_, ?_⟩⟩
                    · refine (hIE _).mpr ⟨uv.1, uv.2, hE, by rw [hcmapm _ h1], ?_⟩
                      rw [hcmapm _ h1]
                      exact fun hc3 => h2 ((himg_mem uv.2).mp (hc3.symm ▸ h1))
                    · exact fun hc3 => h2 ((himg_mem uv.2).mp hc3)
                  · refine ⟨uv.2, h1, Cppdep.cmap D uv.1, Or.inl ⟨?_, ?_⟩⟩
                    · refine (hIE _).mpr ⟨uv.1, uv.2, hE, by rw [hcmapm _ h1], ?_⟩
                      rw [hcmapm _ h1]
                      exact fun hc3 => h2 ((himg_mem uv.1).mp (by rw [hc3]; exact h1))
                    · exact fun hc3 => h2 ((himg_mem uv.1).mp hc3)
          have hS' : Cppdep.sccSnapshots st0 = (D ++ [c]) ++ T := by
            rw [hS]
            simp
          have hrec := ih (D ++ [c])
            { s1' with cycles := s1'.cycles ++ [(c, pre, suc)] } s2 hS' hIE' hIN' hwf1 h
          rw [List.append_assoc] at hrec
          rw [List.singleton_append] at hrec
          exact hrec

/-- Reachability only depends on the edge set. -/
lemma reach_congr {g h : Cppdep.DG} (he : ∀ e, e ∈ g.edges ↔ e ∈ h.edges)
    {a b : Cppdep.GNode} : Cppdep.Reach g a b ↔ Cppdep.Reach h a b :=
  ⟨reach_mono (fun e h2 => (he e).mp h2), reach_mono (fun e h2 => (he e).mpr h2)⟩

/-- Strict reachability only depends on the edge set. -/
lemma reachP_congr {g h : Cppdep.DG} (he : ∀ e, e ∈ g.edges ↔ e ∈ h.edges)
    {a b : Cppdep.GNode} : Cppdep.ReachP g a b ↔ Cppdep.ReachP h a b :=
  ⟨reachP_mono (fun e h2 => (he e).mp h2), reachP_mono (fun e h2 => (he e).mpr h2)⟩

/-- The computed reachability test only depends on the edge set. -/
lemma reachB_congr {g h : Cppdep.DG} (he : ∀ e, e ∈ g.edges ↔ e ∈ h.edges)
    (a b : Cppdep.GNode) : g.reachB a b = h.reachB a b := by
  apply bool_eq_of_iff
  rw [reachB_iff, reachB_iff]
  exact reach_congr he

/-- `find?` returns the unique element satisfying the predicate. -/
lemma find?_eq_of_unique {α : Type} {p : α → Bool} :
    ∀ {l : List α} {a : α}, a ∈ l → p a = true → (∀ b ∈ l, p b = true → b = a) →
      l.find? p = some a := by
  intro l
  induction l with
  | nil => exact fun ha _ _ => absurd ha (List.not_mem_nil _)
  | cons x t ih =>
    intro a ha hpa huniq
    by_cases hx : p x = true
    · rw [List.find?_cons_of_pos _ hx, huniq x (List.mem_cons_self _ _) hx]
    · rw [List.find?_cons_of_neg _ hx]
      rcases List.mem_cons.mp ha with rfl | hat
      · exact absurd hpa hx
      · exact ih hat hpa (fun b hb => huniq b (List.mem_cons_of_mem _ hb))

/-- Elements bound the running maximum. -/
lemma le_maxList {l : List Nat} {x : Nat} (hx : x ∈ l) : x ≤ Cppdep.maxList l := by
  rw [Cppdep.maxList]
  have key : ∀ (l : List Nat) (a : Nat), a ≤ l.foldl Nat.max a ∧
      ∀ x ∈ l, x ≤ l.foldl Nat.max a := by
    intro l
    induction l with
    | nil => exact fun a => ⟨Nat.le_refl a, fun x hx => absurd hx (List.not_mem_nil x)⟩
    | cons y t ih =>
      intro a
      rw [List.foldl_cons]
      refine ⟨Nat.le_trans (Nat.le_max_left a y) (ih (Nat.max a y)).1, ?_⟩
      intro x hx
      rcases List.mem_cons.mp hx with rfl | hxt
      · exact Nat.le_trans (Nat.le_max_right a x) (ih (Nat.max a x)).1
      · exact (ih (Nat.max a y)).2 x hxt
  exact (key l 0).2 x hx

/-- The running maximum is zero or an element. -/
lemma maxList_eq_zero_or_mem (l : List Nat) :
    Cppdep.maxList l = 0 ∨ Cppdep.maxList l ∈ l := by
  rw [Cppdep.maxList]
  have key : ∀ (l : List Nat) (a : Nat), l.foldl Nat.max a = a ∨ l.foldl Nat.max a ∈ l := by
    intro l
    induction l with
    | nil => exact fun a => Or.inl rfl
    | cons y t ih =>
      intro a
      rw [List.foldl_cons]
      rcases ih (Nat.max a y) with h | h
      · rw [h]
        rcases Nat.le_total a y with h2 | h2
        · exact Or.inr (List.mem_cons.mpr (Or.inl (Nat.max_eq_right h2)))
        · exact Or.inl (Nat.max_eq_left h2)
      · exact Or.inr (List.mem_cons_of_mem _ h)
  exact key l 0

/-- The running maximum only depends on the set of entries. -/
lemma maxList_congr {l1 l2 : List Nat} (h : ∀ x, x ∈ l1 ↔ x ∈ l2) :
    Cppdep.maxList l1 = Cppdep.maxList l2 := by
  have h12 : Cppdep.maxList l1 ≤ Cppdep.maxList l2 := by
    rcases maxList_eq_zero_or_mem l1 with h1 | h1
    · rw [h1]
      exact Nat.zero_le _
    · exact le_maxList ((h _).mp h1)
  have h21 : Cppdep.maxList l2 ≤ Cppdep.maxList l1 := by
    rcases maxList_eq_zero_or_mem l2 with h1 | h1
    · rw [h1]
      exact Nat.zero_le _
    · exact le_maxList ((h _).mpr h1)
  exact Nat.le_antisymm h12 h21

/-- The digit list of `decDigitsAux` evaluates back to its input. -/
lemma digitsVal_decDigitsAux :
    ∀ (fuel n : Nat), n < fuel → Cppdep.digitsVal (Cppdep.decDigitsAux fuel n) = n := by
  intro fuel
  induction fuel with
  | zero => exact fun n h => absurd h (Nat.not_lt_zero n)
  | succ fuel ih =>
    intro n hn
    cases n with
    | zero => rfl
    | succ m =>
      show Cppdep.digitsVal (Cppdep.decDigitsAux fuel ((m + 1) / 10) ++ [(m + 1) % 10]) = m + 1
      rw [Cppdep.digitsVal, List.foldl_append]
      have hd : (m + 1) / 10 < fuel := by
        have h1 : (m + 1) / 10 < m + 1 := Nat.div_lt_self (Nat.succ_pos m) (by norm_num)
        omega
      have := ih ((m + 1) / 10) hd
      rw [Cppdep.digitsVal] at this
      rw [this]
      show 10 * ((m + 1) / 10) + (m + 1) % 10 = m + 1
      exact Nat.div_add_mod (m + 1) 10

/-- The decimal string evaluates back to the number. -/
lemma digitsVal_decStr (n : Nat) : Cppdep.digitsVal (Cppdep.decStr n) = n := by
  rw [Cppdep.decStr]
  by_cases h : n = 0
  · rw [if_pos h, h]
    rfl
  · rw [if_neg h]
    exact digitsVal_decDigitsAux (n + 1) n (Nat.lt_succ_self n)

/-- Decimal strings are injective. -/
lemma decStr_inj {m n : Nat} (h : Cppdep.decStr m = Cppdep.decStr n) : m = n := by
  have := digitsVal_decStr m
  rw [h, digitsVal_decStr] at this
  exact this.symm

/-- The string order is irreflexive. -/
lemma lexLt_irrefl : ∀ a : List Nat, Cppdep.lexLt a a = false := by
  intro a
  induction a with
  | nil => rfl
  | cons x t ih =>
    show (if x < x then true else if x < x then false else Cppdep.lexLt t t) = false
    rw [if_neg (Nat.lt_irrefl x), if_neg (Nat.lt_irrefl x)]
    exact ih

/-- The string order is transitive. -/
lemma lexLt_trans : ∀ (a b c : List Nat), Cppdep.lexLt a b = true →
    Cppdep.lexLt b c = true → Cppdep.lexLt a c = true := by
  intro a
  induction a with
  | nil =>
    intro b c h1 h2
    cases b with
    | nil => exact absurd h1 Bool.false_ne_true
    | cons y bs =>
      cases c with
      | nil => exact absurd h2 Bool.false_ne_true
      | cons z cs => rfl
  | cons x xs ih =>
    intro b c h1 h2
    cases b with
    | nil => exact absurd h1 Bool.false_ne_true
    | cons y bs =>
      cases c with
      | nil => exact absurd h2 Bool.false_ne_true
      | cons z cs =>
        have h1' : (if x < y then true else if y < x then false else Cppdep.lexLt xs bs) =
            true := h1
        have h2' : (if y < z then true else if z < y then false else Cppdep.lexLt bs cs) =
            true := h2
        show (if x < z then true else if z < x then false else Cppdep.lexLt xs cs) = true
        by_cases hxy : x < y
        · by_cases hyz : y < z
          · rw [if_pos (Nat.lt_trans hxy hyz)]
          · by_cases hzy : z < y
            · rw [if_neg hyz, if_pos hzy] at h2'
              exact absurd h2' Bool.false_ne_true
            · have hyz2 : y = z := by omega
              rw [if_pos (hyz2 ▸ hxy)]
        · by_cases hyx : y < x
          · rw [if_neg hxy, if_pos hyx] at h1'
            exact absurd h1' Bool.false_ne_true
          · have hxy2 : x = y := by omega
            subst hxy2
            rw [if_neg hxy, if_neg hyx] at h1'
            by_cases hyz : x < z
            · rw [if_pos hyz]
            · by_cases hzy : z < x
              · rw [if_neg hyz, if_pos hzy] at h2'
                exact absurd h2' Bool.false_ne_true
              · rw [if_neg hyz, if_neg hzy] at h2' ⊢
                exact ih bs cs h1' h2'

/-- The string order satisfies trichotomy. -/
lemma lexLt_trichot : ∀ (a b : List Nat),
    Cppdep.lexLt a b = true ∨ Cppdep.lexLt b a = true ∨ a = b := by
  intro a
  induction a with
  | nil =>
    intro b
    cases b with
    | nil => exact Or.inr (Or.inr rfl)
    | cons y bs => exact Or.inl rfl
  | cons x xs ih =>
    intro b
    cases b with
    | nil => exact Or.inr (Or.inl rfl)
    | cons y bs =>
      by_cases hxy : x < y
      · refine Or.inl ?_
        show (if x < y then true else _) = true
        rw [if_pos hxy]
      · by_cases hyx : y < x
        · refine Or.inr (Or.inl ?_)
          show (if y < x then true else _) = true
          rw [if_pos hyx]
        · have hxy2 : x = y := by omega
          subst hxy2
          rcases ih bs with h | h | h
          · refine Or.inl ?_
            show (if x < x then true else if x < x then false else Cppdep.lexLt xs bs) = true
            rw [if_neg (Nat.lt_irrefl x), if_neg (Nat.lt_irrefl x)]
            exact h
          · refine Or.inr (Or.inl ?_)
            show (if x < x then true else if x < x then false else Cppdep.lexLt bs xs) = true
            rw [if_neg (Nat.lt_irrefl x), if_neg (Nat.lt_irrefl x)]
            exact h
          · exact Or.inr (Or.inr (by rw [h]))

/-- The string order is asymmetric. -/
lemma lexLt_asymm {a b : List Nat} (h : Cppdep.lexLt a b = true) :
    Cppdep.lexLt b a = false := by
  cases h2 : Cppdep.lexLt b a with
  | false => rfl
  | true =>
    have := lexLt_trans a b a h h2
    rw [lexLt_irrefl] at this
    exact absurd this Bool.false_ne_true

/-- Mutually unordered strings are equal. -/
lemma lexLt_antisymm {a b : List Nat} (h1 : Cppdep.lexLt a b = false)
    (h2 : Cppdep.lexLt b a = false) : a = b := by
  rcases lexLt_trichot a b with h | h | h
  · rw [h] at h1
    exact Bool.noConfusion h1
  · rw [h] at h2
    exact Bool.noConfusion h2
  · exact h

/-- Lookup distributes over association-list concatenation. -/
lemma assocFind_append {α : Type} (k : Cppdep.GNode) :
    ∀ (m1 m2 : List (Cppdep.GNode × α)),
      Cppdep.assocFind k (m1 ++ m2) =
        (Cppdep.assocFind k m1).or (Cppdep.assocFind k m2) := by
  intro m1
  induction m1 with
  | nil => exact fun m2 => Option.none_or.symm
  | cons p t ih =>
    intro m2
    obtain ⟨a, b⟩ := p
    show Cppdep.assocFind k ((a, b) :: (t ++ m2)) = _
    rw [Cppdep.assocFind, Cppdep.assocFind]
    by_cases hp : a = k
    · rw [if_pos hp, if_pos hp]
      rfl
    · rw [if_neg hp, if_neg hp, ih]

/-- Updating a fresh key appends the binding. -/
lemma assocUpd_fresh_append {α : Type} {k : Cppdep.GNode} (v : α) :
    ∀ m : List (Cppdep.GNode × α), Cppdep.assocFind k m = none →
      Cppdep.assocUpd k v m = m ++ [(k, v)] := by
  intro m
  induction m with
  | nil => exact fun _ => rfl
  | cons p t ih =>
    intro hf
    obtain ⟨a, b⟩ := p
    rw [Cppdep.assocFind] at hf
    by_cases hp : a = k
    · rw [if_pos hp] at hf
      cases hf
    · rw [if_neg hp] at hf
      show Cppdep.assocUpd k v ((a, b) :: t) = (a, b) :: (t ++ [(k, v)])
      rw [Cppdep.assocUpd, if_neg hp, ih hf]

/-- Folding updates over fresh distinct keys appends the value pairs. -/
lemma foldl_assocUpd_pairs (val : Cppdep.GNode → Nat) :
    ∀ (l : List Cppdep.GNode) (m : List (Cppdep.GNode × Nat)),
      (∀ n ∈ l, Cppdep.assocFind n m = none) → l.Nodup →
      l.foldl (fun m n => Cppdep.assocUpd n (val n) m) m =
        m ++ l.map (fun n => (n, val n)) := by
  intro l
  induction l with
  | nil => exact fun m _ _ => (List.append_nil m).symm
  | cons n t ih =>
    intro m hfresh hnd
    rw [List.foldl_cons, assocUpd_fresh_append _ m (hfresh n (List.mem_cons_self _ _))]
    have hnd2 := List.nodup_cons.mp hnd
    have hfresh2 : ∀ k ∈ t, Cppdep.assocFind k (m ++ [(n, val n)]) = none := by
      intro k hk
      rw [assocFind_append, hfresh k (List.mem_cons_of_mem _ hk), Option.none_or]
      show (if n = k then some (val n) else Cppdep.assocFind k []) = none
      rw [if_neg (fun hc => hnd2.1 (by rw [hc]; exact hk))]
      rfl
    rw [ih _ hfresh2 hnd2.2]
    simp

/-- A fold accumulating additions computes the mapped sum. -/
lemma foldl_add_sum {α : Type} (f : α → Nat) :
    ∀ (l : List α) (init : Nat),
      l.foldl (fun acc e => acc + f e) init = init + (l.map f).sum := by
  intro l
  induction l with
  | nil => exact fun init => by simp
  | cons x t ih =>
    intro init
    rw [List.foldl_cons, ih, List.map_cons, List.sum_cons]
    omega

/-- The transitive-reduction fold, characterized: processing the pending node
list turns every processed node's out-edges into the non-redundant original
out-edges, where redundancy is judged in the original graph. -/
lemma foldl_reduceStep_edges_iff {g : Cppdep.DG}
    (hwf : Cppdep.Wf g) (hA : Cppdep.Acyclic g) :
    ∀ (l : List Cppdep.GNode) (h : Cppdep.DG),
      l.Nodup →
      (∀ e, e ∈ h.edges → e ∈ g.edges) →
      (∀ a b, Cppdep.Reach h a b ↔ Cppdep.Reach g a b) →
      (∀ x ∈ l, ∀ v, ((x, v) ∈ h.edges ↔ (x, v) ∈ g.edges)) →
      (∀ x, x ∉ l → ∀ v, ((x, v) ∈ h.edges ↔ (x, v) ∈ g.edges ∧
          ¬∃ w, (x, w) ∈ g.edges ∧ Cppdep.Reach g w v ∧ v ≠ w)) →
      ∀ e, e ∈ (l.foldl Cppdep.reduceStep h).edges ↔ e ∈ g.edges ∧
          ¬∃ w, (e.1, w) ∈ g.edges ∧ Cppdep.Reach g w e.2 ∧ e.2 ≠ w := by
  intro l
  induction l with
  | nil =>
    intro h _ _ _ _ hdone e
    exact hdone e.1 (List.not_mem_nil _) e.2
  | cons u l ih =>
    intro h hnd hsub hreach hout hdone
    have hnd2 := List.nodup_cons.mp hnd
    have hAh : Cppdep.Acyclic h := acyclic_of_subset hsub hA
    have hsub' : ∀ e, e ∈ (Cppdep.reduceStep h u).edges → e ∈ g.edges :=
      fun e he => hsub e (reduceStep_subset he)
    have hreach' : ∀ a b, Cppdep.Reach (Cppdep.reduceStep h u) a b ↔ Cppdep.Reach g a b :=
      fun a b => (reduceStep_reach_iff hAh).trans (hreach a b)
    have hout' : ∀ x ∈ l, ∀ v,
        ((x, v) ∈ (Cppdep.reduceStep h u).edges ↔ (x, v) ∈ g.edges) := by
      intro x hx v
      have hxu : x ≠ u := fun hc => hnd2.1 (hc ▸ hx)
      rw [mem_reduceStep]
      constructor
      · exact fun hh => (hout x (List.mem_cons_of_mem _ hx) v).mp hh.1
      · exact fun hg => ⟨(hout x (List.mem_cons_of_mem _ hx) v).mpr hg,
          fun hc => hxu hc.1⟩
    have hdone' : ∀ x, x ∉ l → ∀ v,
        ((x, v) ∈ (Cppdep.reduceStep h u).edges ↔ (x, v) ∈ g.edges ∧
          ¬∃ w, (x, w) ∈ g.edges ∧ Cppdep.Reach g w v ∧ v ≠ w) := by
      intro x hx v
      by_cases hxu : x = u
      · subst hxu
        rw [mem_reduceStep]
        have htv : ∀ v2, v2 ∈ Cppdep.tvList h x ↔
            ∃ w, (x, w) ∈ g.edges ∧ Cppdep.Reach g w v2 ∧ v2 ≠ w := by
          intro v2
          rw [mem_tvList]
          constructor
          · rintro ⟨w, hw, hr, hne⟩
            exact ⟨w, (hout x (List.mem_cons_self _ _) w).mp hw, (hreach w v2).mp hr, hne⟩
          · rintro ⟨w, hw, hr, hne⟩
            exact ⟨w, (hout x (List.mem_cons_self _ _) w).mpr hw, (hreach w v2).mpr hr, hne⟩
        constructor
        · rintro ⟨h1, h2⟩
          refine ⟨(hout x (List.mem_cons_self _ _) v).mp h1, fun hc => h2 ⟨rfl, ?_⟩⟩
          exact (htv v).mpr hc
        · rintro ⟨h1, h2⟩
          exact ⟨(hout x (List.mem_cons_self _ _) v).mpr h1,
            fun hc => h2 ((htv v).mp hc.2)⟩
      · have hx2 : x ∉ u :: l := by
          rw [List.mem_cons, not_or]
          exact ⟨hxu, hx⟩
        rw [mem_reduceStep]
        constructor
        · exact fun hh => (hdone x hx2 v).mp hh.1
        · exact fun hg => ⟨(hdone x hx2 v).mpr hg, fun hc => hxu hc.1⟩
    rw [List.foldl_cons]
    exact ih (Cppdep.reduceStep h u) hnd2.2 hsub' hreach' hout' hdone'

/-- `__transitive_reduction` keeps exactly the original edges that are not
covered by a path through another direct successor. -/
lemma transRed_edges_iff {g : Cppdep.DG}
    (hwf : Cppdep.Wf g) (hA : Cppdep.Acyclic g) (hnd : g.nodes.Nodup) :
    ∀ e, e ∈ (Cppdep.transRed g).edges ↔ e ∈ g.edges ∧
        ¬∃ w, (e.1, w) ∈ g.edges ∧ Cppdep.Reach g w e.2 ∧ e.2 ≠ w := by
  rw [Cppdep.transRed]
  refine foldl_reduceStep_edges_iff hwf hA g.nodes g hnd (fun e he => he)
    (fun a b => Iff.rfl) (fun x _ v => Iff.rfl) ?_
  intro x hx v
  constructor
  · exact fun he => absurd (hwf _ he).1 hx
  · exact fun he => absurd (hwf _ he.1).1 hx

/-- `condenseMembers` leaves the bookkeeping fields other than `node2cycle`
unchanged. -/
lemma condenseMembers_fields {rep : Cppdep.GNode} {members : List Cppdep.GNode} :
    ∀ (l : List Cppdep.GNode) (st : Cppdep.St) (pre suc : List (Cppdep.GNode × Cppdep.GNode))
      (st1 : Cppdep.St) (p1 s1 : List (Cppdep.GNode × Cppdep.GNode)),
      Cppdep.condenseMembers rep members st pre suc l = .ok (st1, p1, s1) →
      st1.cycle2index = st.cycle2index ∧ st1.node2cd = st.node2cd ∧
        st1.node2level = st.node2level := by
  intro l
  induction l with
  | nil =>
    intro st pre suc st1 p1 s1 h
    cases h
    exact ⟨rfl, rfl, rfl⟩
  | cons n l ih =>
    intro st pre suc st1 p1 s1 h
    rw [condenseMembers_cons] at h
    by_cases h1 : (Cppdep.assocFind n st.node2cycle).isSome = true
    · rw [if_pos h1] at h
      cases h
    · rw [if_neg h1] at h
      by_cases h2 : n ∉ st.digraph.nodes
      · rw [if_pos h2] at h
        cases h
      · rw [if_neg h2] at h
        exact ih (Cppdep.condStepSt rep members st n) _ _ _ _ _ h

/-- `condenseOne` leaves the bookkeeping fields other than `node2cycle` and
`cycles` unchanged, and keeps the digraph well-formed. -/
lemma condenseOne_fields {s s1 : Cppdep.St} {c : Cppdep.Cycle}
    (h : Cppdep.condenseOne s c = .ok s1) :
    s1.cycle2index = s.cycle2index ∧ s1.node2cd = s.node2cd ∧
      s1.node2level = s.node2level ∧ (Cppdep.Wf s.digraph → Cppdep.Wf s1.digraph) := by
  rw [Cppdep.condenseOne] at h
  cases hcm : Cppdep.condenseMembers (Cppdep.repOf c.members) c.members s [] [] c.members with
  | error e =>
    rw [hcm] at h
    cases h
  | ok r =>
    obtain ⟨st1, pre, suc⟩ := r
    rw [hcm] at h
    have h2 : (if (st1.cycles.any fun e => decide (e.1.members = c.members)) = true
        then (Except.error Cppdep.Err.cycleSeen : Except Cppdep.Err Cppdep.St)
        else Except.ok { st1 with cycles := st1.cycles ++ [(c, pre, suc)] }) =
        Except.ok s1 := h
    by_cases hany : (st1.cycles.any fun e => decide (e.1.members = c.members)) = true
    · rw [if_pos hany] at h2
      cases h2
    · rw [if_neg hany] at h2
      cases h2
      obtain ⟨f1, f2, f3⟩ := condenseMembers_fields c.members s [] [] st1 pre suc hcm
      exact ⟨f1, f2, f3, fun hwf => condenseMembers_wf c.members s [] [] st1 pre suc hcm hwf⟩

/-- The condensation fold appends the processed snapshots, in order, to the
recorded cycle list. -/
lemma condense_fold_cycles_fst :
    ∀ (T : List Cppdep.Cycle) (s s2 : Cppdep.St),
      T.foldlM Cppdep.condenseOne s = .ok s2 →
      s2.cycles.map (fun e => e.1) = s.cycles.map (fun e => e.1) ++ T := by
  intro T
  induction T with
  | nil =>
    intro s s2 h
    cases h
    rw [List.append_nil]
  | cons c T ih =>
    intro s s2 h
    rw [List.foldlM_cons] at h
    cases hone : Cppdep.condenseOne s c with
    | error e =>
      rw [hone] at h
      cases h
    | ok s1 =>
      rw [hone] at h
      obtain ⟨pre, suc, hcy⟩ := condenseOne_cycles hone
      rw [ih _ _ h, hcy]
      simp

/-- The condensation fold preserves the bookkeeping fields other than
`node2cycle` and `cycles`, and well-formedness. -/
lemma condense_fold_fields :
    ∀ (T : List Cppdep.Cycle) (s s2 : Cppdep.St),
      T.foldlM Cppdep.condenseOne s = .ok s2 →
      s2.cycle2index = s.cycle2index ∧ s2.node2cd = s.node2cd ∧
        s2.node2level = s.node2level ∧ (Cppdep.Wf s.digraph → Cppdep.Wf s2.digraph) := by
  intro T
  induction T with
  | nil =>
    intro s s2 h
    cases h
    exact ⟨rfl, rfl, rfl, fun hw => hw⟩
  | cons c T ih =>
    intro s s2 h
    rw [List.foldlM_cons] at h
    cases hone : Cppdep.condenseOne s c with
    | error e =>
      rw [hone] at h
      cases h
    | ok s1 =>
      rw [hone] at h
      obtain ⟨f1, f2, f3, f4⟩ := condenseOne_fields hone
      obtain ⟨g1, g2, g3, g4⟩ := ih _ _ h
      exact ⟨g1.trans f1, g2.trans f2, g3.trans f3, fun hw => g4 (f4 hw)⟩

/-- The member loop records exactly its member list in `node2cycle`. -/
lemma condenseMembers_n2c_find {rep : Cppdep.GNode} {members : List Cppdep.GNode} :
    ∀ (l : List Cppdep.GNode) (st : Cppdep.St) (pre suc : List (Cppdep.GNode × Cppdep.GNode))
      (st1 : Cppdep.St) (p1 s1 : List (Cppdep.GNode × Cppdep.GNode)),
      Cppdep.condenseMembers rep members st pre suc l = .ok (st1, p1, s1) →
      ∀ k, Cppdep.assocFind k st1.node2cycle =
        if k ∈ l then some rep else Cppdep.assocFind k st.node2cycle := by
  intro l
  induction l with
  | nil =>
    intro st pre suc st1 p1 s1 h k
    cases h
    rw [if_neg (List.not_mem_nil k)]
  | cons n l ih =>
    intro st pre suc st1 p1 s1 h k
    rw [condenseMembers_cons] at h
    by_cases h1 : (Cppdep.assocFind n st.node2cycle).isSome = true
    · rw [if_pos h1] at h
      cases h
    · rw [if_neg h1] at h
      by_cases h2 : n ∉ st.digraph.nodes
      · rw [if_pos h2] at h
        cases h
      · rw [if_neg h2] at h
        rw [ih _ _ _ _ _ _ h k]
        by_cases hkl : k ∈ l
        · rw [if_pos hkl, if_pos (List.mem_cons_of_mem _ hkl)]
        · rw [if_neg hkl]
          by_cases hkn : k = n
          · subst hkn
            rw [if_pos (List.mem_cons_self _ _)]
            show Cppdep.assocFind k (Cppdep.assocUpd k rep st.node2cycle) = some rep
            exact assocFind_upd_self _ _ _
          · rw [if_neg (fun hc => (List.mem_cons.mp hc).elim hkn hkl)]
            show Cppdep.assocFind k (Cppdep.assocUpd n rep st.node2cycle) =
              Cppdep.assocFind k st.node2cycle
            exact assocFind_upd_other _ hkn _

/-- `find?` over a cons whose head matches, with the predicate explicit. -/
lemma find?_cons_pos {α : Type} (p : α → Bool) {a : α} (l : List α) (h : p a = true) :
    (a :: l).find? p = some a :=
  List.find?_cons_of_pos l h

/-- `find?` over a cons whose head fails, with the predicate explicit. -/
lemma find?_cons_neg {α : Type} (p : α → Bool) {a : α} (l : List α) (h : p a = false) :
    (a :: l).find? p = l.find? p :=
  List.find?_cons_of_neg l (by rw [h]; exact Bool.false_ne_true)

/-- The condensation fold's `node2cycle` lookup, for member-disjoint
snapshot lists: members map to their snapshot's representative, other keys
keep their prior binding. -/
lemma condense_fold_n2c :
    ∀ (T : List Cppdep.Cycle) (s s2 : Cppdep.St),
      T.foldlM Cppdep.condenseOne s = .ok s2 →
      List.Pairwise (fun c1 c2 => ∀ x ∈ c1.members, x ∉ c2.members) T →
      ∀ k, Cppdep.assocFind k s2.node2cycle =
        match T.find? (fun c => decide (k ∈ c.members)) with
        | some c => some (Cppdep.repOf c.members)
        | none => Cppdep.assocFind k s.node2cycle := by
  intro T
  induction T with
  | nil =>
    intro s s2 h _ k
    cases h
    rfl
  | cons c T ih =>
    intro s s2 h hdisj k
    rw [List.foldlM_cons] at h
    cases hone : Cppdep.condenseOne s c with
    | error e =>
      rw [hone] at h
      cases h
    | ok s1 =>
      rw [hone] at h
      have hpw := List.pairwise_cons.mp hdisj
      have hn2c1 : ∀ k2, Cppdep.assocFind k2 s1.node2cycle =
          if k2 ∈ c.members then some (Cppdep.repOf c.members)
          else Cppdep.assocFind k2 s.node2cycle := by
        rw [Cppdep.condenseOne] at hone
        cases hcm : Cppdep.condenseMembers (Cppdep.repOf c.members) c.members s [] []
            c.members with
        | error e =>
          rw [hcm] at hone
          cases hone
        | ok r =>
          obtain ⟨st1, pre, suc⟩ := r
          rw [hcm] at hone
          have h2 : (if (st1.cycles.any fun e => decide (e.1.members = c.members)) = true
              then (Except.error Cppdep.Err.cycleSeen : Except Cppdep.Err Cppdep.St)
              else Except.ok { st1 with cycles := st1.cycles ++ [(c, pre, suc)] }) =
              Except.ok s1 := hone
          by_cases hany : (st1.cycles.any fun e => decide (e.1.members = c.members)) = true
          · rw [if_pos hany] at h2
            cases h2
          · rw [if_neg hany] at h2
            cases h2
            exact condenseMembers_n2c_find c.members s [] [] st1 pre suc hcm
      rw [ih _ _ h hpw.2 k]
      by_cases hk : k ∈ c.members
      · have hpc : (fun c2 : Cppdep.Cycle => decide (k ∈ c2.members)) c = true := by
          show decide (k ∈ c.members) = true
          exact decide_eq_true hk
        rw [find?_cons_pos (fun c2 : Cppdep.Cycle => decide (k ∈ c2.members)) T hpc]
        have hnone : T.find? (fun c2 => decide (k ∈ c2.members)) = none := by
          rw [List.find?_eq_none]
          intro c2 hc2
          show ¬ decide (k ∈ c2.members) = true
          rw [decide_eq_true_eq]
          exact hpw.1 c2 hc2 k hk
        rw [hnone]
        show Cppdep.assocFind k s1.node2cycle = some (Cppdep.repOf c.members)
        rw [hn2c1 k, if_pos hk]
      · have hpc : (fun c2 : Cppdep.Cycle => decide (k ∈ c2.members)) c = false := by
          show decide (k ∈ c.members) = false
          exact decide_eq_false hk
        rw [find?_cons_neg (fun c2 : Cppdep.Cycle => decide (k ∈ c2.members)) T hpc]
        cases hf : T.find? (fun c2 => decide (k ∈ c2.members)) with
        | some c2 => rfl
        | none =>
          show Cppdep.assocFind k s1.node2cycle = Cppdep.assocFind k s.node2cycle
          rw [hn2c1 k, if_neg hk]

/-- One decondensation step only changes the digraph. -/
lemma decondenseOne_fields {s s1 : Cppdep.St} {ce : Cppdep.CycleEntry}
    (h : Cppdep.decondenseOne s ce = .ok s1) :
    s1.cycles = s.cycles ∧ s1.cycle2index = s.cycle2index ∧
      s1.node2cycle = s.node2cycle ∧ s1.node2cd = s.node2cd ∧
      s1.node2level = s.node2level := by
  rw [Cppdep.decondenseOne] at h
  simp only [] at h
  by_cases hrep : Cppdep.repOf ce.1.members ∉ s.digraph.nodes
  · rw [if_pos hrep] at h
    cases h
  · rw [if_neg hrep] at h
    cases h
    exact ⟨rfl, rfl, rfl, rfl, rfl⟩

/-- Decondensation only changes the digraph. -/
lemma decondense_fields {st st1 : Cppdep.St}
    (h : Cppdep.decondense st = .ok st1) :
    st1.cycles = st.cycles ∧ st1.cycle2index = st.cycle2index ∧
      st1.node2cycle = st.node2cycle ∧ st1.node2cd = st.node2cd ∧
      st1.node2level = st.node2level := by
  rw [Cppdep.decondense] at h
  exact except_foldlM_inv
    (fun s2 => s2.cycles = st.cycles ∧ s2.cycle2index = st.cycle2index ∧
      s2.node2cycle = st.node2cycle ∧ s2.node2cd = st.node2cd ∧
      s2.node2level = st.node2level)
    st.cycles Cppdep.decondenseOne
    (fun s b s2 _ hP hone => by
      obtain ⟨f1, f2, f3, f4, f5⟩ := decondenseOne_fields hone
      exact ⟨f1.trans hP.1, f2.trans hP.2.1, f3.trans hP.2.2.1, f4.trans hP.2.2.2.1,
        f5.trans hP.2.2.2.2⟩)
    st st1 ⟨rfl, rfl, rfl, rfl, rfl⟩ h

/-- `condense` decomposed into its fold and the index assignment. -/
lemma condense_parts {st stc : Cppdep.St} (h : Cppdep.condense st = .ok stc) :
    ∃ s1, (Cppdep.sccSnapshots st).foldlM Cppdep.condenseOne st = .ok s1 ∧
      stc = { s1 with cycle2index := Cppdep.indexCycles s1.cycles } := by
  rw [Cppdep.condense] at h
  cases hres : (Cppdep.sccSnapshots st).foldlM Cppdep.condenseOne st with
  | error e =>
    rw [hres] at h
    cases h
  | ok s1 =>
    rw [hres] at h
    cases h
    exact ⟨s1, rfl, rfl⟩

/-- Snapshot members are nodes of the snapshotted digraph. -/
lemma snapshot_members_sub {st : Cppdep.St} {c : Cppdep.Cycle}
    (hc : c ∈ Cppdep.sccSnapshots st) : ∀ m ∈ c.members, m ∈ st.digraph.nodes := by
  intro m hm
  obtain ⟨hmemsL, _⟩ := snapshot_members_mem hc
  obtain ⟨n0, _, hscc⟩ := sccList_mem hmemsL
  rw [hscc] at hm
  exact (mem_sccOf.mp hm).1

/-- Distinct snapshots have disjoint member lists. -/
lemma snapshots_pairwise_disjoint {st : Cppdep.St} :
    List.Pairwise (fun c1 c2 => ∀ x ∈ c1.members, x ∉ c2.members)
      (Cppdep.sccSnapshots st) := by
  have hnd := @sccSnapshots_nodup st
  exact List.Pairwise.imp_of_mem
    (fun ha hb hne x hxa hxb => hne (snapshot_overlap ha hb hxa hxb)) hnd

/-- Two option values with equal images agree on a match with a default. -/
lemma option_match_eq {α : Type} {oA oB : Option α} (f : α → Nat) (d : Nat)
    (h : oA.map f = oB.map f) :
    (match oA with | some e => f e | none => d) =
    (match oB with | some e => f e | none => d) := by
  cases oA with
  | none =>
    cases oB with
    | none => rfl
    | some b => simp at h
  | some a =>
    cases oB with
    | none => simp at h
    | some b =>
      have h2 : f a = f b := by
        simp only [Option.map_some'] at h
        exact Option.some.inj h
      exact h2

/-- Every snapshot of one digraph corresponds to a snapshot of any digraph
with the same node and edge sets, with the same member set. -/
lemma snapshot_corr {stA stB : Cppdep.St}
    (hndA : stA.digraph.nodes.Nodup) (hndB : stB.digraph.nodes.Nodup)
    (hnodes : ∀ x, x ∈ stA.digraph.nodes ↔ x ∈ stB.digraph.nodes)
    (hedges : ∀ e, e ∈ stA.digraph.edges ↔ e ∈ stB.digraph.edges) :
    ∀ cA ∈ Cppdep.sccSnapshots stA, ∃ cB ∈ Cppdep.sccSnapshots stB,
      ∀ x, x ∈ cA.members ↔ x ∈ cB.members := by
  intro cA hcA
  obtain ⟨hmemsL, hlen⟩ := snapshot_members_mem hcA
  obtain ⟨n0, hn0N, hscc⟩ := sccList_mem hmemsL
  have hsccset : ∀ x, x ∈ stA.digraph.sccOf n0 ↔ x ∈ stB.digraph.sccOf n0 := by
    intro x
    rw [mem_sccOf, mem_sccOf]
    constructor
    · rintro ⟨h1, h2, h3⟩
      exact ⟨(hnodes x).mp h1, (reach_congr hedges).mp h2, (reach_congr hedges).mp h3⟩
    · rintro ⟨h1, h2, h3⟩
      exact ⟨(hnodes x).mpr h1, (reach_congr hedges).mpr h2, (reach_congr hedges).mpr h3⟩
  have hn0B : n0 ∈ stB.digraph.nodes := (hnodes n0).mp hn0N
  obtain ⟨cB', hcB'L, hn0cB'⟩ := sccList_covers hn0B
  obtain ⟨n1, hn1N, hscc1⟩ := sccList_mem hcB'L
  have hcB'eq : stB.digraph.sccOf n0 = cB' := by
    rw [hscc1]
    exact sccOf_congr_lists (hscc1 ▸ hn0cB')
  have hmemiff : ∀ x, x ∈ cA.members ↔ x ∈ cB' := by
    intro x
    rw [hscc, ← hcB'eq]
    exact hsccset x
  have hndA' : cA.members.Nodup := by
    rw [hscc]
    exact hndA.filter _
  have hndB' : cB'.Nodup := by
    rw [← hcB'eq]
    exact hndB.filter _
  have hperm : cA.members.Perm cB' := (List.perm_ext_iff_of_nodup hndA' hndB').mpr hmemiff
  have hlenB : 2 ≤ cB'.length := by
    rw [← hperm.length_eq]
    exact hlen
  have hcyB : ({ members := cB', intra := stB.digraph.edges.filter (fun e => decide (e.1 ∈ cB') && decide (e.2 ∈ cB')) } : Cppdep.Cycle) ∈ Cppdep.sccSnapshots stB := by
    rw [Cppdep.sccSnapshots]
    exact List.mem_map.mpr ⟨cB', List.mem_filter.mpr ⟨hcB'L, decide_eq_true hlenB⟩, rfl⟩
  exact ⟨_, hcyB, hmemiff⟩

/-- The node set of the final graph of one successful `analyze` run on a
fresh, well-formed, all-base instance is exactly the input node set. -/
lemma analyze_final_nodes (isExt : Nat → Bool) (st st1 : Cppdep.St)
    (hwf : Cppdep.Wf st.digraph)
    (hnd : st.digraph.nodes.Nodup)
    (hbase : ∀ n ∈ st.digraph.nodes, n.isBase = true)
    (hcy : st.cycles = [])
    (hn2c : st.node2cycle = [])
    (h1 : Cppdep.analyze isExt st = .ok st1) :
    ∀ x, x ∈ st1.digraph.nodes ↔ x ∈ st.digraph.nodes := by
  obtain ⟨hsl, stc, hcond, hdag, hdec⟩ := analyze_ok_pieces h1
  have hE0b : ∀ e ∈ st.digraph.edges, e.1.isBase = true ∧ e.2.isBase = true :=
    fun e he => ⟨hbase _ (hwf e he).1, hbase _ (hwf e he).2⟩
  have hsnapbase := snapshot_members_base hbase
  have hinit : Cppdep.CondInv st.digraph.edges (Cppdep.sccSnapshots st) st := by
    refine ⟨?_, ?_, ?_, ?_, ?_, hnd⟩
    · intro e he
      exact Or.inl ⟨(hE0b e he).1, (hE0b e he).2, he⟩
    · intro k v hk
      rw [hn2c] at hk
      cases hk
    · intro ce hce
      rw [hcy] at hce
      exact absurd hce (List.not_mem_nil ce)
    · intro ce hce
      rw [hcy] at hce
      exact absurd hce (List.not_mem_nil ce)
    · intro D ce T hsp
      rw [hcy] at hsp
      simp at hsp
  obtain ⟨C1, C2, C3, C4, C5, C6⟩ := condense_CondInv hcond hsnapbase hinit
  have hcov := condense_covers hcond
  have hfold : stc.cycles.foldlM Cppdep.decondenseOne (Cppdep.calcLevels isExt (Cppdep.calcCcd isExt { stc with digraph := Cppdep.transRed stc.digraph })) = .ok st1 := hdec
  have hn2cstd : ∀ k v, Cppdep.assocFind k (Cppdep.calcLevels isExt (Cppdep.calcCcd isExt { stc with digraph := Cppdep.transRed stc.digraph })).node2cycle = some v → k.isBase = true := C2
  have hedges0 : ∀ e ∈ (Cppdep.calcLevels isExt (Cppdep.calcCcd isExt { stc with digraph := Cppdep.transRed stc.digraph })).digraph.edges,
      (e.1.isBase = true ∧ e.2.isBase = true ∧ e ∈ st.digraph.edges) ∨
      ∃ ce ∈ stc.cycles, e.1 = Cppdep.repOf ce.1.members ∨ e.2 = Cppdep.repOf ce.1.members := by
    intro e he
    have he2 : e ∈ (Cppdep.transRed stc.digraph).edges := he
    rw [Cppdep.transRed] at he2
    exact C1 e (foldl_reduceStep_subset _ _ e he2)
  have HLintra : ∀ ce ∈ stc.cycles, ∀ uv ∈ ce.1.intra, uv ∈ st.digraph.edges :=
    fun ce hce => snapshot_intra_sub (C4 ce hce)
  have HLmem : ∀ ce ∈ stc.cycles, ∀ m ∈ ce.1.members, m.isBase = true :=
    fun ce hce => snapshot_members_base hbase ce.1 (C4 ce hce)
  obtain ⟨F1, F2, F3, F4, F5, F6, F7, F8, F9⟩ :=
    decondense_go hE0b C5 HLintra HLmem stc.cycles [] (Cppdep.calcLevels isExt (Cppdep.calcCcd isExt { stc with digraph := Cppdep.transRed stc.digraph })) st1 rfl
      (fun ce hce => absurd hce (List.not_mem_nil ce))
      (fun ce hce => absurd hce (List.not_mem_nil ce)) hn2cstd hedges0 hfold
  have hnosl : ∀ e ∈ st.digraph.edges, e.1 ≠ e.2 := by
    intro e he heq
    have hany : st.digraph.edges.any (fun e => decide (e.1 = e.2)) = true :=
      List.any_eq_true.mpr ⟨e, he, decide_eq_true heq⟩
    rw [hsl] at hany
    exact Bool.false_ne_true hany
  obtain ⟨s1f, hfoldc, hstceq⟩ := condense_parts hcond
  have hIE0 : ∀ e, e ∈ st.digraph.edges ↔ ∃ u v, (u, v) ∈ st.digraph.edges ∧
      e = (Cppdep.cmap [] u, Cppdep.cmap [] v) ∧ Cppdep.cmap [] u ≠ Cppdep.cmap [] v := by
    intro e
    constructor
    · intro he
      exact ⟨e.1, e.2, he, rfl, hnosl e he⟩
    · rintro ⟨u, v, hE, heq, hne⟩
      rw [heq]
      exact hE
  have hIN0 : ∀ x, x ∈ st.digraph.nodes ↔
      ((x ∈ st.digraph.nodes ∧ Cppdep.cmap [] x = x) ∨
       ∃ c ∈ ([] : List Cppdep.Cycle), x = Cppdep.repOf c.members ∧
         ∃ uv ∈ st.digraph.edges,
           (uv.1 ∈ c.members ∧ uv.2 ∉ c.members) ∨
           (uv.2 ∈ c.members ∧ uv.1 ∉ c.members)) := by
    intro x
    constructor
    · exact fun hx => Or.inl ⟨hx, rfl⟩
    · rintro (⟨hx, _⟩ | ⟨c, hc, _⟩)
      · exact hx
      · exact absurd hc (List.not_mem_nil c)
  obtain ⟨hINe, hINn⟩ := condense_go hbase hnd hwf (Cppdep.sccSnapshots st) [] st s1f
    (List.nil_append _).symm hIE0 hIN0 hwf hfoldc
  simp only [List.nil_append] at hINn
  have hdgeq : stc.digraph = s1f.digraph := by rw [hstceq]
  have hF9 : ∀ ce ∈ stc.cycles, Cppdep.repOf ce.1.members ∉ st1.digraph.nodes := by
    intro ce hce
    refine F9 ce ?_
    rw [List.nil_append]
    exact hce
  have hfinal_nodes : ∀ x, x ∈ st1.digraph.nodes ↔ x ∈ st.digraph.nodes := by
    intro x
    constructor
    · intro hx
      rcases F8 x hx with hx2 | ⟨ce, hce, hxm⟩ | ⟨e2, he2, hend⟩
      · have hx4 : x ∈ (Cppdep.transRed stc.digraph).nodes := hx2
        rw [Cppdep.transRed, foldl_reduceStep_nodes] at hx4
        rw [hdgeq] at hx4
        rcases (hINn x).mp hx4 with ⟨hxN, _⟩ | ⟨cx, hcx, hxrep, _⟩
        · exact hxN
        · exfalso
          obtain ⟨pre2, suc2, hent2⟩ := hcov cx hcx
          have hdead := hF9 (cx, pre2, suc2) hent2
          rw [← hxrep] at hdead
          exact hdead hx
      · exact snapshot_members_sub (C4 ce hce) _ hxm
      · rcases hend with hend | hend
        · rw [hend]
          exact (hwf e2 he2).1
        · rw [hend]
          exact (hwf e2 he2).2
    · intro hxN
      by_cases hxs : ∃ c ∈ Cppdep.sccSnapshots st, x ∈ c.members
      · obtain ⟨cx, hcx, hxm⟩ := hxs
        obtain ⟨pre2, suc2, hent2⟩ := hcov cx hcx
        exact F5 (cx, pre2, suc2) hent2 x hxm (hbase x hxN)
      · push_neg at hxs
        have hx3 : x ∈ stc.digraph.nodes := by
          rw [hdgeq]
          exact (hINn x).mpr (Or.inl ⟨hxN, cmap_eq_self (fun c hc => hxs c hc)⟩)
        have hx4 : x ∈ (Cppdep.calcLevels isExt (Cppdep.calcCcd isExt { stc with digraph := Cppdep.transRed stc.digraph })).digraph.nodes := by
          show x ∈ (Cppdep.transRed stc.digraph).nodes
          rw [Cppdep.transRed, foldl_reduceStep_nodes]
          exact hx3
        exact F3 x hx4 (hbase x hxN)
  exact hfinal_nodes

/-- The member-count image of the first cycle entry matching a representative
agrees across two entry lists whose cycles correspond with equal
representatives and member counts. -/
lemma cycles_find_len_corr {LA LB : List Cppdep.CycleEntry}
    (corrAB : ∀ eA ∈ LA, ∃ eB ∈ LB,
      Cppdep.repOf eB.1.members = Cppdep.repOf eA.1.members ∧
      eB.1.members.length = eA.1.members.length)
    (corrBA : ∀ eB ∈ LB, ∃ eA ∈ LA,
      Cppdep.repOf eA.1.members = Cppdep.repOf eB.1.members ∧
      eA.1.members.length = eB.1.members.length)
    (repLenB : ∀ e1 ∈ LB, ∀ e2 ∈ LB,
      Cppdep.repOf e1.1.members = Cppdep.repOf e2.1.members →
      e1.1.members.length = e2.1.members.length) :
    ∀ n, (LA.find? (fun e => decide (Cppdep.repOf e.1.members = n))).map
        (fun e => e.1.members.length) =
      (LB.find? (fun e => decide (Cppdep.repOf e.1.members = n))).map
        (fun e => e.1.members.length) := by
  intro n
  cases hfa : LA.find? (fun e => decide (Cppdep.repOf e.1.members = n)) with
  | none =>
    cases hfb : LB.find? (fun e => decide (Cppdep.repOf e.1.members = n)) with
    | none => rfl
    | some eB =>
      exfalso
      have hmem := List.mem_of_find?_eq_some hfb
      have hpred := List.find?_some hfb
      rw [decide_eq_true_eq] at hpred
      obtain ⟨eA, heA, hrep, _⟩ := corrBA eB hmem
      have h2 := List.find?_eq_none.mp hfa eA heA
      rw [decide_eq_true_eq] at h2
      exact h2 (by rw [hrep, hpred])
  | some eA =>
    have hmemA := List.mem_of_find?_eq_some hfa
    have hpredA := List.find?_some hfa
    rw [decide_eq_true_eq] at hpredA
    obtain ⟨eB, heB, hrepB, hlenB⟩ := corrAB eA hmemA
    cases hfb : LB.find? (fun e => decide (Cppdep.repOf e.1.members = n)) with
    | none =>
      exfalso
      have h2 := List.find?_eq_none.mp hfb eB heB
      rw [decide_eq_true_eq] at h2
      exact h2 (by rw [hrepB, hpredA])
    | some eB2 =>
      have hmemB2 := List.mem_of_find?_eq_some hfb
      have hpredB2 := List.find?_some hfb
      rw [decide_eq_true_eq] at hpredB2
      have hlen2 : eB2.1.members.length = eB.1.members.length :=
        repLenB eB2 hmemB2 eB heB (by rw [hpredB2, ← hpredA, hrepB])
      show some eA.1.members.length = some eB2.1.members.length
      rw [hlen2, hlenB]

/-- The CCD total of `print_summary` over an explicit value table. -/
lemma ccdOf_map_pairs (st : Cppdep.St) (l : List Cppdep.GNode) (f : Cppdep.GNode → Nat)
    (h : st.node2cd = l.map (fun n => (n, f n))) :
    Cppdep.ccdOf st = (l.map (fun n =>
      match st.cycles.find? (fun c => decide (Cppdep.repOf c.1.members = n)) with
      | some c => c.1.members.length * f n
      | none => f n)).sum := by
  have h1 : Cppdep.ccdOf st = 0 + (st.node2cd.map (fun (e : Cppdep.GNode × Nat) =>
      match st.cycles.find? (fun c => decide (Cppdep.repOf c.1.members = e.1)) with
      | some c => c.1.members.length * e.2
      | none => e.2)).sum := foldl_add_sum _ st.node2cd 0
  rw [h1, h, Nat.zero_add, List.map_map]
  exact congrArg List.sum (List.map_congr_left (fun n _ => rfl))

/-- `_get_level` values agree across two states whose digraphs have the same
edge set and whose base levels agree, by induction on the descendant count. -/
lemma levelVal_corr_aux {isExt : Nat → Bool} {stA stB : Cppdep.St}
    (hAA : Cppdep.Acyclic stA.digraph) (hAB : Cppdep.Acyclic stB.digraph)
    (hE : ∀ e, e ∈ stA.digraph.edges ↔ e ∈ stB.digraph.edges)
    (hbase : ∀ n, Cppdep.levelBase isExt stA n = Cppdep.levelBase isExt stB n) :
    ∀ (k : Nat) (n : Cppdep.GNode), Cppdep.descCard stA.digraph n < k →
      Cppdep.levelVal isExt stA n = Cppdep.levelVal isExt stB n := by
  intro k
  induction k with
  | zero => exact fun n h => absurd h (Nat.not_lt_zero _)
  | succ k ih =>
    intro n hn
    rw [levelVal_rec hAA n, levelVal_rec hAB n]
    have hsucc : ∀ v, v ∈ stA.digraph.succs n ↔ v ∈ stB.digraph.succs n := by
      intro v
      rw [mem_succs, mem_succs]
      exact hE (n, v)
    by_cases hempty : stA.digraph.succs n = []
    · have hemptyB : stB.digraph.succs n = [] := by
        rw [List.eq_nil_iff_forall_not_mem]
        intro v hv
        rw [List.eq_nil_iff_forall_not_mem] at hempty
        exact hempty v ((hsucc v).mpr hv)
      rw [if_pos hempty, if_pos hemptyB]
      exact hbase n
    · have hemptyB : stB.digraph.succs n ≠ [] := by
        intro hB
        refine hempty ?_
        rw [List.eq_nil_iff_forall_not_mem]
        intro v hv
        rw [List.eq_nil_iff_forall_not_mem] at hB
        exact hB v ((hsucc v).mp hv)
      rw [if_neg hempty, if_neg hemptyB, hbase n]
      refine congrArg (fun m => Cppdep.levelBase isExt stB n + m) ?_
      apply maxList_congr
      intro x
      constructor
      · intro hx
        obtain ⟨v, hv, hfv⟩ := List.mem_map.mp hx
        have hvE : (n, v) ∈ stA.digraph.edges := mem_succs.mp hv
        have hd := descCard_lt_of_edge hAA hvE
        have hval := ih v (by omega)
        refine List.mem_map.mpr ⟨v, (hsucc v).mp hv, ?_⟩
        rw [← hval]
        exact hfv
      · intro hx
        obtain ⟨v, hv, hfv⟩ := List.mem_map.mp hx
        have hvB : v ∈ stA.digraph.succs n := (hsucc v).mpr hv
        have hvE : (n, v) ∈ stA.digraph.edges := mem_succs.mp hvB
        have hd := descCard_lt_of_edge hAA hvE
        have hval := ih v (by omega)
        refine List.mem_map.mpr ⟨v, hvB, ?_⟩
        rw [hval]
        exact hfv

/-- The running string-minimum fold: its result is the initial accumulator or
one of the entries, and it is a lower bound for both. -/
lemma keyFold_min :
    ∀ (l : List Nat) (acc : List Nat),
      ∃ r, l.foldl (fun acc m => if Cppdep.lexLt (Cppdep.decStr m) acc
            then Cppdep.decStr m else acc) acc = r ∧
        (r = acc ∨ ∃ m ∈ l, r = Cppdep.decStr m) ∧
        Cppdep.lexLt acc r = false ∧
        (∀ m ∈ l, Cppdep.lexLt (Cppdep.decStr m) r = false) := by
  intro l
  induction l with
  | nil =>
    intro acc
    exact ⟨acc, rfl, Or.inl rfl, lexLt_irrefl acc,
      fun m hm => absurd hm (List.not_mem_nil m)⟩
  | cons m0 l ih =>
    intro acc
    by_cases hfire : Cppdep.lexLt (Cppdep.decStr m0) acc = true
    · obtain ⟨r, hr, hprov, hacc, hall⟩ := ih (Cppdep.decStr m0)
      refine ⟨r, ?_, ?_, ?_, ?_⟩
      · rw [List.foldl_cons, if_pos hfire]
        exact hr
      · rcases hprov with h | ⟨m, hm, hres⟩
        · exact Or.inr ⟨m0, List.mem_cons_self _ _, h⟩
        · exact Or.inr ⟨m, List.mem_cons_of_mem _ hm, hres⟩
      · cases hres : Cppdep.lexLt acc r with
        | false => rfl
        | true =>
          exfalso
          have htr := lexLt_trans _ _ _ hfire hres
          rw [htr] at hacc
          exact Bool.noConfusion hacc
      · intro m hm
        rcases List.mem_cons.mp hm with rfl | hml
        · exact hacc
        · exact hall m hml
    · have hfire2 : Cppdep.lexLt (Cppdep.decStr m0) acc = false :=
        Bool.eq_false_iff.mpr hfire
      obtain ⟨r, hr, hprov, hacc, hall⟩ := ih acc
      refine ⟨r, ?_, ?_, hacc, ?_⟩
      · rw [List.foldl_cons, if_neg hfire]
        exact hr
      · rcases hprov with h | ⟨m, hm, hres⟩
        · exact Or.inl h
        · exact Or.inr ⟨m, List.mem_cons_of_mem _ hm, hres⟩
      · intro m hm
        rcases List.mem_cons.mp hm with rfl | hml
        · cases hres : Cppdep.lexLt (Cppdep.decStr m) r with
          | false => rfl
          | true =>
            exfalso
            rcases lexLt_trichot r acc with h | h | h
            · have htr := lexLt_trans _ _ _ hres h
              rw [htr] at hfire2
              exact Bool.noConfusion hfire2
            · rw [h] at hacc
              exact Bool.noConfusion hacc
            · rw [h] at hres
              rw [hres] at hfire2
              exact Bool.noConfusion hfire2
        · exact hall m hml

/-- `min(str(u) for u in cycle)` is attained at a member and bounds every
member from below. -/
lemma cycleKey_spec {c : Cppdep.Cycle} (hne : c.members ≠ []) :
    (∃ m ∈ c.members, Cppdep.cycleKey c = Cppdep.decStr (Cppdep.baseId m)) ∧
    (∀ m ∈ c.members,
      Cppdep.lexLt (Cppdep.decStr (Cppdep.baseId m)) (Cppdep.cycleKey c) = false) := by
  cases hmap : c.members.map Cppdep.baseId with
  | nil =>
    rw [List.map_eq_nil] at hmap
    exact absurd hmap hne
  | cons n rest =>
    have hkey : Cppdep.cycleKey c = rest.foldl
        (fun acc m => if Cppdep.lexLt (Cppdep.decStr m) acc then Cppdep.decStr m else acc)
        (Cppdep.decStr n) := by
      rw [Cppdep.cycleKey, hmap]
    obtain ⟨r, hr, hprov, hacc, hall⟩ := keyFold_min rest (Cppdep.decStr n)
    rw [hr] at hkey
    constructor
    · rcases hprov with h | ⟨m0, hm0, hres⟩
      · have hnmem : n ∈ c.members.map Cppdep.baseId := by
          rw [hmap]
          exact List.mem_cons_self _ _
        obtain ⟨m, hm, hbm⟩ := List.mem_map.mp hnmem
        refine ⟨m, hm, ?_⟩
        rw [hkey, h, hbm]
      · have hm0mem : m0 ∈ c.members.map Cppdep.baseId := by
          rw [hmap]
          exact List.mem_cons_of_mem _ hm0
        obtain ⟨m, hm, hbm⟩ := List.mem_map.mp hm0mem
        refine ⟨m, hm, ?_⟩
        rw [hkey, hres, hbm]
    · intro m hm
      have hmmem : Cppdep.baseId m ∈ c.members.map Cppdep.baseId :=
        List.mem_map.mpr ⟨m, hm, rfl⟩
      rw [hmap, List.mem_cons] at hmmem
      rw [hkey]
      rcases hmmem with h | h
      · rw [h]
        exact hacc
      · exact hall _ h

/-- Cycles with the same nonempty member set have the same key. -/
lemma cycleKey_congr {c1 c2 : Cppdep.Cycle} (hne1 : c1.members ≠ [])
    (hne2 : c2.members ≠ [])
    (hset : ∀ x, x ∈ c1.members ↔ x ∈ c2.members) :
    Cppdep.cycleKey c1 = Cppdep.cycleKey c2 := by
  obtain ⟨⟨m1, hm1, hk1⟩, hmin1⟩ := cycleKey_spec hne1
  obtain ⟨⟨m2, hm2, hk2⟩, hmin2⟩ := cycleKey_spec hne2
  have h12 : Cppdep.lexLt (Cppdep.cycleKey c1) (Cppdep.cycleKey c2) = false := by
    rw [hk1]
    exact hmin2 m1 ((hset m1).mp hm1)
  have h21 : Cppdep.lexLt (Cppdep.cycleKey c2) (Cppdep.cycleKey c1) = false := by
    rw [hk2]
    exact hmin1 m2 ((hset m2).mpr hm2)
  exact lexLt_antisymm h12 h21

/-- Cycles over disjoint nonempty base member sets have distinct keys. -/
lemma cycleKey_ne_of_disjoint {c1 c2 : Cppdep.Cycle}
    (hne1 : c1.members ≠ []) (hne2 : c2.members ≠ [])
    (hb1 : ∀ m ∈ c1.members, m.isBase = true)
    (hb2 : ∀ m ∈ c2.members, m.isBase = true)
    (hdisj : ∀ x ∈ c1.members, x ∉ c2.members) :
    Cppdep.cycleKey c1 ≠ Cppdep.cycleKey c2 := by
  obtain ⟨⟨m1, hm1, hk1⟩, _⟩ := cycleKey_spec hne1
  obtain ⟨⟨m2, hm2, hk2⟩, _⟩ := cycleKey_spec hne2
  intro heq
  rw [hk1, hk2] at heq
  have hids : Cppdep.baseId m1 = Cppdep.baseId m2 := decStr_inj heq
  have hm12 : m1 = m2 := by
    rw [isBase_eq_base (hb1 m1 hm1), isBase_eq_base (hb2 m2 hm2), hids]
  exact hdisj m1 hm1 (hm12 ▸ hm2)

/-- Mapping a function of the element over an enumeration only depends on the
mapped list. -/
lemma enumFrom_map_snd {α β : Type} (g : α → β) :
    ∀ (l1 l2 : List α) (n : Nat), l1.map g = l2.map g →
      (l1.enumFrom n).map (fun p => (g p.2, p.1)) =
        (l2.enumFrom n).map (fun p => (g p.2, p.1)) := by
  intro l1
  induction l1 with
  | nil =>
    intro l2 n h
    cases l2 with
    | nil => rfl
    | cons b t => simp at h
  | cons a t1 ih =>
    intro l2 n h
    cases l2 with
    | nil => simp at h
    | cons b t2 =>
      rw [List.map_cons, List.map_cons] at h
      have h1 : g a = g b := (List.cons.injEq _ _ _ _ ▸ h).1
      have h2 : t1.map g = t2.map g := (List.cons.injEq _ _ _ _ ▸ h).2
      rw [List.enumFrom_cons, List.enumFrom_cons, List.map_cons, List.map_cons,
        ih t2 (n + 1) h2]
      show ((g a, n) :: _) = ((g b, n) :: _)
      rw [h1]

/-- Stable cycle indexing is identical for entry lists whose key–representative
pairs are a permutation of one another with pairwise-distinct keys. -/
lemma indexCycles_congr {LA LB : List Cppdep.CycleEntry}
    (hperm : (LA.map (fun e => (Cppdep.cycleKey e.1, Cppdep.repOf e.1.members))).Perm
      (LB.map (fun e => (Cppdep.cycleKey e.1, Cppdep.repOf e.1.members))))
    (hndA : (LA.map (fun e => Cppdep.cycleKey e.1)).Nodup)
    (hndB : (LB.map (fun e => Cppdep.cycleKey e.1)).Nodup) :
    Cppdep.indexCycles LA = Cppdep.indexCycles LB := by
  haveI htot : IsTotal Cppdep.CycleEntry
      (fun a b => Cppdep.lexLt (Cppdep.cycleKey b.1) (Cppdep.cycleKey a.1) = false) := by
    constructor
    intro a b
    rcases lexLt_trichot (Cppdep.cycleKey a.1) (Cppdep.cycleKey b.1) with h | h | h
    · exact Or.inl (lexLt_asymm h)
    · exact Or.inr (lexLt_asymm h)
    · refine Or.inl ?_
      rw [h]
      exact lexLt_irrefl _
  haveI htr : IsTrans Cppdep.CycleEntry
      (fun a b => Cppdep.lexLt (Cppdep.cycleKey b.1) (Cppdep.cycleKey a.1) = false) := by
    constructor
    intro a b c h1 h2
    cases hac : Cppdep.lexLt (Cppdep.cycleKey c.1) (Cppdep.cycleKey a.1) with
    | false => rfl
    | true =>
      exfalso
      rcases lexLt_trichot (Cppdep.cycleKey c.1) (Cppdep.cycleKey b.1) with h | h | h
      · rw [h2] at h
        exact Bool.noConfusion h
      · have htr2 := lexLt_trans _ _ _ h hac
        rw [htr2] at h1
        exact Bool.noConfusion h1
      · rw [h] at hac
        rw [hac] at h1
        exact Bool.noConfusion h1
  have hsortA := List.sorted_insertionSort
    (fun a b => Cppdep.lexLt (Cppdep.cycleKey b.1) (Cppdep.cycleKey a.1) = false) LA
  have hsortB := List.sorted_insertionSort
    (fun a b => Cppdep.lexLt (Cppdep.cycleKey b.1) (Cppdep.cycleKey a.1) = false) LB
  have hpermA := List.perm_insertionSort
    (fun a b => Cppdep.lexLt (Cppdep.cycleKey b.1) (Cppdep.cycleKey a.1) = false) LA
  have hpermB := List.perm_insertionSort
    (fun a b => Cppdep.lexLt (Cppdep.cycleKey b.1) (Cppdep.cycleKey a.1) = false) LB
  have hndA2 : ((List.insertionSort
      (fun a b => Cppdep.lexLt (Cppdep.cycleKey b.1) (Cppdep.cycleKey a.1) = false) LA).map
      (fun e => Cppdep.cycleKey e.1)).Nodup :=
    (List.Perm.nodup_iff (hpermA.map (fun e : Cppdep.CycleEntry => Cppdep.cycleKey e.1))).mpr hndA
  have hndB2 : ((List.insertionSort
      (fun a b => Cppdep.lexLt (Cppdep.cycleKey b.1) (Cppdep.cycleKey a.1) = false) LB).map
      (fun e => Cppdep.cycleKey e.1)).Nodup :=
    (List.Perm.nodup_iff (hpermB.map (fun e : Cppdep.CycleEntry => Cppdep.cycleKey e.1))).mpr hndB
  have hkeyneA : List.Pairwise
      (fun a b => Cppdep.cycleKey a.1 ≠ Cppdep.cycleKey b.1)
      (List.insertionSort
        (fun a b => Cppdep.lexLt (Cppdep.cycleKey b.1) (Cppdep.cycleKey a.1) = false) LA) :=
    List.pairwise_map.mp hndA2
  have hkeyneB : List.Pairwise
      (fun a b => Cppdep.cycleKey a.1 ≠ Cppdep.cycleKey b.1)
      (List.insertionSort
        (fun a b => Cppdep.lexLt (Cppdep.cycleKey b.1) (Cppdep.cycleKey a.1) = false) LB) :=
    List.pairwise_map.mp hndB2
  have hstrictA : List.Pairwise
      (fun a b => Cppdep.lexLt (Cppdep.cycleKey a.1) (Cppdep.cycleKey b.1) = true)
      (List.insertionSort
        (fun a b => Cppdep.lexLt (Cppdep.cycleKey b.1) (Cppdep.cycleKey a.1) = false) LA) := by
    refine (hsortA.and hkeyneA).imp ?_
    rintro a b ⟨h1, h2⟩
    rcases lexLt_trichot (Cppdep.cycleKey a.1) (Cppdep.cycleKey b.1) with h | h | h
    · exact h
    · rw [h] at h1
      exact Bool.noConfusion h1
    · exact absurd h h2
  have hstrictB : List.Pairwise
      (fun a b => Cppdep.lexLt (Cppdep.cycleKey a.1) (Cppdep.cycleKey b.1) = true)
      (List.insertionSort
        (fun a b => Cppdep.lexLt (Cppdep.cycleKey b.1) (Cppdep.cycleKey a.1) = false) LB) := by
    refine (hsortB.and hkeyneB).imp ?_
    rintro a b ⟨h1, h2⟩
    rcases lexLt_trichot (Cppdep.cycleKey a.1) (Cppdep.cycleKey b.1) with h | h | h
    · exact h
    · rw [h] at h1
      exact Bool.noConfusion h1
    · exact absurd h h2
  haveI hanti : IsAntisymm (List Nat × Cppdep.GNode)
      (fun p q => Cppdep.lexLt p.1 q.1 = true) := by
    constructor
    intro a b h1 h2
    rw [lexLt_asymm h1] at h2
    exact Bool.noConfusion h2
  have hsortedPA : List.Pairwise (fun p q : List Nat × Cppdep.GNode =>
      Cppdep.lexLt p.1 q.1 = true)
      ((List.insertionSort
        (fun a b => Cppdep.lexLt (Cppdep.cycleKey b.1) (Cppdep.cycleKey a.1) = false) LA).map
        (fun e => (Cppdep.cycleKey e.1, Cppdep.repOf e.1.members))) :=
    List.pairwise_map.mpr hstrictA
  have hsortedPB : List.Pairwise (fun p q : List Nat × Cppdep.GNode =>
      Cppdep.lexLt p.1 q.1 = true)
      ((List.insertionSort
        (fun a b => Cppdep.lexLt (Cppdep.cycleKey b.1) (Cppdep.cycleKey a.1) = false) LB).map
        (fun e => (Cppdep.cycleKey e.1, Cppdep.repOf e.1.members))) :=
    List.pairwise_map.mpr hstrictB
  have hpermP : ((List.insertionSort
      (fun a b => Cppdep.lexLt (Cppdep.cycleKey b.1) (Cppdep.cycleKey a.1) = false) LA).map
      (fun e => (Cppdep.cycleKey e.1, Cppdep.repOf e.1.members))).Perm
      ((List.insertionSort
      (fun a b => Cppdep.lexLt (Cppdep.cycleKey b.1) (Cppdep.cycleKey a.1) = false) LB).map
      (fun e => (Cppdep.cycleKey e.1, Cppdep.repOf e.1.members))) :=
    ((hpermA.map _).trans hperm).trans (hpermB.map _).symm
  have hmapeq := List.eq_of_perm_of_sorted hpermP hsortedPA hsortedPB
  have hrepeq : (List.insertionSort
      (fun a b => Cppdep.lexLt (Cppdep.cycleKey b.1) (Cppdep.cycleKey a.1) = false) LA).map
      (fun e => Cppdep.repOf e.1.members) =
      (List.insertionSort
      (fun a b => Cppdep.lexLt (Cppdep.cycleKey b.1) (Cppdep.cycleKey a.1) = false) LB).map
      (fun e => Cppdep.repOf e.1.members) := by
    have h2 := congrArg (List.map Prod.snd) hmapeq
    rw [List.map_map, List.map_map] at h2
    exact h2
  rw [Cppdep.indexCycles, Cppdep.indexCycles]
  exact enumFrom_map_snd (fun e : Cppdep.CycleEntry => Cppdep.repOf e.1.members) _ _ 0 hrepeq

/-- `_get_cd` only depends on the member count of the matching cycle entry. -/
lemma getCd_eq_of_find_map {isExt : Nat → Bool} {stX stY : Cppdep.St} {n : Cppdep.GNode}
    (h : (stX.cycles.find? (fun e => decide (Cppdep.repOf e.1.members = n))).map
        (fun e => e.1.members.length) =
      (stY.cycles.find? (fun e => decide (Cppdep.repOf e.1.members = n))).map
        (fun e => e.1.members.length)) :
    Cppdep.getCd isExt stX n = Cppdep.getCd isExt stY n := by
  rw [Cppdep.getCd, Cppdep.getCd]
  by_cases hext : Cppdep.isExtG isExt n = true
  · rw [if_pos hext, if_pos hext]
  · rw [if_neg hext, if_neg hext]
    cases hfa : stX.cycles.find? (fun e => decide (Cppdep.repOf e.1.members = n)) with
    | none =>
      cases hfb : stY.cycles.find? (fun e => decide (Cppdep.repOf e.1.members = n)) with
      | none => rfl
      | some eB =>
        rw [hfa, hfb] at h
        simp at h
    | some eA =>
      cases hfb : stY.cycles.find? (fun e => decide (Cppdep.repOf e.1.members = n)) with
      | none =>
        rw [hfa, hfb] at h
        simp at h
      | some eB =>
        rw [hfa, hfb] at h
        simp only [Option.map_some'] at h
        exact Option.some.inj h

/-- The base level only depends on the member count of the matching cycle
entry. -/
lemma levelBase_eq_of_find_map {isExt : Nat → Bool} {stX stY : Cppdep.St} {n : Cppdep.GNode}
    (h : (stX.cycles.find? (fun e => decide (Cppdep.repOf e.1.members = n))).map
        (fun e => e.1.members.length) =
      (stY.cycles.find? (fun e => decide (Cppdep.repOf e.1.members = n))).map
        (fun e => e.1.members.length)) :
    Cppdep.levelBase isExt stX n = Cppdep.levelBase isExt stY n := by
  rw [Cppdep.levelBase, Cppdep.levelBase]
  cases hfa : stX.cycles.find? (fun e => decide (Cppdep.repOf e.1.members = n)) with
  | none =>
    cases hfb : stY.cycles.find? (fun e => decide (Cppdep.repOf e.1.members = n)) with
    | none => rfl
    | some eB =>
      rw [hfa, hfb] at h
      simp at h
  | some eA =>
    cases hfb : stY.cycles.find? (fun e => decide (Cppdep.repOf e.1.members = n)) with
    | none =>
      rw [hfa, hfb] at h
      simp at h
    | some eB =>
      rw [hfa, hfb] at h
      simp only [Option.map_some'] at h
      exact Option.some.inj h

set_option maxHeartbeats 3200000 in
/-- Analysis of two fresh instances over the same node and edge sets, inserted
in different orders, produces the same cycle index table, the same level of
every node, and the same CCD, ACCD and NCCD. -/
lemma analyze_deterministic (isExt : Nat → Bool) (stA stB stA1 stB1 : Cppdep.St)
    (hwfA : Cppdep.Wf stA.digraph) (hwfB : Cppdep.Wf stB.digraph)
    (hndA : stA.digraph.nodes.Nodup) (hndB : stB.digraph.nodes.Nodup)
    (hbaseA : ∀ n ∈ stA.digraph.nodes, n.isBase = true)
    (hbaseB : ∀ n ∈ stB.digraph.nodes, n.isBase = true)
    (hcyA : stA.cycles = []) (hcyB : stB.cycles = [])
    (hn2cA : stA.node2cycle = []) (hn2cB : stB.node2cycle = [])
    (hcdA : stA.node2cd = []) (hcdB : stB.node2cd = [])
    (hlvA : stA.node2level = []) (hlvB : stB.node2level = [])
    (hnodes : ∀ x, x ∈ stA.digraph.nodes ↔ x ∈ stB.digraph.nodes)
    (hedges : ∀ e, e ∈ stA.digraph.edges ↔ e ∈ stB.digraph.edges)
    (hA : Cppdep.analyze isExt stA = .ok stA1)
    (hB : Cppdep.analyze isExt stB = .ok stB1) :
    stA1.cycle2index = stB1.cycle2index ∧
    (∀ n, Cppdep.getLevel stA1 n = Cppdep.getLevel stB1 n) ∧
    Cppdep.ccdOf stA1 = Cppdep.ccdOf stB1 ∧
    Cppdep.accdOf isExt stA1 = Cppdep.accdOf isExt stB1 ∧
    Cppdep.nccdOf isExt stA1 = Cppdep.nccdOf isExt stB1 := by
  obtain ⟨hslA, stcA, hcondA, hdagA, hdecA⟩ := analyze_ok_pieces hA
  obtain ⟨hslB, stcB, hcondB, hdagB, hdecB⟩ := analyze_ok_pieces hB
  have hnoslA : ∀ e ∈ stA.digraph.edges, e.1 ≠ e.2 := by
    intro e he heq
    have hany : stA.digraph.edges.any (fun e => decide (e.1 = e.2)) = true :=
      List.any_eq_true.mpr ⟨e, he, decide_eq_true heq⟩
    rw [hslA] at hany
    exact Bool.false_ne_true hany
  have hsnne : ∀ {st2 : Cppdep.St} (c : Cppdep.Cycle), c ∈ Cppdep.sccSnapshots st2 →
      c.members ≠ [] := by
    intro st2 c hc hcnil
    have h2 := (snapshot_members_mem hc).2
    rw [hcnil] at h2
    simp at h2
  have corrAB : ∀ cA ∈ Cppdep.sccSnapshots stA, ∃ cB ∈ Cppdep.sccSnapshots stB,
      (∀ x, x ∈ cA.members ↔ x ∈ cB.members) ∧
      Cppdep.repOf cB.members = Cppdep.repOf cA.members ∧
      cB.members.length = cA.members.length ∧
      Cppdep.cycleKey cB = Cppdep.cycleKey cA := by
    intro cA hcA
    obtain ⟨cB, hcB, hmem⟩ := snapshot_corr hndA hndB hnodes hedges cA hcA
    have hpermM : cA.members.Perm cB.members :=
      (List.perm_ext_iff_of_nodup (snapshot_members_nodup hndA hcA)
        (snapshot_members_nodup hndB hcB)).mpr hmem
    exact ⟨cB, hcB, hmem, (repOf_congr hpermM).symm, hpermM.length_eq.symm,
      (cycleKey_congr (hsnne cA hcA) (hsnne cB hcB) hmem).symm⟩
  have corrBA : ∀ cB ∈ Cppdep.sccSnapshots stB, ∃ cA ∈ Cppdep.sccSnapshots stA,
      (∀ x, x ∈ cB.members ↔ x ∈ cA.members) ∧
      Cppdep.repOf cA.members = Cppdep.repOf cB.members ∧
      cA.members.length = cB.members.length ∧
      Cppdep.cycleKey cA = Cppdep.cycleKey cB := by
    intro cB hcB
    obtain ⟨cA, hcA, hmem⟩ := snapshot_corr hndB hndA (fun x => (hnodes x).symm)
      (fun e => (hedges e).symm) cB hcB
    have hpermM : cB.members.Perm cA.members :=
      (List.perm_ext_iff_of_nodup (snapshot_members_nodup hndB hcB)
        (snapshot_members_nodup hndA hcA)).mpr hmem
    exact ⟨cA, hcA, hmem, (repOf_congr hpermM).symm, hpermM.length_eq.symm,
      (cycleKey_congr (hsnne cB hcB) (hsnne cA hcA) hmem).symm⟩
  have cmap_corr : ∀ x, Cppdep.cmap (Cppdep.sccSnapshots stA) x =
      Cppdep.cmap (Cppdep.sccSnapshots stB) x := by
    intro x
    by_cases hx : ∃ cA ∈ Cppdep.sccSnapshots stA, x ∈ cA.members
    · obtain ⟨cA, hcA, hxm⟩ := hx
      obtain ⟨cB, hcB, hmem, hrep, _, _⟩ := corrAB cA hcA
      rw [cmap_eq_of_mem hcA hxm (fun c2 hc2 hx2 => snapshot_overlap hc2 hcA hx2 hxm),
        cmap_eq_of_mem hcB ((hmem x).mp hxm)
          (fun c2 hc2 hx2 => snapshot_overlap hc2 hcB hx2 ((hmem x).mp hxm)), hrep]
    · push_neg at hx
      have hxB : ∀ cB ∈ Cppdep.sccSnapshots stB, x ∉ cB.members := by
        intro cB hcB hxm
        obtain ⟨cA, hcA, hmem, _, _, _⟩ := corrBA cB hcB
        exact hx cA hcA ((hmem x).mp hxm)
      rw [cmap_eq_self hx, cmap_eq_self hxB]
  obtain ⟨s1A, hfoldA, hstcAeq⟩ := condense_parts hcondA
  obtain ⟨s1B, hfoldB, hstcBeq⟩ := condense_parts hcondB
  have hIE0A : ∀ e, e ∈ stA.digraph.edges ↔ ∃ u v, (u, v) ∈ stA.digraph.edges ∧
      e = (Cppdep.cmap [] u, Cppdep.cmap [] v) ∧ Cppdep.cmap [] u ≠ Cppdep.cmap [] v := by
    intro e
    constructor
    · intro he
      exact ⟨e.1, e.2, he, rfl, hnoslA e he⟩
    · rintro ⟨u, v, hE, heq, hne⟩
      rw [heq]
      exact hE
  have hIN0A : ∀ x, x ∈ stA.digraph.nodes ↔
      ((x ∈ stA.digraph.nodes ∧ Cppdep.cmap [] x = x) ∨
       ∃ c ∈ ([] : List Cppdep.Cycle), x = Cppdep.repOf c.members ∧
         ∃ uv ∈ stA.digraph.edges,
           (uv.1 ∈ c.members ∧ uv.2 ∉ c.members) ∨
           (uv.2 ∈ c.members ∧ uv.1 ∉ c.members)) := by
    intro x
    constructor
    · exact fun hx => Or.inl ⟨hx, rfl⟩
    · rintro (⟨hx, _⟩ | ⟨c, hc, _⟩)
      · exact hx
      · exact absurd hc (List.not_mem_nil c)
  have hnoslB : ∀ e ∈ stB.digraph.edges, e.1 ≠ e.2 := by
    intro e he heq
    have hany : stB.digraph.edges.any (fun e => decide (e.1 = e.2)) = true :=
      List.any_eq_true.mpr ⟨e, he, decide_eq_true heq⟩
    rw [hslB] at hany
    exact Bool.false_ne_true hany
  have hIE0B : ∀ e, e ∈ stB.digraph.edges ↔ ∃ u v, (u, v) ∈ stB.digraph.edges ∧
      e = (Cppdep.cmap [] u, Cppdep.cmap [] v) ∧ Cppdep.cmap [] u ≠ Cppdep.cmap [] v := by
    intro e
    constructor
    · intro he
      exact ⟨e.1, e.2, he, rfl, hnoslB e he⟩
    · rintro ⟨u, v, hE, heq, hne⟩
      rw [heq]
      exact hE
  have hIN0B : ∀ x, x ∈ stB.digraph.nodes ↔
      ((x ∈ stB.digraph.nodes ∧ Cppdep.cmap [] x = x) ∨
       ∃ c ∈ ([] : List Cppdep.Cycle), x = Cppdep.repOf c.members ∧
         ∃ uv ∈ stB.digraph.edges,
           (uv.1 ∈ c.members ∧ uv.2 ∉ c.members) ∨
           (uv.2 ∈ c.members ∧ uv.1 ∉ c.members)) := by
    intro x
    constructor
    · exact fun hx => Or.inl ⟨hx, rfl⟩
    · rintro (⟨hx, _⟩ | ⟨c, hc, _⟩)
      · exact hx
      · exact absurd hc (List.not_mem_nil c)
  obtain ⟨hEchA, hNchA⟩ := condense_go hbaseA hndA hwfA (Cppdep.sccSnapshots stA) [] stA
    s1A (List.nil_append _).symm hIE0A hIN0A hwfA hfoldA
  obtain ⟨hEchB, hNchB⟩ := condense_go hbaseB hndB hwfB (Cppdep.sccSnapshots stB) [] stB
    s1B (List.nil_append _).symm hIE0B hIN0B hwfB hfoldB
  simp only [List.nil_append] at hEchA hNchA hEchB hNchB
  have hdgA : stcA.digraph = s1A.digraph := by rw [hstcAeq]
  have hdgB : stcB.digraph = s1B.digraph := by rw [hstcBeq]
  have Eceq : ∀ e, e ∈ stcA.digraph.edges ↔ e ∈ stcB.digraph.edges := by
    intro e
    rw [hdgA, hdgB, hEchA e, hEchB e]
    constructor
    · rintro ⟨u, v, hE, heq, hne⟩
      refine ⟨u, v, (hedges (u, v)).mp hE, ?_, ?_⟩
      · rw [heq, cmap_corr u, cmap_corr v]
      · rw [← cmap_corr u, ← cmap_corr v]
        exact hne
    · rintro ⟨u, v, hE, heq, hne⟩
      refine ⟨u, v, (hedges (u, v)).mpr hE, ?_, ?_⟩
      · rw [heq, cmap_corr u, cmap_corr v]
      · rw [cmap_corr u, cmap_corr v]
        exact hne
  have Nceq : ∀ x, x ∈ stcA.digraph.nodes ↔ x ∈ stcB.digraph.nodes := by
    intro x
    rw [hdgA, hdgB, hNchA x, hNchB x]
    constructor
    · rintro (⟨hxN, hcm⟩ | ⟨cA, hcA, hxrep, uv, huv, hbd⟩)
      · refine Or.inl ⟨(hnodes x).mp hxN, ?_⟩
        rw [← cmap_corr x]
        exact hcm
      · obtain ⟨cB, hcB, hmem, hrep, _, _⟩ := corrAB cA hcA
        refine Or.inr ⟨cB, hcB, by rw [hxrep]; exact hrep.symm, uv, (hedges uv).mp huv, ?_⟩
        rcases hbd with ⟨h1, h2⟩ | ⟨h1, h2⟩
        · exact Or.inl ⟨(hmem uv.1).mp h1, fun hc => h2 ((hmem uv.2).mpr hc)⟩
        · exact Or.inr ⟨(hmem uv.2).mp h1, fun hc => h2 ((hmem uv.1).mpr hc)⟩
    · rintro (⟨hxN, hcm⟩ | ⟨cB, hcB, hxrep, uv, huv, hbd⟩)
      · refine Or.inl ⟨(hnodes x).mpr hxN, ?_⟩
        rw [cmap_corr x]
        exact hcm
      · obtain ⟨cA, hcA, hmem, hrep, _, _⟩ := corrBA cB hcB
        refine Or.inr ⟨cA, hcA, by rw [hxrep]; exact hrep.symm, uv, (hedges uv).mpr huv, ?_⟩
        rcases hbd with ⟨h1, h2⟩ | ⟨h1, h2⟩
        · exact Or.inl ⟨(hmem uv.1).mp h1, fun hc => h2 ((hmem uv.2).mpr hc)⟩
        · exact Or.inr ⟨(hmem uv.2).mp h1, fun hc => h2 ((hmem uv.1).mpr hc)⟩
  have hwfcA : Cppdep.Wf stcA.digraph := by
    rw [hdgA]
    exact (condense_fold_fields _ _ _ hfoldA).2.2.2 hwfA
  have hwfcB : Cppdep.Wf stcB.digraph := by
    rw [hdgB]
    exact (condense_fold_fields _ _ _ hfoldB).2.2.2 hwfB
  have hinitA : Cppdep.CondInv stA.digraph.edges (Cppdep.sccSnapshots stA) stA := by
    refine ⟨?_, ?_, ?_, ?_, ?_, hndA⟩
    · intro e he
      exact Or.inl ⟨hbaseA _ (hwfA e he).1, hbaseA _ (hwfA e he).2, he⟩
    · intro k v hk
      rw [hn2cA] at hk
      cases hk
    · intro ce hce
      rw [hcyA] at hce
      exact absurd hce (List.not_mem_nil ce)
    · intro ce hce
      rw [hcyA] at hce
      exact absurd hce (List.not_mem_nil ce)
    · intro D ce T hsp
      rw [hcyA] at hsp
      simp at hsp
  have hinitB : Cppdep.CondInv stB.digraph.edges (Cppdep.sccSnapshots stB) stB := by
    refine ⟨?_, ?_, ?_, ?_, ?_, hndB⟩
    · intro e he
      exact Or.inl ⟨hbaseB _ (hwfB e he).1, hbaseB _ (hwfB e he).2, he⟩
    · intro k v hk
      rw [hn2cB] at hk
      cases hk
    · intro ce hce
      rw [hcyB] at hce
      exact absurd hce (List.not_mem_nil ce)
    · intro ce hce
      rw [hcyB] at hce
      exact absurd hce (List.not_mem_nil ce)
    · intro D ce T hsp
      rw [hcyB] at hsp
      simp at hsp
  obtain ⟨CA1, CA2, CA3, CA4, CA5, CA6⟩ :=
    condense_CondInv hcondA (snapshot_members_base hbaseA) hinitA
  obtain ⟨CB1, CB2, CB3, CB4, CB5, CB6⟩ :=
    condense_CondInv hcondB (snapshot_members_base hbaseB) hinitB
  have hAcA : Cppdep.Acyclic stcA.digraph := isDagB_iff.mp hdagA
  have hAcB : Cppdep.Acyclic stcB.digraph := isDagB_iff.mp hdagB
  have TReq : ∀ e, e ∈ (Cppdep.transRed stcA.digraph).edges ↔
      e ∈ (Cppdep.transRed stcB.digraph).edges := by
    intro e
    rw [transRed_edges_iff hwfcA hAcA CA6 e, transRed_edges_iff hwfcB hAcB CB6 e]
    constructor
    · rintro ⟨h1, h2⟩
      refine ⟨(Eceq e).mp h1, ?_⟩
      rintro ⟨w, hw, hr, hne⟩
      exact h2 ⟨w, (Eceq (e.1, w)).mpr hw, (reach_congr Eceq).mpr hr, hne⟩
    · rintro ⟨h1, h2⟩
      refine ⟨(Eceq e).mpr h1, ?_⟩
      rintro ⟨w, hw, hr, hne⟩
      exact h2 ⟨w, (Eceq (e.1, w)).mp hw, (reach_congr Eceq).mp hr, hne⟩
  have hTRnA : (Cppdep.transRed stcA.digraph).nodes = stcA.digraph.nodes := by
    rw [Cppdep.transRed, foldl_reduceStep_nodes]
  have hTRnB : (Cppdep.transRed stcB.digraph).nodes = stcB.digraph.nodes := by
    rw [Cppdep.transRed, foldl_reduceStep_nodes]
  have hAcRA : Cppdep.Acyclic (Cppdep.transRed stcA.digraph) :=
    acyclic_of_subset (fun e he => foldl_reduceStep_subset _ _ e he) hAcA
  have hAcRB : Cppdep.Acyclic (Cppdep.transRed stcB.digraph) :=
    acyclic_of_subset (fun e he => foldl_reduceStep_subset _ _ e he) hAcB
  have hcycA : stcA.cycles.map (fun e => e.1) = Cppdep.sccSnapshots stA := by
    have h3 : stcA.cycles = s1A.cycles := by rw [hstcAeq]
    rw [h3, condense_fold_cycles_fst _ _ _ hfoldA, hcyA]
    simp
  have hcycB : stcB.cycles.map (fun e => e.1) = Cppdep.sccSnapshots stB := by
    have h3 : stcB.cycles = s1B.cycles := by rw [hstcBeq]
    rw [h3, condense_fold_cycles_fst _ _ _ hfoldB, hcyB]
    simp
  have hmemsnapA : ∀ eA ∈ stcA.cycles, eA.1 ∈ Cppdep.sccSnapshots stA := by
    intro eA heA
    rw [← hcycA]
    exact List.mem_map.mpr ⟨eA, heA, rfl⟩
  have hmemsnapB : ∀ eB ∈ stcB.cycles, eB.1 ∈ Cppdep.sccSnapshots stB := by
    intro eB heB
    rw [← hcycB]
    exact List.mem_map.mpr ⟨eB, heB, rfl⟩
  have entry_corrAB : ∀ eA ∈ stcA.cycles, ∃ eB ∈ stcB.cycles,
      Cppdep.repOf eB.1.members = Cppdep.repOf eA.1.members ∧
      eB.1.members.length = eA.1.members.length := by
    intro eA heA
    obtain ⟨cB, hcB, _, hrep, hlen, _⟩ := corrAB eA.1 (hmemsnapA eA heA)
    have h2 : cB ∈ stcB.cycles.map (fun e => e.1) := by
      rw [hcycB]
      exact hcB
    obtain ⟨eB, heB, heB1⟩ := List.mem_map.mp h2
    refine ⟨eB, heB, ?_, ?_⟩
    · rw [heB1]
      exact hrep
    · rw [heB1]
      exact hlen
  have entry_corrBA : ∀ eB ∈ stcB.cycles, ∃ eA ∈ stcA.cycles,
      Cppdep.repOf eA.1.members = Cppdep.repOf eB.1.members ∧
      eA.1.members.length = eB.1.members.length := by
    intro eB heB
    obtain ⟨cA, hcA, _, hrep, hlen, _⟩ := corrBA eB.1 (hmemsnapB eB heB)
    have h2 : cA ∈ stcA.cycles.map (fun e => e.1) := by
      rw [hcycA]
      exact hcA
    obtain ⟨eA, heA, heA1⟩ := List.mem_map.mp h2
    refine ⟨eA, heA, ?_, ?_⟩
    · rw [heA1]
      exact hrep
    · rw [heA1]
      exact hlen
  have repLenB : ∀ e1 ∈ stcB.cycles, ∀ e2 ∈ stcB.cycles,
      Cppdep.repOf e1.1.members = Cppdep.repOf e2.1.members →
      e1.1.members.length = e2.1.members.length := by
    intro e1 he1 e2 he2 hrep
    have h3 := snapshot_rep_inj hbaseB (hmemsnapB e1 he1) (hmemsnapB e2 he2) hrep
    rw [h3]
  have findLen := cycles_find_len_corr entry_corrAB entry_corrBA repLenB
  obtain ⟨hA1cy, hA1ci, hA1n2c, hA1cd, hA1lv⟩ := decondense_fields hdecA
  obtain ⟨hB1cy, hB1ci, hB1n2c, hB1cd, hB1lv⟩ := decondense_fields hdecB
  have hcyA1 : stA1.cycles = stcA.cycles := hA1cy
  have hcyB1 : stB1.cycles = stcB.cycles := hB1cy
  have hciA1 : stA1.cycle2index = stcA.cycle2index := hA1ci
  have hciB1 : stB1.cycle2index = stcB.cycle2index := hB1ci
  have hn2cA1 : stA1.node2cycle = stcA.node2cycle := hA1n2c
  have hn2cB1 : stB1.node2cycle = stcB.node2cycle := hB1n2c
  have hndLA1 : (stcA.cycles.map (fun e => e.1)).Nodup := by
    rw [hcycA]
    exact sccSnapshots_nodup
  have hndLB1 : (stcB.cycles.map (fun e => e.1)).Nodup := by
    rw [hcycB]
    exact sccSnapshots_nodup
  have injA1 := List.inj_on_of_nodup_map hndLA1
  have injB1 := List.inj_on_of_nodup_map hndLB1
  have hkeyinjA : ∀ e1 ∈ stcA.cycles, ∀ e2 ∈ stcA.cycles,
      Cppdep.cycleKey e1.1 = Cppdep.cycleKey e2.1 → e1 = e2 := by
    intro e1 he1 e2 he2 hk
    by_cases heq : e1.1 = e2.1
    · exact injA1 he1 he2 heq
    · exfalso
      have hdisj : ∀ x ∈ e1.1.members, x ∉ e2.1.members := fun x hx1 hx2 =>
        heq (snapshot_overlap (hmemsnapA e1 he1) (hmemsnapA e2 he2) hx1 hx2)
      exact cycleKey_ne_of_disjoint (hsnne _ (hmemsnapA e1 he1))
        (hsnne _ (hmemsnapA e2 he2))
        (snapshot_members_base hbaseA _ (hmemsnapA e1 he1))
        (snapshot_members_base hbaseA _ (hmemsnapA e2 he2)) hdisj hk
  have hkeyinjB : ∀ e1 ∈ stcB.cycles, ∀ e2 ∈ stcB.cycles,
      Cppdep.cycleKey e1.1 = Cppdep.cycleKey e2.1 → e1 = e2 := by
    intro e1 he1 e2 he2 hk
    by_cases heq : e1.1 = e2.1
    · exact injB1 he1 he2 heq
    · exfalso
      have hdisj : ∀ x ∈ e1.1.members, x ∉ e2.1.members := fun x hx1 hx2 =>
        heq (snapshot_overlap (hmemsnapB e1 he1) (hmemsnapB e2 he2) hx1 hx2)
      exact cycleKey_ne_of_disjoint (hsnne _ (hmemsnapB e1 he1))
        (hsnne _ (hmemsnapB e2 he2))
        (snapshot_members_base hbaseB _ (hmemsnapB e1 he1))
        (snapshot_members_base hbaseB _ (hmemsnapB e2 he2)) hdisj hk
  have hciceq : stcA.cycle2index = stcB.cycle2index := by
    have h3 : stcA.cycle2index = Cppdep.indexCycles s1A.cycles := by rw [hstcAeq]
    have h4 : stcB.cycle2index = Cppdep.indexCycles s1B.cycles := by rw [hstcBeq]
    have h5 : s1A.cycles = stcA.cycles := by rw [hstcAeq]
    have h6 : s1B.cycles = stcB.cycles := by rw [hstcBeq]
    rw [h3, h4, h5, h6]
    have hndPA : (stcA.cycles.map
        (fun e => (Cppdep.cycleKey e.1, Cppdep.repOf e.1.members))).Nodup := by
      refine List.Nodup.map_on ?_ (hndLA1.of_map (fun e => e.1))
      intro x hx y hy hxy
      have hrep : Cppdep.repOf x.1.members = Cppdep.repOf y.1.members :=
        congrArg Prod.snd hxy
      have h7 : x.1 = y.1 :=
        snapshot_rep_inj hbaseA (hmemsnapA x hx) (hmemsnapA y hy) hrep
      exact injA1 hx hy h7
    have hndPB : (stcB.cycles.map
        (fun e => (Cppdep.cycleKey e.1, Cppdep.repOf e.1.members))).Nodup := by
      refine List.Nodup.map_on ?_ (hndLB1.of_map (fun e => e.1))
      intro x hx y hy hxy
      have hrep : Cppdep.repOf x.1.members = Cppdep.repOf y.1.members :=
        congrArg Prod.snd hxy
      have h7 : x.1 = y.1 :=
        snapshot_rep_inj hbaseB (hmemsnapB x hx) (hmemsnapB y hy) hrep
      exact injB1 hx hy h7
    refine indexCycles_congr ((List.perm_ext_iff_of_nodup hndPA hndPB).mpr ?_) ?_ ?_
    · intro p
      constructor
      · intro hp
        obtain ⟨eA, heA, hpe⟩ := List.mem_map.mp hp
        obtain ⟨cB, hcB, _, hrep, _, hkey⟩ := corrAB eA.1 (hmemsnapA eA heA)
        have h7 : cB ∈ stcB.cycles.map (fun e => e.1) := by
          rw [hcycB]
          exact hcB
        obtain ⟨eB, heB, heB1⟩ := List.mem_map.mp h7
        refine List.mem_map.mpr ⟨eB, heB, ?_⟩
        show (Cppdep.cycleKey eB.1, Cppdep.repOf eB.1.members) = p
        rw [heB1, hkey, hrep]
        exact hpe
      · intro hp
        obtain ⟨eB, heB, hpe⟩ := List.mem_map.mp hp
        obtain ⟨cA, hcA, _, hrep, _, hkey⟩ := corrBA eB.1 (hmemsnapB eB heB)
        have h7 : cA ∈ stcA.cycles.map (fun e => e.1) := by
          rw [hcycA]
          exact hcA
        obtain ⟨eA, heA, heA1⟩ := List.mem_map.mp h7
        refine List.mem_map.mpr ⟨eA, heA, ?_⟩
        show (Cppdep.cycleKey eA.1, Cppdep.repOf eA.1.members) = p
        rw [heA1, hkey, hrep]
        exact hpe
    · refine List.Nodup.map_on ?_ (hndLA1.of_map (fun e => e.1))
      intro x hx y hy hxy
      exact hkeyinjA x hx y hy hxy
    · refine List.Nodup.map_on ?_ (hndLB1.of_map (fun e => e.1))
      intro x hx y hy hxy
      exact hkeyinjB x hx y hy hxy
  have hn2cAfind : ∀ k, Cppdep.assocFind k stcA.node2cycle =
      (match (Cppdep.sccSnapshots stA).find? (fun c => decide (k ∈ c.members)) with
      | some c => some (Cppdep.repOf c.members)
      | none => none) := by
    intro k
    have h3 : stcA.node2cycle = s1A.node2cycle := by rw [hstcAeq]
    rw [h3, condense_fold_n2c _ _ _ hfoldA snapshots_pairwise_disjoint k]
    cases hf : (Cppdep.sccSnapshots stA).find? (fun c => decide (k ∈ c.members)) with
    | some c => rfl
    | none =>
      show Cppdep.assocFind k stA.node2cycle = none
      rw [hn2cA]
      rfl
  have hn2cBfind : ∀ k, Cppdep.assocFind k stcB.node2cycle =
      (match (Cppdep.sccSnapshots stB).find? (fun c => decide (k ∈ c.members)) with
      | some c => some (Cppdep.repOf c.members)
      | none => none) := by
    intro k
    have h3 : stcB.node2cycle = s1B.node2cycle := by rw [hstcBeq]
    rw [h3, condense_fold_n2c _ _ _ hfoldB snapshots_pairwise_disjoint k]
    cases hf : (Cppdep.sccSnapshots stB).find? (fun c => decide (k ∈ c.members)) with
    | some c => rfl
    | none =>
      show Cppdep.assocFind k stB.node2cycle = none
      rw [hn2cB]
      rfl
  have n2c_corr : ∀ k, Cppdep.assocFind k stA1.node2cycle =
      Cppdep.assocFind k stB1.node2cycle := by
    intro k
    rw [hn2cA1, hn2cB1, hn2cAfind k, hn2cBfind k]
    by_cases hk : ∃ cA ∈ Cppdep.sccSnapshots stA, k ∈ cA.members
    · obtain ⟨cA, hcA, hkm⟩ := hk
      obtain ⟨cB, hcB, hmem, hrep, _, _⟩ := corrAB cA hcA
      have hfA : (Cppdep.sccSnapshots stA).find? (fun c => decide (k ∈ c.members)) =
          some cA :=
        find?_eq_of_unique hcA (decide_eq_true hkm) (fun c2 hc2 hp =>
          snapshot_overlap hc2 hcA (of_decide_eq_true hp) hkm)
      have hfB : (Cppdep.sccSnapshots stB).find? (fun c => decide (k ∈ c.members)) =
          some cB :=
        find?_eq_of_unique hcB (decide_eq_true ((hmem k).mp hkm)) (fun c2 hc2 hp =>
          snapshot_overlap hc2 hcB (of_decide_eq_true hp) ((hmem k).mp hkm))
      rw [hfA, hfB]
      show some (Cppdep.repOf cA.members) = some (Cppdep.repOf cB.members)
      rw [hrep]
    · push_neg at hk
      have hkB : ∀ cB ∈ Cppdep.sccSnapshots stB, k ∉ cB.members := by
        intro cB hcB hkm
        obtain ⟨cA, hcA, hmem, _, _, _⟩ := corrBA cB hcB
        exact hk cA hcA ((hmem k).mp hkm)
      have hfA : (Cppdep.sccSnapshots stA).find? (fun c => decide (k ∈ c.members)) =
          none :=
        List.find?_eq_none.mpr (fun c hc hp => hk c hc (of_decide_eq_true hp))
      have hfB : (Cppdep.sccSnapshots stB).find? (fun c => decide (k ∈ c.members)) =
          none :=
        List.find?_eq_none.mpr (fun c hc hp => hkB c hc (of_decide_eq_true hp))
      rw [hfA, hfB]
  have getCd_corr : ∀ n,
      Cppdep.getCd isExt { stcA with digraph := Cppdep.transRed stcA.digraph } n =
      Cppdep.getCd isExt { stcB with digraph := Cppdep.transRed stcB.digraph } n := by
    intro n
    exact getCd_eq_of_find_map (findLen n)
  have levelBase_corr2 : ∀ n,
      Cppdep.levelBase isExt (Cppdep.calcCcd isExt { stcA with digraph := Cppdep.transRed stcA.digraph }) n =
      Cppdep.levelBase isExt (Cppdep.calcCcd isExt { stcB with digraph := Cppdep.transRed stcB.digraph }) n := by
    intro n
    exact levelBase_eq_of_find_map (findLen n)
  have reachPB_corr : ∀ a x, (Cppdep.transRed stcA.digraph).reachPB a x =
      (Cppdep.transRed stcB.digraph).reachPB a x := by
    intro a x
    apply bool_eq_of_iff
    rw [reachPB_iff, reachPB_iff]
    exact reachP_congr TReq
  have cdVal_corr : ∀ n,
      Cppdep.cdVal isExt { stcA with digraph := Cppdep.transRed stcA.digraph } n =
      Cppdep.cdVal isExt { stcB with digraph := Cppdep.transRed stcB.digraph } n := by
    intro n
    rw [@cdVal_eq_sum isExt { stcA with digraph := Cppdep.transRed stcA.digraph } hAcRA n,
        @cdVal_eq_sum isExt { stcB with digraph := Cppdep.transRed stcB.digraph } hAcRB n,
        getCd_corr n]
    refine congrArg
      (fun m => Cppdep.getCd isExt { stcB with digraph := Cppdep.transRed stcB.digraph } n + m) ?_
    have hFeq : ((({ stcA with digraph := Cppdep.transRed stcA.digraph } : Cppdep.St).digraph.edges.map Prod.snd).toFinset).filter (fun v => ({ stcA with digraph := Cppdep.transRed stcA.digraph } : Cppdep.St).digraph.reachPB n v = true) = ((({ stcB with digraph := Cppdep.transRed stcB.digraph } : Cppdep.St).digraph.edges.map Prod.snd).toFinset).filter (fun v => ({ stcB with digraph := Cppdep.transRed stcB.digraph } : Cppdep.St).digraph.reachPB n v = true) := by
      apply Finset.ext
      intro v
      rw [Finset.mem_filter, Finset.mem_filter, List.mem_toFinset, List.mem_toFinset]
      constructor
      · rintro ⟨h1, h2⟩
        refine ⟨?_, ?_⟩
        · obtain ⟨e, he, hesnd⟩ := List.mem_map.mp h1
          exact List.mem_map.mpr ⟨e, (TReq e).mp he, hesnd⟩
        · show (Cppdep.transRed stcB.digraph).reachPB n v = true
          rw [← reachPB_corr n v]
          exact h2
      · rintro ⟨h1, h2⟩
        refine ⟨?_, ?_⟩
        · obtain ⟨e, he, hesnd⟩ := List.mem_map.mp h1
          exact List.mem_map.mpr ⟨e, (TReq e).mpr he, hesnd⟩
        · show (Cppdep.transRed stcA.digraph).reachPB n v = true
          rw [reachPB_corr n v]
          exact h2
    rw [hFeq]
    exact Finset.sum_congr rfl (fun v _ => getCd_corr v)
  have hndRA : (Cppdep.transRed stcA.digraph).nodes.Nodup := by
    rw [hTRnA]
    exact CA6
  have hndRB : (Cppdep.transRed stcB.digraph).nodes.Nodup := by
    rw [hTRnB]
    exact CB6
  have hcdA0 : stcA.node2cd = [] := by
    have h5 : stcA.node2cd = s1A.node2cd := by rw [hstcAeq]
    rw [h5, (condense_fold_fields _ _ _ hfoldA).2.1, hcdA]
  have hcdB0 : stcB.node2cd = [] := by
    have h5 : stcB.node2cd = s1B.node2cd := by rw [hstcBeq]
    rw [h5, (condense_fold_fields _ _ _ hfoldB).2.1, hcdB]
  have hcdA2 : stA1.node2cd = (Cppdep.transRed stcA.digraph).nodes.map
      (fun n => (n, Cppdep.cdVal isExt { stcA with digraph := Cppdep.transRed stcA.digraph } n)) := by
    have h2 : stA1.node2cd = (Cppdep.transRed stcA.digraph).nodes.foldl
        (fun m n => Cppdep.assocUpd n
          (Cppdep.cdVal isExt { stcA with digraph := Cppdep.transRed stcA.digraph } n) m)
        stcA.node2cd := hA1cd
    rw [h2, hcdA0]
    have h6 := foldl_assocUpd_pairs
      (Cppdep.cdVal isExt { stcA with digraph := Cppdep.transRed stcA.digraph })
      (Cppdep.transRed stcA.digraph).nodes [] (fun n _ => rfl) hndRA
    rw [List.nil_append] at h6
    exact h6
  have hcdB2 : stB1.node2cd = (Cppdep.transRed stcB.digraph).nodes.map
      (fun n => (n, Cppdep.cdVal isExt { stcB with digraph := Cppdep.transRed stcB.digraph } n)) := by
    have h2 : stB1.node2cd = (Cppdep.transRed stcB.digraph).nodes.foldl
        (fun m n => Cppdep.assocUpd n
          (Cppdep.cdVal isExt { stcB with digraph := Cppdep.transRed stcB.digraph } n) m)
        stcB.node2cd := hB1cd
    rw [h2, hcdB0]
    have h6 := foldl_assocUpd_pairs
      (Cppdep.cdVal isExt { stcB with digraph := Cppdep.transRed stcB.digraph })
      (Cppdep.transRed stcB.digraph).nodes [] (fun n _ => rfl) hndRB
    rw [List.nil_append] at h6
    exact h6
  have hpermN : (Cppdep.transRed stcA.digraph).nodes.Perm
      (Cppdep.transRed stcB.digraph).nodes := by
    refine (List.perm_ext_iff_of_nodup hndRA hndRB).mpr ?_
    intro x
    rw [hTRnA, hTRnB]
    exact Nceq x
  have hccd : Cppdep.ccdOf stA1 = Cppdep.ccdOf stB1 := by
    rw [ccdOf_map_pairs stA1 (Cppdep.transRed stcA.digraph).nodes _ hcdA2,
        ccdOf_map_pairs stB1 (Cppdep.transRed stcB.digraph).nodes _ hcdB2]
    have hpoint : ∀ n,
        (match stA1.cycles.find? (fun c => decide (Cppdep.repOf c.1.members = n)) with
        | some c => c.1.members.length *
            Cppdep.cdVal isExt { stcA with digraph := Cppdep.transRed stcA.digraph } n
        | none => Cppdep.cdVal isExt { stcA with digraph := Cppdep.transRed stcA.digraph } n) =
        (match stB1.cycles.find? (fun c => decide (Cppdep.repOf c.1.members = n)) with
        | some c => c.1.members.length *
            Cppdep.cdVal isExt { stcB with digraph := Cppdep.transRed stcB.digraph } n
        | none => Cppdep.cdVal isExt { stcB with digraph := Cppdep.transRed stcB.digraph } n) := by
      intro n
      have hfl : (stA1.cycles.find? (fun c => decide (Cppdep.repOf c.1.members = n))).map
          (fun e => e.1.members.length) =
          (stB1.cycles.find? (fun c => decide (Cppdep.repOf c.1.members = n))).map
          (fun e => e.1.members.length) := by
        rw [hcyA1, hcyB1]
        exact findLen n
      cases hfa : stA1.cycles.find? (fun c => decide (Cppdep.repOf c.1.members = n)) with
      | none =>
        cases hfb : stB1.cycles.find? (fun c => decide (Cppdep.repOf c.1.members = n)) with
        | none =>
          show Cppdep.cdVal isExt { stcA with digraph := Cppdep.transRed stcA.digraph } n = _
          exact cdVal_corr n
        | some eB =>
          rw [hfa, hfb] at hfl
          simp at hfl
      | some eA =>
        cases hfb : stB1.cycles.find? (fun c => decide (Cppdep.repOf c.1.members = n)) with
        | none =>
          rw [hfa, hfb] at hfl
          simp at hfl
        | some eB =>
          rw [hfa, hfb] at hfl
          simp only [Option.map_some'] at hfl
          have hlen := Option.some.inj hfl
          show eA.1.members.length *
              Cppdep.cdVal isExt { stcA with digraph := Cppdep.transRed stcA.digraph } n =
            eB.1.members.length *
              Cppdep.cdVal isExt { stcB with digraph := Cppdep.transRed stcB.digraph } n
          rw [hlen, cdVal_corr n]
    have hmc : (Cppdep.transRed stcA.digraph).nodes.map
        (fun n => match stA1.cycles.find? (fun c => decide (Cppdep.repOf c.1.members = n)) with
        | some c => c.1.members.length *
            Cppdep.cdVal isExt { stcA with digraph := Cppdep.transRed stcA.digraph } n
        | none => Cppdep.cdVal isExt { stcA with digraph := Cppdep.transRed stcA.digraph } n) =
        (Cppdep.transRed stcA.digraph).nodes.map
        (fun n => match stB1.cycles.find? (fun c => decide (Cppdep.repOf c.1.members = n)) with
        | some c => c.1.members.length *
            Cppdep.cdVal isExt { stcB with digraph := Cppdep.transRed stcB.digraph } n
        | none => Cppdep.cdVal isExt { stcB with digraph := Cppdep.transRed stcB.digraph } n) :=
      List.map_congr_left (fun n _ => hpoint n)
    exact (congrArg List.sum hmc).trans (List.Perm.sum_eq (hpermN.map
      (fun n => match stB1.cycles.find? (fun c => decide (Cppdep.repOf c.1.members = n)) with
        | some c => c.1.members.length *
            Cppdep.cdVal isExt { stcB with digraph := Cppdep.transRed stcB.digraph } n
        | none => Cppdep.cdVal isExt { stcB with digraph := Cppdep.transRed stcB.digraph } n)))
  have hlvA0 : stcA.node2level = [] := by
    have h5 : stcA.node2level = s1A.node2level := by rw [hstcAeq]
    rw [h5, (condense_fold_fields _ _ _ hfoldA).2.2.1, hlvA]
  have hlvB0 : stcB.node2level = [] := by
    have h5 : stcB.node2level = s1B.node2level := by rw [hstcBeq]
    rw [h5, (condense_fold_fields _ _ _ hfoldB).2.2.1, hlvB]
  have hlvfindA : ∀ x, Cppdep.assocFind x stA1.node2level =
      (if x ∈ (Cppdep.transRed stcA.digraph).nodes
       then some (Cppdep.levelVal isExt
         (Cppdep.calcCcd isExt { stcA with digraph := Cppdep.transRed stcA.digraph }) x)
       else none) := by
    intro x
    have hmemo : ∀ k v, Cppdep.assocFind k
        (Cppdep.calcCcd isExt { stcA with digraph := Cppdep.transRed stcA.digraph }).node2level =
        some v →
        v = Cppdep.levelVal isExt
          (Cppdep.calcCcd isExt { stcA with digraph := Cppdep.transRed stcA.digraph }) k := by
      intro k v hk
      have h9 : Cppdep.assocFind k stcA.node2level = some v := hk
      rw [hlvA0] at h9
      cases h9
    by_cases hx : x ∈ (Cppdep.transRed stcA.digraph).nodes
    · rw [if_pos hx, hA1lv]
      exact calcLevels_find hx hmemo
    · rw [if_neg hx]
      have h8 := memoFold_not_mem (Cppdep.levelVal isExt
        (Cppdep.calcCcd isExt { stcA with digraph := Cppdep.transRed stcA.digraph }))
        (Cppdep.transRed stcA.digraph).nodes
        (Cppdep.calcCcd isExt { stcA with digraph := Cppdep.transRed stcA.digraph }).node2level
        x hx
      have h9 : Cppdep.assocFind x stA1.node2level =
          Cppdep.assocFind x (Cppdep.calcCcd isExt
            { stcA with digraph := Cppdep.transRed stcA.digraph }).node2level := by
        rw [hA1lv]
        exact h8
      rw [h9]
      show Cppdep.assocFind x stcA.node2level = none
      rw [hlvA0]
      rfl
  have hlvfindB : ∀ x, Cppdep.assocFind x stB1.node2level =
      (if x ∈ (Cppdep.transRed stcB.digraph).nodes
       then some (Cppdep.levelVal isExt
         (Cppdep.calcCcd isExt { stcB with digraph := Cppdep.transRed stcB.digraph }) x)
       else none) := by
    intro x
    have hmemo : ∀ k v, Cppdep.assocFind k
        (Cppdep.calcCcd isExt { stcB with digraph := Cppdep.transRed stcB.digraph }).node2level =
        some v →
        v = Cppdep.levelVal isExt
          (Cppdep.calcCcd isExt { stcB with digraph := Cppdep.transRed stcB.digraph }) k := by
      intro k v hk
      have h9 : Cppdep.assocFind k stcB.node2level = some v := hk
      rw [hlvB0] at h9
      cases h9
    by_cases hx : x ∈ (Cppdep.transRed stcB.digraph).nodes
    · rw [if_pos hx, hB1lv]
      exact calcLevels_find hx hmemo
    · rw [if_neg hx]
      have h8 := memoFold_not_mem (Cppdep.levelVal isExt
        (Cppdep.calcCcd isExt { stcB with digraph := Cppdep.transRed stcB.digraph }))
        (Cppdep.transRed stcB.digraph).nodes
        (Cppdep.calcCcd isExt { stcB with digraph := Cppdep.transRed stcB.digraph }).node2level
        x hx
      have h9 : Cppdep.assocFind x stB1.node2level =
          Cppdep.assocFind x (Cppdep.calcCcd isExt
            { stcB with digraph := Cppdep.transRed stcB.digraph }).node2level := by
        rw [hB1lv]
        exact h8
      rw [h9]
      show Cppdep.assocFind x stcB.node2level = none
      rw [hlvB0]
      rfl
  have levelVal_corr2 : ∀ x,
      Cppdep.levelVal isExt
        (Cppdep.calcCcd isExt { stcA with digraph := Cppdep.transRed stcA.digraph }) x =
      Cppdep.levelVal isExt
        (Cppdep.calcCcd isExt { stcB with digraph := Cppdep.transRed stcB.digraph }) x := by
    intro x
    exact @levelVal_corr_aux isExt
      (Cppdep.calcCcd isExt { stcA with digraph := Cppdep.transRed stcA.digraph })
      (Cppdep.calcCcd isExt { stcB with digraph := Cppdep.transRed stcB.digraph })
      hAcRA hAcRB TReq levelBase_corr2
      (Cppdep.descCard (Cppdep.transRed stcA.digraph) x + 1) x (Nat.lt_succ_self _)
  have n2l_corr : ∀ x, Cppdep.assocFind x stA1.node2level =
      Cppdep.assocFind x stB1.node2level := by
    intro x
    rw [hlvfindA x, hlvfindB x]
    by_cases hx : x ∈ (Cppdep.transRed stcA.digraph).nodes
    · have hxB : x ∈ (Cppdep.transRed stcB.digraph).nodes := by
        rw [hTRnB]
        refine (Nceq x).mp ?_
        rw [← hTRnA]
        exact hx
      rw [if_pos hx, if_pos hxB, levelVal_corr2 x]
    · have hxB : x ∉ (Cppdep.transRed stcB.digraph).nodes := by
        intro hc
        refine hx ?_
        rw [hTRnA]
        refine (Nceq x).mpr ?_
        rw [← hTRnB]
        exact hc
      rw [if_neg hx, if_neg hxB]
  have hglv : ∀ n, Cppdep.getLevel stA1 n = Cppdep.getLevel stB1 n := by
    intro n
    rw [Cppdep.getLevel, Cppdep.getLevel, n2c_corr n]
    cases hf : Cppdep.assocFind n stB1.node2cycle with
    | some c => exact n2l_corr c
    | none => exact n2l_corr n
  have hfinndA : stA1.digraph.nodes.Nodup :=
    (analyze_ok_facts isExt stA stA1 hwfA hndA hbaseA hcyA hn2cA hA).2.2.1
  have hfinndB : stB1.digraph.nodes.Nodup :=
    (analyze_ok_facts isExt stB stB1 hwfB hndB hbaseB hcyB hn2cB hB).2.2.1
  have hfinalA := analyze_final_nodes isExt stA stA1 hwfA hndA hbaseA hcyA hn2cA hA
  have hfinalB := analyze_final_nodes isExt stB stB1 hwfB hndB hbaseB hcyB hn2cB hB
  have hpermFin : stA1.digraph.nodes.Perm stB1.digraph.nodes :=
    (List.perm_ext_iff_of_nodup hfinndA hfinndB).mpr
      (fun x => ((hfinalA x).trans (hnodes x)).trans (hfinalB x).symm)
  have hnum : Cppdep.numNodes isExt stA1 = Cppdep.numNodes isExt stB1 := by
    rw [Cppdep.numNodes, Cppdep.numNodes]
    exact (hpermFin.filter _).length_eq
  have haccd : Cppdep.accdOf isExt stA1 = Cppdep.accdOf isExt stB1 := by
    rw [Cppdep.accdOf, Cppdep.accdOf, hccd, hnum]
  have hnccd : Cppdep.nccdOf isExt stA1 = Cppdep.nccdOf isExt stB1 := by
    rw [Cppdep.nccdOf, Cppdep.nccdOf, hccd, hnum]
  exact ⟨by rw [hciA1, hciB1, hciceq], hglv, hccd, haccd, hnccd⟩


end GraphLemmas

section Claims

set_option maxRecDepth 100000
set_option maxHeartbeats 4000000

open Cppdep

/-- `2 ^ 37004 < 13 ^ 10000`, the integer certificate for the lower bound on
`logb 2 13`. -/
lemma pow_cert_lo : (2 : ℕ) ^ 37004 < 13 ^ 10000 := by norm_num

/-- `13 ^ 10000 < 2 ^ 37005`, the integer certificate for the upper bound on
`logb 2 13`. -/
lemma pow_cert_hi : (13 : ℕ) ^ 10000 < 2 ^ 37005 := by norm_num

lemma logb_two_thirteen_lo : (37004 / 10000 : ℝ) < Real.logb 2 13 := by
  rw [Real.lt_logb_iff_rpow_lt (by norm_num) (by norm_num)]
  have key : ((2 : ℝ) ^ ((37004 : ℝ) / 10000)) ^ (10000 : ℕ) < (13 : ℝ) ^ (10000 : ℕ) := by
    rw [← Real.rpow_natCast ((2 : ℝ) ^ ((37004 : ℝ) / 10000)) 10000,
      ← Real.rpow_mul (by norm_num)]
    have : (37004 : ℝ) / 10000 * (10000 : ℕ) = ((37004 : ℕ) : ℝ) := by norm_num
    rw [this, Real.rpow_natCast]
    exact_mod_cast pow_cert_lo
  have h2 : (0 : ℝ) ≤ (2 : ℝ) ^ ((37004 : ℝ) / 10000) := (Real.rpow_pos_of_pos (by norm_num) _).le
  exact lt_of_pow_lt_pow_left₀ 10000 (by norm_num) key

lemma logb_two_thirteen_hi : Real.logb 2 13 < (37005 / 10000 : ℝ) := by
  rw [Real.logb_lt_iff_lt_rpow (by norm_num) (by norm_num)]
  have key : (13 : ℝ) ^ (10000 : ℕ) < ((2 : ℝ) ^ ((37005 : ℝ) / 10000)) ^ (10000 : ℕ) := by
    rw [← Real.rpow_natCast ((2 : ℝ) ^ ((37005 : ℝ) / 10000)) 10000,
      ← Real.rpow_mul (by norm_num)]
    have : (37005 : ℝ) / 10000 * (10000 : ℕ) = ((37005 : ℕ) : ℝ) := by norm_num
    rw [this, Real.rpow_natCast]
    exact_mod_cast pow_cert_hi
  exact lt_of_pow_lt_pow_left₀ 10000 (Real.rpow_pos_of_pos (by norm_num) _).le key

/-- C1.  On the canonical 12-node fixture, `analyze()` succeeds and: exactly
the 3 cycles {2,6,7}, {3,8,9}, {11,12} are detected; the final digraph's
edges are exactly the original edges minus 1→5 (the only edge removed by the
transitive reduction); `get_level` assigns levels 5,4,4,1,1,4,4,4,4,3,2,2 to
nodes 1..12 (so 4 and 5 are at level 1, 11 and 12 at level 2, 10 at level 3,
2,6,7 and 3,8,9 at level 4, and 1 at level 5); the summary metrics are
CCD = 45, N = 12, ACCD = 45/12 = 3.75, and NCCD = 45/(13·log₂13 − 12), which
is within 0.005 of 1.25. -/
theorem c1_fixture_analysis :
    ((analyze extFalse fixtureSt).toOption = some fixtureOut ∧
      fixtureOut.cycles.map (fun c => c.1.members) =
        [[.base 2, .base 6, .base 7], [.base 3, .base 8, .base 9],
         [.base 11, .base 12]] ∧
      fixtureOut.digraph.edges =
        (fixtureEdges.filter (fun e => decide (e ≠ (1, 5)))).map
          (fun e => (GNode.base e.1, GNode.base e.2)) ∧
      ((List.range 12).map (fun i => getLevel fixtureOut (.base (i + 1)))) =
        [some 5, some 4, some 4, some 1, some 1, some 4,
         some 4, some 4, some 4, some 3, some 2, some 2] ∧
      ccdOf fixtureOut = 45 ∧
      numNodes extFalse fixtureOut = 12) ∧
    accdOf extFalse fixtureOut = .ok ((45 : ℚ) / 12) ∧
    |nccdOf extFalse fixtureOut - 1.25| < 0.005 := by
  have hc : ccdOf fixtureOut = 45 := by decide
  have hn : numNodes extFalse fixtureOut = 12 := by decide
  refine ⟨by decide, ?_, ?_⟩
  · rw [accdOf, hn, hc]; norm_num
  rw [nccdOf, hc, hn]
  have h13 : ((12 : ℕ) : ℝ) + 1 = 13 := by norm_num
  rw [ccdBtree, h13]
  have hlo := logb_two_thirteen_lo
  have hhi := logb_two_thirteen_hi
  have hpos : (0 : ℝ) < 13 * Real.logb 2 13 - 12 := by nlinarith
  have hub : (45 : ℝ) / (13 * Real.logb 2 13 - 12) < 1.2464 := by
    rw [div_lt_iff₀ hpos]; nlinarith
  have hlb : (1.2462 : ℝ) < 45 / (13 * Real.logb 2 13 - 12) := by
    rw [lt_div_iff₀ hpos]; nlinarith
  rw [abs_lt]
  constructor <;> nlinarith

/-- C2.  The transitive reduction preserves reachability: on any digraph
satisfying the acyclicity assertion of `Graph.__transitive_reduction`
(`assert nx.is_directed_acyclic_graph`, which holds for the condensed graph),
a node `v` is reachable from `u` before the reduction exactly when it is
reachable after it. -/
theorem c2_reduction_preserves_reachability (g : Cppdep.DG)
    (hdag : g.isDagB = true) (u v : Cppdep.GNode) :
    Cppdep.Reach g u v ↔ Cppdep.Reach (Cppdep.transRed g) u v :=
  (transRed_reach_iff (isDagB_iff.mp hdag)).symm

/-- Witness for C2: the concrete DAG 1→2→3 with redundant edge 1→3 satisfies
the hypothesis, and 3 stays reachable from 1 across the reduction. -/
theorem c2_reduction_preserves_reachability_witness :
    Cppdep.witnessDag.isDagB = true ∧
      (Cppdep.Reach Cppdep.witnessDag (.base 1) (.base 3) ↔
        Cppdep.Reach (Cppdep.transRed Cppdep.witnessDag) (.base 1) (.base 3)) :=
  ⟨by decide,
    c2_reduction_preserves_reachability Cppdep.witnessDag (by decide) (.base 1) (.base 3)⟩

/-- Counterexample to C5 as stated.  In the graph with internal node 1
depending on external node 2, the code stores CD(1) = 1 (external nodes
contribute weight 0 in `_get_cd`), while the claim's formula — weight 1 for
every ordinary node, external nodes included — yields 2.  `specCdFormula` is
the claim's own formula; the stored value differs from it. -/
theorem c5_external_weight_cex :
    (Cppdep.analyze Cppdep.extOnly2 (Cppdep.initSt (Cppdep.mkDG [1] [(1, 2)]))).toOption.map
        (fun s => (Cppdep.assocFind (.base 1) s.node2cd, Cppdep.specCdFormula s (.base 1))) =
      some (some 1, 2) ∧ (some (1 : ℕ) : Option ℕ) ≠ some 2 := by
  constructor
  · decide
  · decide

/-- C5 as amended: for every node `u` of an acyclic (reduced, condensed)
digraph, `__calculate_ccd` stores
CD(u) = weight(u) + Σ weight(v) over the nodes `v` strictly reachable from
`u`, where weight is `_get_cd`: 0 for an external node, 1 for an ordinary
node, and the member count for a cycle representative. -/
theorem c5_cd_formula_amended (isExt : Nat → Bool) (st : Cppdep.St)
    (hdag : st.digraph.isDagB = true) (n : Cppdep.GNode) (hn : n ∈ st.digraph.nodes) :
    Cppdep.assocFind n (Cppdep.calcCcd isExt st).node2cd =
      some (Cppdep.getCd isExt st n +
        ∑ v ∈ ((st.digraph.edges.map Prod.snd).toFinset).filter
            (fun v => st.digraph.reachPB n v = true), Cppdep.getCd isExt st v) ∧
    (∀ m, Cppdep.isExtG isExt m = true → Cppdep.getCd isExt st m = 0) := by
  constructor
  · rw [calcCcd_find hn, cdVal_eq_sum (isDagB_iff.mp hdag)]
  · intro m hm
    rw [Cppdep.getCd, if_pos hm]

/-- Witness for C5 as amended, at the graph 1→2 with node 2 external: the
stored CD of node 1 is 1 + 0. -/
theorem c5_cd_formula_amended_witness :
    (Cppdep.mkDG [1] [(1, 2)]).isDagB = true ∧
      (.base 1) ∈ (Cppdep.mkDG [1] [(1, 2)]).nodes ∧
      Cppdep.assocFind (.base 1)
          (Cppdep.calcCcd Cppdep.extOnly2 (Cppdep.initSt (Cppdep.mkDG [1] [(1, 2)]))).node2cd =
        some (Cppdep.getCd Cppdep.extOnly2 (Cppdep.initSt (Cppdep.mkDG [1] [(1, 2)])) (.base 1) +
          ∑ v ∈ (((Cppdep.mkDG [1] [(1, 2)]).edges.map Prod.snd).toFinset).filter
              (fun v => (Cppdep.mkDG [1] [(1, 2)]).reachPB (.base 1) v = true),
            Cppdep.getCd Cppdep.extOnly2 (Cppdep.initSt (Cppdep.mkDG [1] [(1, 2)])) v) :=
  ⟨by decide, by decide,
    (c5_cd_formula_amended Cppdep.extOnly2 (Cppdep.initSt (Cppdep.mkDG [1] [(1, 2)]))
      (by decide) (.base 1) (by decide)).1⟩

/-- Counterexample to C6 as stated.  The single ordinary node 1 has no
successors, yet after `analyze()` its level is 1, not the 0 the claim
demands for successor-less nodes. -/
theorem c6_sink_level_cex :
    (Cppdep.analyze Cppdep.extFalse (Cppdep.initSt (Cppdep.mkDG [1] []))).toOption.map
        (fun s => Cppdep.getLevel s (.base 1)) = some (some 1) ∧
      (some (1 : ℕ) : Option ℕ) ≠ some 0 := by
  constructor
  · decide
  · decide

/-- C6 as amended: on an acyclic (reduced, condensed) digraph,
`__calculate_levels` stores for every node its base value — 0 for an
external node, 1 for an ordinary node, the member count for a cycle
representative — when it has no successors, and base value plus the maximum
successor level otherwise; so only external sinks are at level 0, an
ordinary sink is at level 1.  `get_level` of a cycle member returns the
level recorded for its cycle. -/
theorem c6_level_recurrence_amended (isExt : Nat → Bool) (st : Cppdep.St)
    (hdag : st.digraph.isDagB = true) (n : Cppdep.GNode) (hn : n ∈ st.digraph.nodes)
    (hmt : st.node2level = []) :
    Cppdep.assocFind n (Cppdep.calcLevels isExt st).node2level =
      some (Cppdep.levelVal isExt st n) ∧
    (st.digraph.succs n = [] →
      Cppdep.levelVal isExt st n = Cppdep.levelBase isExt st n) ∧
    (st.digraph.succs n ≠ [] →
      Cppdep.levelVal isExt st n = Cppdep.levelBase isExt st n +
        Cppdep.maxList ((st.digraph.succs n).map (Cppdep.levelVal isExt st))) ∧
    (st.digraph.succs n = [] → Cppdep.isExtG isExt n = true →
      st.cycles.find? (fun e => decide (Cppdep.repOf e.1.members = n)) = none →
      Cppdep.levelVal isExt st n = 0) ∧
    (∀ m c, Cppdep.assocFind m st.node2cycle = some c →
      Cppdep.getLevel st m = Cppdep.assocFind c st.node2level) := by
  have hA := isDagB_iff.mp hdag
  have hrec := @levelVal_rec isExt st hA n
  refine ⟨?_, ?_, ?_, ?_, ?_⟩
  · exact calcLevels_find hn (by rw [hmt]; intro k v hv; cases hv)
  · intro hs
    rwa [if_pos hs] at hrec
  · intro hs
    rwa [if_neg hs] at hrec
  · intro hs hext hnc
    rw [hrec, if_pos hs, Cppdep.levelBase, hnc, hext]
    rfl
  · intro m c hmc
    rw [Cppdep.getLevel, hmc]

/-- Witness for C6 as amended, at the graph 1→2 with node 2 external: node 2
is an external sink. -/
theorem c6_level_recurrence_amended_witness :
    (Cppdep.mkDG [1] [(1, 2)]).isDagB = true ∧
      Cppdep.assocFind (.base 2)
          (Cppdep.calcLevels Cppdep.extOnly2 (Cppdep.initSt (Cppdep.mkDG [1] [(1, 2)]))).node2level =
        some (Cppdep.levelVal Cppdep.extOnly2 (Cppdep.initSt (Cppdep.mkDG [1] [(1, 2)])) (.base 2)) :=
  ⟨by decide,
    (c6_level_recurrence_amended Cppdep.extOnly2 (Cppdep.initSt (Cppdep.mkDG [1] [(1, 2)]))
      (by decide) (.base 2) (by decide) rfl).1⟩

/-- C3: the code fails its own assertion on the failing input.  On the graph
with nodes {1, 2} and edges {1→2, 2→1} — an isolated cycle with no boundary
edges — condensation never inserts the cycle's representative into the
digraph (it is only added through boundary `add_edge` calls), so
`Graph.__decondensation`'s own `assert self.digraph.has_node(subgraph)`
(graph.py line 110) fails and `analyze()` raises instead of returning the
original node and edge set, contradicting the round-trip property the claim
(and the code's assertion) expects. -/
theorem c3_isolated_cycle_assert_failure :
    Cppdep.errOf (Cppdep.analyze Cppdep.extFalse
        (Cppdep.initSt (Cppdep.mkDG [] [(1, 2), (2, 1)]))) = some .repMissing ∧
      (Cppdep.analyze Cppdep.extFalse
        (Cppdep.initSt (Cppdep.mkDG [] [(1, 2), (2, 1)]))).toOption = none := by
  constructor
  · decide
  · decide

/-- Counterexample to C8 as stated.  An item whose dependency set contains
itself does not have the self-dependency silently dropped: `Graph.__init__`
fails its `assert node != dependency` (graph.py line 63), so construction
raises instead of succeeding. -/
theorem c8_self_dep_cex :
    Cppdep.errOf (Cppdep.graphInit [1] (fun _ => [1]) Cppdep.extFalse) = some .selfDep ∧
      (Cppdep.graphInit [1] (fun _ => [1]) Cppdep.extFalse).toOption = none := by
  constructor
  · decide
  · decide

/-- C8 as amended: the current builder enforces rather than silently drops
self-dependencies — when construction succeeds, the produced digraph has no
self-edge at all, and condensation records no single-node cycle (each
recorded cycle has at least two members), so no item ever appears in a cycle
by itself.  (The silent dropping the claim describes lives in the callers,
which filter `dep_component != component` before the builder, and in the
legacy `make_dag`, which strips self-loop edges.) -/
theorem c8_no_self_edge_amended (nodes : List Nat) (deps : Nat → List Nat)
    (isExt : Nat → Bool) (st st2 : Cppdep.St)
    (hok : Cppdep.graphInit nodes deps isExt = .ok st)
    (hcond : Cppdep.condense st = .ok st2) :
    (∀ e ∈ st.digraph.edges, e.1 ≠ e.2) ∧
      (∀ e ∈ st2.cycles, 2 ≤ e.1.members.length) :=
  ⟨graphInit_no_self_edge hok, condense_cycles_ge2 hcond (graphInit_cycles hok)⟩

/-- Witness for C8 as amended, at nodes {1, 2} with 1 depending on 2 and 2
depending back on 1 (a two-member cycle, no self-dependency). -/
theorem c8_no_self_edge_amended_witness :
    (∀ e ∈ Cppdep.c8St.digraph.edges, e.1 ≠ e.2) ∧
      (∀ e ∈ Cppdep.c8St2.cycles, 2 ≤ e.1.members.length) :=
  c8_no_self_edge_amended [1, 2] Cppdep.depsTwo Cppdep.extFalse Cppdep.c8St Cppdep.c8St2
    rfl rfl

/-- Counterexample to C9 as stated.  On the zero-node graph, the reporting
pipeline does not terminate normally: `analyze()` itself succeeds, but
`print_levels` evaluates `max(self.node2level.values())` over an empty
collection and raises `ValueError` (modelled as `Err.emptyLevels`), so an
error is raised after all. -/
theorem c9_empty_report_cex :
    Cppdep.errOf (Cppdep.printLevelsMax Cppdep.emptyOut) = some .emptyLevels ∧
      (some Cppdep.Err.emptyLevels : Option Cppdep.Err) ≠ none := by
  constructor
  · decide
  · decide

/-- C9 as amended: on a zero-node graph `analyze()` is a no-op that returns
the unchanged empty state without error, and `print_cycles` prints nothing;
but `print_levels` raises `ValueError` on the empty `max()` and the summary
raises `ZeroDivisionError` on the zero node count, so the caller (which
never builds empty graphs; the legacy driver `calculate_graph` returns
before reporting when `size_graph == 0`) must skip the analysis itself. -/
theorem c9_empty_graph_amended :
    (Cppdep.analyze Cppdep.extFalse Cppdep.emptySt).toOption = some Cppdep.emptyOut ∧
      Cppdep.emptyOut = Cppdep.emptySt ∧
      Cppdep.printCyclesHeader Cppdep.emptyOut = none ∧
      Cppdep.errOf (Cppdep.printLevelsMax Cppdep.emptyOut) = some .emptyLevels ∧
      Cppdep.errOf (Cppdep.accdOf Cppdep.extFalse Cppdep.emptyOut) = some .zeroNodes := by
  refine ⟨?_, ?_, ?_, ?_, ?_⟩ <;> decide

/-- C10: `analyze()` may be called at most once per `Graph` instance.  On a
fresh, well-formed instance (all nodes are plain nodes, all bookkeeping
dictionaries empty) whose first `analyze` call succeeds, a second call on the
resulting state fails the `assert node not in self.node2cycle` assertion of
`__condensation` (modelled as `Err.nodeInCycleMap`) whenever the input graph
contains a cycle, and returns the state unchanged — same digraph, same level
assignments, same CD values — whenever the input graph is acyclic. -/
theorem c10_analyze_at_most_once (isExt : Nat → Bool) (st st1 : Cppdep.St)
    (hwf : Cppdep.Wf st.digraph)
    (hnd : st.digraph.nodes.Nodup)
    (hbase : ∀ n ∈ st.digraph.nodes, n.isBase = true)
    (hcy : st.cycles = [])
    (hci : st.cycle2index = [])
    (hn2c : st.node2cycle = [])
    (hlv : st.node2level = [])
    (h1 : Cppdep.analyze isExt st = .ok st1) :
    (¬ Cppdep.Acyclic st.digraph →
      Cppdep.analyze isExt st1 = .error .nodeInCycleMap) ∧
    (Cppdep.Acyclic st.digraph → Cppdep.analyze isExt st1 = .ok st1) := by
  constructor
  · intro hcyc
    exact analyze_second_run hwf hnd hbase hcy hn2c h1 hcyc
  · intro hA
    obtain ⟨st1', hok, hfix, _⟩ :=
      analyze_acyclic_fixpoint isExt st (isDagB_iff.mpr hA) hnd hcy hci hlv
    rw [h1] at hok
    cases hok
    exact hfix

/-- C10 at the concrete cyclic instance 1 ⇄ 2 with boundary edge 1 → 3: the
first `analyze` succeeds and the second call fails the `node2cycle`
assertion. -/
theorem c10_analyze_at_most_once_witness :
    Cppdep.analyze Cppdep.extFalse Cppdep.c10St1 = .error .nodeInCycleMap :=
  (c10_analyze_at_most_once Cppdep.extFalse Cppdep.c10St Cppdep.c10St1
    (by rw [Cppdep.Wf]; decide) (by decide) (by decide) rfl rfl rfl rfl rfl).1
    (fun hA => hA (Cppdep.GNode.base 1)
      (Relation.TransGen.head
        (show (Cppdep.GNode.base 1, Cppdep.GNode.base 2) ∈ Cppdep.c10St.digraph.edges
          by decide)
        (Relation.TransGen.single
          (show (Cppdep.GNode.base 2, Cppdep.GNode.base 1) ∈ Cppdep.c10St.digraph.edges
            by decide))))

/-- C4: for two fresh instances holding the same node set and edge set,
inserted in different orders, `analyze` yields the identical stable cycle
index table, the identical level for every node (through `get_level`), and
identical CCD, ACCD and NCCD summary metrics. -/
theorem c4_insertion_order_determinism (isExt : Nat → Bool)
    (stA stB stA1 stB1 : Cppdep.St)
    (hwfA : Cppdep.Wf stA.digraph) (hwfB : Cppdep.Wf stB.digraph)
    (hndA : stA.digraph.nodes.Nodup) (hndB : stB.digraph.nodes.Nodup)
    (hbaseA : ∀ n ∈ stA.digraph.nodes, n.isBase = true)
    (hbaseB : ∀ n ∈ stB.digraph.nodes, n.isBase = true)
    (hcyA : stA.cycles = []) (hcyB : stB.cycles = [])
    (hn2cA : stA.node2cycle = []) (hn2cB : stB.node2cycle = [])
    (hcdA : stA.node2cd = []) (hcdB : stB.node2cd = [])
    (hlvA : stA.node2level = []) (hlvB : stB.node2level = [])
    (hnodes : ∀ x, x ∈ stA.digraph.nodes ↔ x ∈ stB.digraph.nodes)
    (hedges : ∀ e, e ∈ stA.digraph.edges ↔ e ∈ stB.digraph.edges)
    (hA : Cppdep.analyze isExt stA = .ok stA1)
    (hB : Cppdep.analyze isExt stB = .ok stB1) :
    stA1.cycle2index = stB1.cycle2index ∧
    (∀ n, Cppdep.getLevel stA1 n = Cppdep.getLevel stB1 n) ∧
    Cppdep.ccdOf stA1 = Cppdep.ccdOf stB1 ∧
    Cppdep.accdOf isExt stA1 = Cppdep.accdOf isExt stB1 ∧
    Cppdep.nccdOf isExt stA1 = Cppdep.nccdOf isExt stB1 :=
  analyze_deterministic isExt stA stB stA1 stB1 hwfA hwfB hndA hndB hbaseA hbaseB
    hcyA hcyB hn2cA hn2cB hcdA hcdB hlvA hlvB hnodes hedges hA hB

theorem c4_insertion_order_determinism_witness :
    Cppdep.c10St1.cycle2index = Cppdep.c4StB1.cycle2index ∧
    Cppdep.getLevel Cppdep.c10St1 (Cppdep.GNode.base 1) =
      Cppdep.getLevel Cppdep.c4StB1 (Cppdep.GNode.base 1) ∧
    Cppdep.ccdOf Cppdep.c10St1 = Cppdep.ccdOf Cppdep.c4StB1 ∧
    Cppdep.accdOf Cppdep.extFalse Cppdep.c10St1 =
      Cppdep.accdOf Cppdep.extFalse Cppdep.c4StB1 :=
  have H := c4_insertion_order_determinism Cppdep.extFalse Cppdep.c10St Cppdep.c4StB
    Cppdep.c10St1 Cppdep.c4StB1
    (by rw [Cppdep.Wf]; decide) (by rw [Cppdep.Wf]; decide)
    (by decide) (by decide) (by decide) (by decide)
    rfl rfl rfl rfl rfl rfl rfl rfl
    (by
      intro x
      show x ∈ [Cppdep.GNode.base 1, Cppdep.GNode.base 2, Cppdep.GNode.base 3] ↔
        x ∈ [Cppdep.GNode.base 1, Cppdep.GNode.base 3, Cppdep.GNode.base 2]
      simp only [List.mem_cons, List.not_mem_nil, or_false]
      tauto)
    (by
      intro e
      show e ∈ [(Cppdep.GNode.base 1, Cppdep.GNode.base 2),
          (Cppdep.GNode.base 2, Cppdep.GNode.base 1),
          (Cppdep.GNode.base 1, Cppdep.GNode.base 3)] ↔
        e ∈ [(Cppdep.GNode.base 1, Cppdep.GNode.base 3),
          (Cppdep.GNode.base 2, Cppdep.GNode.base 1),
          (Cppdep.GNode.base 1, Cppdep.GNode.base 2)]
      simp only [List.mem_cons, List.not_mem_nil, or_false]
      tauto)
    rfl rfl
  ⟨H.1, H.2.1 (Cppdep.GNode.base 1), H.2.2.1, H.2.2.2.1⟩

end Claims
